import Mathlib

/-!
# Old-School Maze Game: the room generator and the player

A shallow embedding of `helmsk.buildrooms.c` (the generator) and
`helmsk.adventure.c` (the player), with the properties of the generated
graph, of the room file codec and of the player loop stated over it.

Conventions of the embedding:

* `roomArray` is a `List Room`; a `struct Room *` that points to `roomArray[j]`
  is the index `j`.
* A slot of an array that the C code has not written yet is `none`.
* A write outside an array is undefined behaviour in C; the embedding makes
  the enclosing function return `none` there.
* A `for` loop with counter `j` running over `lo, lo+1, ...` is `forLoop`
  over the list of those counter values.
-/

namespace BuildRooms

/-! ## helmsk.buildrooms.c -/

/-- The macro `MIN_CONNECTIONS`. -/
def MIN_CONNECTIONS : Nat := 3

/-- The macro `MAX_CONNECTIONS`, also the capacity of `connectingRooms`. -/
def MAX_CONNECTIONS : Nat := 6

/-- The macro `ROOMS_IN_GAME`. -/
def ROOMS_IN_GAME : Nat := 7

/-- The global `roomNames`: the pool of ten room names. -/
def roomNames : List String :=
  ["DennyDen", "BallardBurrow", "FremontForest", "MontlakeMountains", "PioneerPlains",
   "ColumbiaCaverns", "SodoSwamp", "LeschiLake", "RavennaRidge", "WallingfordWoods"]

/-- The `struct Room` of the generator. `connectingRooms` has `MAX_CONNECTIONS`
slots; a slot holds the index in `roomArray` of the room it points to. -/
structure Room where
  name : String
  maxConnections : Int
  roomType : String
  connectingRooms : List (Option Nat)
  currConnections : Nat
deriving DecidableEq, Repr

/-- A counted `for` loop over room arrays: runs `body` for each counter value
in turn, and fails as soon as one iteration fails. -/
def forLoop (body : Nat → List Room → Option (List Room)) :
    List Nat → List Room → Option (List Room)
  | [], rs => some rs
  | j :: js, rs =>
    match body j rs with
    | none => none
    | some rs1 => forLoop body js rs1

/-- The statement
`roomArray[i]->connectingRooms[roomArray[i]->currConnections] = roomArray[j];`
which writes outside the array when `currConnections` is `MAX_CONNECTIONS` or more. -/
def storeConnection (rs : List Room) (i j : Nat) : Option (List Room) :=
  match rs[i]? with
  | none => none
  | some r =>
    if r.currConnections < MAX_CONNECTIONS then
      some (rs.set i { r with connectingRooms := r.connectingRooms.set r.currConnections (some j) })
    else none

/-- The statement `roomArray[i]->currConnections++;`. -/
def incrConnections (rs : List Room) (i : Nat) : Option (List Room) :=
  match rs[i]? with
  | none => none
  | some r => some (rs.set i { r with currConnections := r.currConnections + 1 })

/-- The four statements that add the undirected edge between rooms `i` and `j`
(lines 195-198, and again 206-209). -/
def connect (rs : List Room) (i j : Nat) : Option (List Room) :=
  match storeConnection rs i j with
  | none => none
  | some rs1 =>
    match storeConnection rs1 j i with
    | none => none
    | some rs2 =>
      match incrConnections rs2 i with
      | none => none
      | some rs3 => incrConnections rs3 j

/-- The body of the scan loop of lines 204-211: room `j` is connected to room `i`
when room `j` is still below its target. -/
def scanBody (i j : Nat) (rs : List Room) : Option (List Room) :=
  match rs[j]? with
  | none => none
  | some rj =>
    if rj.maxConnections > (rj.currConnections : Int) then connect rs i j else some rs

/-- The adjustment of lines 213-214. -/
def adjustMax (rs : List Room) (i : Nat) : Option (List Room) :=
  match rs[i]? with
  | none => none
  | some r =>
    if r.maxConnections < (r.currConnections : Int) then
      some (rs.set i { r with maxConnections := (r.currConnections : Int) })
    else some rs

/-- The body of the outer loop of `createConnections` for room `i` (lines 193-216). -/
def roomStep (i : Nat) (rs : List Room) : Option (List Room) :=
  match rs[i]? with
  | none => none
  | some ri =>
    if ri.maxConnections = 6 then
      forLoop (fun j st => connect st i j) (List.range' (i + 1) (ROOMS_IN_GAME - (i + 1))) rs
    else if ri.maxConnections > (ri.currConnections : Int) then
      match forLoop (scanBody i) (List.range' (i + 1) (ROOMS_IN_GAME - (i + 1))) rs with
      | none => none
      | some rs1 => adjustMax rs1 i
    else some rs

/-- The function `createConnections`. -/
def createConnections (rs : List Room) : Option (List Room) :=
  forLoop roomStep (List.range' 0 ROOMS_IN_GAME) rs

/-- The role string that `createRooms` gives to the room at position `i`. -/
def roleOf (i : Nat) : String :=
  if i = 0 then "START_ROOM"
  else if i = ROOMS_IN_GAME - 1 then "END_ROOM"
  else "MID_ROOM"

/-- The read `roomNames[k]` for an `int` k: outside the pool it is undefined. -/
def roomNameAt (k : Int) : Option String :=
  if 0 ≤ k then roomNames[k.toNat]? else none

/-- The loop of `createRooms`, for the positions in the list: position `i` reads
`rooms[i]` and `connections[i]` and appends the new room to `roomArray`. The
`connectingRooms` array of a new room is not written. -/
def createRoomsFrom (rooms connections : List Int) : List Nat → List Room → Option (List Room)
  | [], acc => some acc
  | i :: is, acc =>
    match rooms[i]?, connections[i]? with
    | some k, some c =>
      match roomNameAt k with
      | none => none
      | some nm =>
        createRoomsFrom rooms connections is
          (acc ++ [{ name := nm, maxConnections := c, roomType := roleOf i,
                     connectingRooms := List.replicate MAX_CONNECTIONS none,
                     currConnections := 0 }])
    | _, _ => none

/-- The function `createRooms`, on the arrays `rooms` and `connections`. -/
def createRooms (rooms connections : List Int) : Option (List Room) :=
  createRoomsFrom rooms connections (List.range' 0 ROOMS_IN_GAME) []

/-- The `do ... while (index < ROOMS_IN_GAME)` loop of `createArrays`. The list
`draws` holds the values that the successive calls of `rand()` return, which are
not negative. The arguments `rooms` and `connections` are the filled parts
`rooms[0..index)` and `connections[0..index)` of the two arrays, so `index` is
`rooms.length`. One iteration draws `name`; when `name` is not yet in `rooms` it
draws `number` and stores both; the loop goes on while `index < ROOMS_IN_GAME`.
The result is `none` when the draws run out before the loop ends. -/
def createArraysLoop : List Nat → List Int → List Int → Option (List Int × List Int)
  | [], _, _ => none
  | d :: ds, rooms, connections =>
    let name : Int := ((d % 10 : Nat) : Int)
    if rooms.any (fun x => x == name) then
      if rooms.length < ROOMS_IN_GAME then createArraysLoop ds rooms connections
      else some (rooms, connections)
    else
      match ds with
      | [] => none
      | e :: es =>
        let number : Int :=
          ((e % (MAX_CONNECTIONS - MIN_CONNECTIONS + 1) + MIN_CONNECTIONS : Nat) : Int)
        if (rooms ++ [name]).length < ROOMS_IN_GAME then
          createArraysLoop es (rooms ++ [name]) (connections ++ [number])
        else some (rooms ++ [name], connections ++ [number])

/-- The function `createArrays`, on the values `draws` of `rand()`. -/
def createArrays (draws : List Nat) : Option (List Int × List Int) :=
  createArraysLoop draws [] []

/-- The rooms that room `a` lists: the slots `connectingRooms[0..currConnections)`. -/
def nbrs (rs : List Room) (a : Nat) : List (Option Nat) :=
  match rs[a]? with
  | none => []
  | some r => r.connectingRooms.take r.currConnections

/-- The text that `writeFile` prints into the file of room `r` (lines 246-251):
the name line, one line per connection `j < currConnections` with the number
`j + 1` and the name of the room that slot `j` points to, and the type line. A
slot that was never written, or that points to no room of `roomArray`, has no
name to print. -/
def roomFileText (rs : List Room) (r : Room) : Option (List Char) :=
  let connectionLine (j : Nat) : Option (List Char) :=
    match r.connectingRooms[j]? with
    | some (some k) =>
      match rs[k]? with
      | some rk =>
        some ("CONNECTION ".toList ++ (Nat.repr (j + 1)).toList ++ ": ".toList
          ++ rk.name.toList ++ [Char.ofNat 10])
      | none => none
    | _ => none
  match (List.range' 0 r.currConnections).mapM connectionLine with
  | none => none
  | some ls =>
    some ("ROOM NAME: ".toList ++ r.name.toList ++ [Char.ofNat 10] ++ ls.flatten
      ++ "ROOM TYPE: ".toList ++ r.roomType.toList ++ [Char.ofNat 10])

/-- The function `writeFile`: for every room, the file name (the room name) and
the text of the file. Every file is taken to open. -/
def writeFile (rs : List Room) : Option (List (String × List Char)) :=
  rs.mapM fun r =>
    match roomFileText rs r with
    | none => none
    | some t => some (r.name, t)

/-- The pairs of rooms that `createConnections` has already considered when it is
about to consider the pair `(i, j)`: those with a room before `i`, and those of
room `i` with a room before `j`. -/
def processed (i j a b : Nat) : Prop :=
  a < i ∨ b < i ∨ (a = i ∧ b < j) ∨ (b = i ∧ a < j)

/-- The bound on `currConnections` of room `a` when `createConnections` is about to
consider the pair `(i, j)`: the number of considered pairs that room `a` is in. -/
def countBound (i j a : Nat) : Nat :=
  if a < i then 6 else if a = i then j - 1 else if a < j then i + 1 else i

/-- The loop invariant of `createConnections`, when it is about to consider the
pair `(i, j)`. -/
structure Inv (rs : List Room) (i j : Nat) : Prop where
  len : rs.length = 7
  slots : ∀ (a : Nat) (r : Room), rs[a]? = some r → r.connectingRooms.length = 6
  bound : ∀ (a : Nat) (r : Room), rs[a]? = some r → r.currConnections ≤ countBound i j a
  nodup : ∀ a, (nbrs rs a).Nodup
  mem : ∀ a x, x ∈ nbrs rs a → ∃ b, x = some b ∧ b < 7 ∧ b ≠ a ∧ processed i j a b
  sym : ∀ a b, some b ∈ nbrs rs a → some a ∈ nbrs rs b

/-- The target `maxConnections` of room `a`, when there is such a room. -/
def maxOf (rs : List Room) (a : Nat) : Option Int :=
  match rs[a]? with
  | none => none
  | some r => some r.maxConnections

/-- The count `currConnections` of room `a`, when there is such a room. -/
def currOf (rs : List Room) (a : Nat) : Option Nat :=
  match rs[a]? with
  | none => none
  | some r => some r.currConnections

/-- Seven rooms as `createRooms` leaves them: no connection counted yet, and
`MAX_CONNECTIONS` slots each. The targets are arbitrary. -/
def Fresh (rs : List Room) : Prop :=
  rs.length = ROOMS_IN_GAME ∧
  ∀ r ∈ rs, r.currConnections = 0 ∧ r.connectingRooms.length = MAX_CONNECTIONS

/-- The generator after `createArrays`: `createRooms`, then `createConnections`. -/
def generate (rooms connections : List Int) : Option (List Room) :=
  match createRooms rooms connections with
  | none => none
  | some rs => createConnections rs

/-- A sample room array: seven fresh rooms with the targets 6, 3, 4, 5, 3, 6, 4. -/
def sampleRooms : List Room :=
  [6, 3, 4, 5, 3, 6, 4].map fun t =>
    { name := "DennyDen", maxConnections := t, roomType := "MID_ROOM",
      connectingRooms := List.replicate MAX_CONNECTIONS none, currConnections := 0 }

end BuildRooms

namespace Adventure

/-! ## helmsk.adventure.c

A C string is the list of its characters before the terminating NUL. -/

/-- The macro `MAX_CONNECTIONS`. -/
def MAX_CONNECTIONS : Nat := 6

/-- The macro `ROOMS_IN_GAME`. -/
def ROOMS_IN_GAME : Nat := 7

/-- The `struct Room` of the player. A field that was never assigned is `none`. A
slot of `connectingRooms` points to a room of its own, of which `readFile` sets
the name only and `play` reads the name only: the slot holds that name. -/
structure Room where
  name : Option (List Char)
  maxConnections : Option Int
  roomType : Option (List Char)
  connectingRooms : List (Option (List Char))
  currConnections : Nat
deriving DecidableEq, Repr

/-- The C library predicate `isspace` in the C locale. -/
def isspace (c : Char) : Bool :=
  c.toNat = 32 || (9 ≤ c.toNat && c.toNat ≤ 13)

/-- The C library predicate `isdigit`. -/
def isdigit (c : Char) : Bool :=
  48 ≤ c.toNat && c.toNat ≤ 57

/-- The directives of the `sscanf` formats of `readFile`. -/
inductive Directive where
  | space : Directive
  | lit : Char → Directive
  | int : Directive
  | str : Directive
deriving DecidableEq, Repr

/-- The directives of a format string: white space, `%d`, `%s`, and ordinary
characters. -/
def parseFormat : List Char → List Directive
  | [] => []
  | '%' :: 'd' :: rest => Directive.int :: parseFormat rest
  | '%' :: 's' :: rest => Directive.str :: parseFormat rest
  | c :: rest =>
    if isspace c then Directive.space :: parseFormat rest
    else Directive.lit c :: parseFormat rest

/-- A value that `sscanf` assigns: an `int` for `%d`, a string for `%s`. -/
inductive ScanVal where
  | int : Int → ScanVal
  | str : List Char → ScanVal
deriving DecidableEq, Repr

/-- The value of a run of decimal digits. -/
def digitsValue (ds : List Char) : Int :=
  ds.foldl (fun acc c => acc * 10 + ((c.toNat - 48 : Nat) : Int)) 0

/-- The C library function `sscanf` on a list of directives: the values assigned,
in order, up to the first directive that fails. A white-space directive skips any
white space; an ordinary character must be the next character; `%s` skips white
space and takes the longest run of characters that are not white space, which
must not be empty; `%d` skips white space and takes an optional sign and a run
of digits, which must not be empty. -/
def scanDirectives : List Directive → List Char → List ScanVal
  | [], _ => []
  | Directive.space :: ds, s => scanDirectives ds (s.dropWhile isspace)
  | Directive.lit c :: ds, s =>
    match s with
    | [] => []
    | x :: xs => if x = c then scanDirectives ds xs else []
  | Directive.str :: ds, s =>
    let s1 := s.dropWhile isspace
    let tok := s1.takeWhile (fun c => !isspace c)
    if tok = [] then [] else ScanVal.str tok :: scanDirectives ds (s1.dropWhile (fun c => !isspace c))
  | Directive.int :: ds, s =>
    let s1 := s.dropWhile isspace
    let neg := s1.head? = some '-'
    let s2 := if s1.head? = some '-' ∨ s1.head? = some '+' then s1.tail else s1
    let digs := s2.takeWhile isdigit
    if digs = [] then []
    else ScanVal.int (if neg then - digitsValue digs else digitsValue digs)
      :: scanDirectives ds (s2.dropWhile isdigit)

/-- The C library function `sscanf` with the format `fmt` on the string `s`. -/
def sscanf (s : List Char) (fmt : String) : List ScanVal :=
  scanDirectives (parseFormat fmt.toList) s

/-- The successive results of `fgets(line, n, file)` on the rest of a file: a line
ends after a newline or after `n - 1` characters. `cur` holds, in reverse, the
characters of the line being read. -/
def fgetsAll (n : Nat) : List Char → List Char → List (List Char)
  | [], cur => if cur = [] then [] else [cur.reverse]
  | c :: cs, cur =>
    if c = Char.ofNat 10 ∨ cur.length + 1 = n - 1 then (c :: cur).reverse :: fgetsAll n cs []
    else fgetsAll n cs (c :: cur)

/-- The effect of a `sscanf` whose only string argument is `input`, an array of
`cap` bytes: the `%s` token and its NUL are stored in `input`, which is a write
outside the array when the token has `cap` characters or more; without a `%s`
value `input` keeps its contents. -/
def storeInput (cap : Nat) (input : Option (List Char)) : List ScanVal → Option (Option (List Char))
  | [] => some input
  | ScanVal.int _ :: vs => storeInput cap input vs
  | ScanVal.str s :: vs =>
    if s.length + 1 ≤ cap then storeInput cap (some s) vs else none

/-- The two statements `char *temp = malloc(strlen(input)); strcpy(temp, input);`.
The block of `temp` has `usable (strlen(input))` bytes, where `usable n` is the
number of bytes that a block requested with `malloc(n)` has; `strcpy` writes the
characters of `input` and the NUL, which is a write outside the block when the
block has no byte for the NUL. The result is the string in `temp`. The contents
of an `input` that was never written are indeterminate. -/
def copyInput (usable : Nat → Nat) (input : Option (List Char)) : Option (List Char) :=
  match input with
  | none => none
  | some s => if s.length + 1 ≤ usable s.length then some s else none

/-- The local variables of `readFile` that the loop changes: the room being
filled, `count` and `input`. -/
structure ReadState where
  gameRoom : Room
  count : Nat
  input : Option (List Char)
deriving DecidableEq, Repr

/-- The body of the `while (fgets(...))` loop of `readFile` for one line
(lines 292-311). -/
def readLine (usable : Nat → Nat) (st : ReadState) (line : List Char) : Option ReadState :=
  if line.take 9 = "ROOM NAME".toList then
    match storeInput 30 st.input (sscanf line "ROOM NAME: %s\n") with
    | none => none
    | some input1 =>
      match copyInput usable input1 with
      | none => none
      | some temp =>
        some { st with gameRoom := { st.gameRoom with name := some temp }, input := input1 }
  else if line.take 10 = "CONNECTION".toList then
    if st.count < MAX_CONNECTIONS then
      match storeInput 30 st.input (sscanf line "CONNECTION %d: %s\n") with
      | none => none
      | some input1 =>
        match copyInput usable input1 with
        | none => none
        | some temp =>
          some { gameRoom := { st.gameRoom with
                   connectingRooms := st.gameRoom.connectingRooms.set st.count (some temp) },
                 count := st.count + 1, input := input1 }
    else none
  else
    match storeInput 30 st.input (sscanf line "ROOM TYPE: %s\n") with
    | none => none
    | some input1 =>
      match copyInput usable input1 with
      | none => none
      | some temp =>
        some { st with gameRoom := { st.gameRoom with roomType := some temp }, input := input1 }

/-- The loop of `readFile` over the lines of the file. -/
def readLines (usable : Nat → Nat) : List (List Char) → ReadState → Option ReadState
  | [], st => some st
  | line :: rest, st =>
    match readLine usable st line with
    | none => none
    | some st1 => readLines usable rest st1

/-- The function `readFile` on the text of the file it opens. The parameter
`usable` gives the size of the blocks of `malloc`; the C standard promises
`usable n = n` bytes and no more. -/
def readFile (usable : Nat → Nat) (text : List Char) : Option Room :=
  let fresh : Room :=
    { name := none, maxConnections := none, roomType := none,
      connectingRooms := List.replicate MAX_CONNECTIONS none, currConnections := 0 }
  match readLines usable (fgetsAll 100 text []) { gameRoom := fresh, count := 0, input := none } with
  | none => none
  | some st => some { st.gameRoom with currConnections := st.count }

/-- A string that `%s` reads back whole into `input`: not empty, without white
space, and shorter than 30 characters. -/
def GoodName (s : List Char) : Prop :=
  s ≠ [] ∧ s.length < 30 ∧ ∀ c ∈ s, isspace c = false

/-- The name line of a room file. -/
def nameLine (nm : List Char) : List Char :=
  "ROOM NAME: ".toList ++ nm ++ [Char.ofNat 10]

/-- The connection line of a room file for the slot `j`. -/
def connectionLine (j : Nat) (nm : List Char) : List Char :=
  "CONNECTION ".toList ++ (Nat.repr (j + 1)).toList ++ ": ".toList ++ nm ++ [Char.ofNat 10]

/-- The type line of a room file. -/
def typeLine (role : List Char) : List Char :=
  "ROOM TYPE: ".toList ++ role ++ [Char.ofNat 10]

/-- The connection lines of a room file for the slots `j, j + 1, ...`. -/
def connectionLines : Nat → List (List Char) → List (List Char)
  | _, [] => []
  | j, nm :: rest => connectionLine j nm :: connectionLines (j + 1) rest

/-- The local variables of `play` that its loops change, and the text printed so
far (one entry per call of a print function). `currRoom` is the index in `rooms`
of the room it points to; a variable that was never assigned is `none`; `path`
has 50 slots. -/
structure Game where
  currRoom : Option Nat
  steps : Nat
  path : List (Option Nat)
  nextRoom : Option (List Char)
  printed : List String
deriving DecidableEq, Repr

/-- The search for the start room (lines 338-341), for the positions in the list:
the variable `currRoom` ends at the last room of type `START_ROOM`. -/
def findStart (rooms : List Room) : List Nat → Option Nat → Option (Option Nat)
  | [], curr => some curr
  | i :: is, curr =>
    match rooms[i]? with
    | some r =>
      match r.roomType with
      | some t => findStart rooms is (if t = "START_ROOM".toList then some i else curr)
      | none => none
    | none => none

/-- The state of `play` when it enters its loop. -/
def startGame (rooms : List Room) : Option Game :=
  match findStart rooms (List.range' 0 ROOMS_IN_GAME) none with
  | none => none
  | some curr =>
    some { currRoom := curr, steps := 0, path := List.replicate 50 none, nextRoom := none,
           printed := [] }

/-- The names that the loop of lines 353-358 prints, each with `, ` after it, the
last with a period and a newline after it. -/
def printConnections (c : Room) : List Nat → Option (List String)
  | [] => some []
  | i :: is =>
    match c.connectingRooms[i]? with
    | some (some nm) =>
      match printConnections c is with
      | none => none
      | some rest =>
        some ((if i + 1 < c.currConnections then String.mk nm ++ ", " else String.mk nm ++ ".\n")
          :: rest)
    | _ => none

/-- Lines 363-365: the newline that ends `input`, when there is one, is replaced
by the NUL. An empty `input` makes the code read `input[-1]`. -/
def stripNewline (input : List Char) : Option (List Char) :=
  match input.getLast? with
  | none => none
  | some c => if c = Char.ofNat 10 then some input.dropLast else some input

/-- The loop of lines 367-372 over the connections of the current room, for the
positions in the list, on the pair of `valid` and `nextRoom`. -/
def matchConnections (c : Room) (input : List Char) :
    List Nat → Nat × Option (List Char) → Option (Nat × Option (List Char))
  | [], acc => some acc
  | i :: is, acc =>
    match c.connectingRooms[i]? with
    | some (some nm) => matchConnections c input is (if input = nm then (1, some nm) else acc)
    | _ => none

/-- One pass of the inner `do ... while (valid == 0)` loop (lines 349-384), on the
string `line` that `fgets` stores in `input`: the new value of `valid` and the new
state. -/
def ask (rooms : List Room) (g : Game) (line : List Char) : Option (Nat × Game) :=
  match g.currRoom with
  | none => none
  | some ci =>
    match rooms[ci]? with
    | none => none
    | some c =>
      match c.name, printConnections c (List.range' 0 c.currConnections), stripNewline line with
      | some cname, some conns, some input =>
        match matchConnections c input (List.range' 0 c.currConnections) (0, g.nextRoom) with
        | none => none
        | some (valid0, next) =>
          let valid := if input = "time".toList then 2 else valid0
          let shown := ["CURRENT LOCATION: " ++ String.mk cname ++ "\n", "POSSIBLE CONNECTIONS: "]
            ++ conns ++ ["WHERE TO? >"]
            ++ (if valid = 0 then ["\nHUH? I DON'T UNDERSTAND THAT ROOM.  TRY AGAIN\n"] else [])
            ++ ["\n"]
          some (valid, { g with nextRoom := next, printed := g.printed ++ shown })
      | _, _, _ => none

/-- The loop of lines 390-395 over `rooms`, for the positions in the list: a room
named `nextRoom` becomes the current room and its index is written to
`path[steps - 1]`, which has to be one of the 50 slots. -/
def enterRoom (rooms : List Room) (next : List Char) : List Nat → Game → Option Game
  | [], g => some g
  | i :: is, g =>
    match rooms[i]? with
    | some r =>
      match r.name with
      | some nm =>
        if nm = next then
          if 1 ≤ g.steps ∧ g.steps - 1 < 50 then
            enterRoom rooms next is
              { g with currRoom := some i, path := g.path.set (g.steps - 1) (some i) }
          else none
        else enterRoom rooms next is g
      | none => none
    | none => none

/-- The rest of the body of the outer loop once `valid` is not 0 (lines 387-406).
`timeFile` is the text of `currentTime.txt` when the file opens. The calls on the
thread and on the mutex (lines 346 and 375-378) change none of these variables
and are left out. -/
def advance (rooms : List Room) (timeFile : Option String) (valid : Nat) (g : Game) :
    Option Game :=
  if valid = 1 then
    match g.nextRoom with
    | none => none
    | some next =>
      enterRoom rooms next (List.range' 0 ROOMS_IN_GAME) { g with steps := g.steps + 1 }
  else if valid = 2 then
    match timeFile with
    | some text => some { g with printed := g.printed ++ [text] }
    | none => some g
  else some g

/-- What `play` does with one line of input: one pass of the inner loop, and, when
the line is valid, the rest of the body of the outer loop; an invalid line leads
back to the prompt. -/
def playLine (rooms : List Room) (timeFile : Option String) (g : Game) (line : List Char) :
    Option Game :=
  match ask rooms g line with
  | none => none
  | some (valid, g1) => if valid = 0 then some g1 else advance rooms timeFile valid g1

/-- The names that room `c` lists: the slots `connectingRooms[0..currConnections)`. -/
def adjacent (c : Room) : List (Option (List Char)) :=
  c.connectingRooms.take c.currConnections

/-- A loaded graph as the player expects it: seven rooms with pairwise distinct
names, each with at most `MAX_CONNECTIONS` connections, and every connection of
a room is the name of a loaded room. -/
def WellFormed (rooms : List Room) : Prop :=
  rooms.length = ROOMS_IN_GAME ∧
  (∀ r ∈ rooms, r.name ≠ none) ∧
  (rooms.map (fun r => r.name)).Nodup ∧
  ∀ r ∈ rooms, r.connectingRooms.length = MAX_CONNECTIONS ∧
    r.currConnections ≤ MAX_CONNECTIONS ∧
    ∀ x ∈ adjacent r, ∃ nm, x = some nm ∧ ∃ r1 ∈ rooms, r1.name = some nm

/-- A sample loaded graph: a ring of seven rooms, the first the start room, the
last the end room. -/
def ringRooms : List Room :=
  let names : List String := ["DennyDen", "BallardBurrow", "FremontForest",
    "MontlakeMountains", "PioneerPlains", "ColumbiaCaverns", "SodoSwamp"]
  (List.range' 0 7).map fun i =>
    { name := some (names.getD i "").toList, maxConnections := none,
      roomType := some (if i = 0 then "START_ROOM" else if i = 6 then "END_ROOM"
        else "MID_ROOM").toList,
      connectingRooms := [some (names.getD ((i + 1) % 7) "").toList,
        some (names.getD ((i + 6) % 7) "").toList, none, none, none, none],
      currConnections := 2 }

/-- A graph with a room named `time`, which is not a name of the pool of the
generator: the ring `ringRooms` with the second room renamed to `time`. -/
def timeRooms : List Room :=
  ringRooms.map fun r =>
    { r with
      name := r.name.map (fun nm => if nm = "BallardBurrow".toList then "time".toList else nm),
      connectingRooms := r.connectingRooms.map (Option.map
        (fun nm => if nm = "BallardBurrow".toList then "time".toList else nm)) }


/-! ## The loop of `play` and `displayTime` -/

/-- A record kept beside a run of `play`, which no statement of `play` reads: the
number of calls of `pthread_create`, the number of calls of `pthread_join`, and
the rooms that valid moves made the current room, oldest first. -/
structure Log where
  created : Nat
  joined : Nat
  entered : List Nat
deriving DecidableEq, Repr

/-- The test of the outer loop (line 408): the loop goes on while the current room
is not of type `END_ROOM` and `steps` is below 50. -/
def goesOn (rooms : List Room) (g : Game) : Option Bool :=
  match g.currRoom with
  | none => none
  | some ci =>
    match rooms[ci]? with
    | none => none
    | some c =>
      match c.roomType with
      | none => none
      | some t => some (decide (t ≠ "END_ROOM".toList) && decide (g.steps < 50))

/-- How a run of the loop of `play` on the strings typed so far ends: the loop has
ended, with the strings it did not read, or it waits at `fgets` for one more. -/
inductive Run where
  | finished : Game → Log → List (List Char) → Run
  | waiting : Game → Log → Run
deriving DecidableEq, Repr

/-- The state of the variables of `play` at the end of a run. -/
def Run.game : Run → Game
  | Run.finished g _ _ => g
  | Run.waiting g _ => g

/-- The record kept beside a run, at its end. -/
def Run.log : Run → Log
  | Run.finished _ log _ => log
  | Run.waiting _ log => log

/-- The two nested loops of `play` (lines 343-408), from a prompt of the inner loop.
The list holds the strings that the successive calls of `fgets` store in `input`;
`timeFile k` is the text of `currentTime.txt` after `k` earlier `time` commands.
An invalid string leads back to the prompt. A valid one runs the rest of the body
of the outer loop; a `time` command joins the clock thread (line 377); when the
test of line 408 holds, the next pass of the outer loop creates a clock thread
(line 346) and prompts again. -/
def playLoop (rooms : List Room) (timeFile : Nat → Option String) :
    List (List Char) → Game → Log → Option Run
  | [], g, log => some (Run.waiting g log)
  | line :: rest, g, log =>
    match ask rooms g line with
    | none => none
    | some (valid, g1) =>
      if valid = 0 then playLoop rooms timeFile rest g1 log
      else
        match advance rooms (timeFile log.joined) valid g1 with
        | none => none
        | some g2 =>
          match goesOn rooms g2 with
          | none => none
          | some true =>
            playLoop rooms timeFile rest g2
              { created := log.created + 1,
                joined := if valid = 2 then log.joined + 1 else log.joined,
                entered := if valid = 1 then log.entered ++ g2.currRoom.toList else log.entered }
          | some false =>
            some (Run.finished g2
              { created := log.created,
                joined := if valid = 2 then log.joined + 1 else log.joined,
                entered := if valid = 1 then log.entered ++ g2.currRoom.toList else log.entered }
              rest)

/-- The function `play` up to the end of its loop (lines 336-408): the search for
the start room, the first pass of the outer loop, which creates the first clock
thread, and the loop. -/
def play (rooms : List Room) (timeFile : Nat → Option String) (inputs : List (List Char)) :
    Option Run :=
  match startGame rooms with
  | none => none
  | some g => playLoop rooms timeFile inputs g { created := 1, joined := 0, entered := [] }

/-- What one pass of the inner loop prints before it reads `input` (lines 350-360),
for the name of the current room and the printed connections. -/
def promptText (cname : List Char) (conns : List String) : List String :=
  ["CURRENT LOCATION: " ++ String.mk cname ++ "\n", "POSSIBLE CONNECTIONS: "] ++ conns
    ++ ["WHERE TO? >"]

/-- The message of line 382. -/
def errorMessage : String :=
  "\nHUH? I DON'T UNDERSTAND THAT ROOM.  TRY AGAIN\n"

/-- The message of line 411. -/
def failureMessage : String :=
  "IT TOOK YOU 50 STEPS AND YOU STILL COULDN'T SOLVE IT... SAD!\n"

/-- The message of line 416. -/
def congratulations : String :=
  "YOU HAVE FOUND THE END ROOM. CONGRATULATIONS!\n"

/-- The message of line 417. -/
def stepsMessage (steps : Nat) : String :=
  "YOU TOOK " ++ toString steps ++ " STEPS.  YOUR PATH TO VICTORY WAS:\n"

/-- The loop of lines 419-422, for the positions in the list: the name of the room
`rooms[path[i]]` and a newline. -/
def pathLines (rooms : List Room) (g : Game) : List Nat → Option (List String)
  | [] => some []
  | i :: is =>
    match g.path[i]? with
    | some (some index) =>
      match rooms[index]? with
      | some r =>
        match r.name, pathLines rooms g is with
        | some nm, some rest => some ((String.mk nm ++ "\n") :: rest)
        | _, _ => none
      | none => none
    | _ => none

/-- What `play` prints after its loop (lines 410-423). -/
def playEnd (rooms : List Room) (g : Game) : Option (List String) :=
  if g.steps = 50 then some [failureMessage]
  else
    match g.currRoom with
    | none => none
    | some ci =>
      match rooms[ci]? with
      | none => none
      | some c =>
        match c.roomType with
        | none => none
        | some t =>
          if t = "END_ROOM".toList then
            match pathLines rooms g (List.range' 0 g.steps) with
            | none => none
            | some ls => some ([congratulations, stepsMessage g.steps] ++ ls)
          else some []

/-- Room `b` has a name that room `a` lists among its connections. -/
def adjacentTo (rooms : List Room) (a b : Nat) : Bool :=
  match rooms[a]?, rooms[b]? with
  | some ra, some rb => rb.name.isSome && decide (rb.name ∈ adjacent ra)
  | _, _ => false

/-- A well-formed loaded graph with its roles: every room has a type and some room
is the start room. -/
def Loaded (rooms : List Room) : Prop :=
  WellFormed rooms ∧ (∀ r ∈ rooms, r.roomType ≠ none) ∧
  ∃ r ∈ rooms, r.roomType = some "START_ROOM".toList

/-- The name of room `t`. -/
def roomName (rooms : List Room) (t : Nat) : List Char :=
  match rooms[t]? with
  | some r => r.name.getD []
  | none => []

/-- The type of room `t` is `END_ROOM`. -/
def isEnd (rooms : List Room) (t : Nat) : Bool :=
  match rooms[t]? with
  | some r => decide (r.roomType = some "END_ROOM".toList)
  | none => false

/-- What holds of the state of `play` and of the record of the run at every prompt
and at the end of the loop, for the start room `start`: the current room is the
room entered last, the record has one room per step, `path[0..steps)` holds
the rooms of the record in order, and every room of the record is adjacent to
the one before it, the first to the start room. -/
structure LoopInv (rooms : List Room) (start : Nat) (g : Game) (log : Log) : Prop where
  cur : g.currRoom = some (log.entered.getLastD start)
  startRoom : start < rooms.length
  inRange : ∀ t ∈ log.entered, t < rooms.length
  steps : log.entered.length = g.steps
  bound : g.steps ≤ 50
  plen : g.path.length = 50
  path : g.path.take g.steps = log.entered.map some
  chain : List.Chain (fun a b => adjacentTo rooms a b = true) start log.entered

/-- The number of `time` commands among the strings read. -/
def timeCommands (lines : List (List Char)) : Nat :=
  (lines.filter fun l => decide (stripNewline l = some "time".toList)).length

/-- The index of the first room named `nm`, counted from `k`. -/
def roomNamed (nm : List Char) : List Room → Nat → Option Nat
  | [], _ => none
  | r :: rest, k => if r.name = some nm then some k else roomNamed nm rest (k + 1)

/-- The room that a string asks to move to from room `c`: the string without its
newline is not the word `time` and is the name of a room that room `c` lists. -/
def moveTarget (rooms : List Room) (c : Nat) (line : List Char) : Option Nat :=
  match stripNewline line, rooms[c]? with
  | some input, some rc =>
    if input ≠ "time".toList ∧ some input ∈ adjacent rc then roomNamed input rooms 0 else none
  | _, _ => none

/-- Every string of the list is a valid move from the room reached so far, starting
in room `c`, and none of the moves enters a room of type `END_ROOM`. -/
def movesAvoidingEnd (rooms : List Room) : Nat → List (List Char) → Bool
  | _, [] => true
  | c, line :: rest =>
    match moveTarget rooms c line with
    | none => false
    | some t =>
      match rooms[t]? with
      | none => false
      | some rt =>
        decide (rt.roomType ≠ some "END_ROOM".toList) && movesAvoidingEnd rooms t rest

/-- The strings that `fgets` stores for the lines that hold the given room names. -/
def typed (names : List String) : List (List Char) :=
  names.map fun nm => nm.toList ++ [Char.ofNat 10]

/-- Fifty moves in `ringRooms` of which the last one enters the end room: five
moves from the start room to `ColumbiaCaverns`, 22 times to `PioneerPlains` and
back, and the move to `SodoSwamp`. -/
def fiftyMovesToEnd : List (List Char) :=
  typed (["BallardBurrow", "FremontForest", "MontlakeMountains", "PioneerPlains",
      "ColumbiaCaverns"]
    ++ (List.replicate 22 ["PioneerPlains", "ColumbiaCaverns"]).flatten
    ++ ["SodoSwamp"])

/-- Fifty moves in `ringRooms` that never enter the end room: 25 times to
`BallardBurrow` and back to the start room. -/
def fiftyMovesAround : List (List Char) :=
  typed (List.replicate 25 ["BallardBurrow", "DennyDen"]).flatten

/-- The state of `play` when it enters its loop on `ringRooms`. -/
def ringStart : Game :=
  { currRoom := some 0, steps := 0, path := List.replicate 50 none, nextRoom := none,
    printed := [] }

/-- The state of `play` on `ringRooms` after the one move `SodoSwamp`, which enters
the end room. -/
def ringSolved : Game :=
  { currRoom := some 6, steps := 1, path := some 6 :: List.replicate 49 none,
    nextRoom := some "SodoSwamp".toList,
    printed := ["CURRENT LOCATION: DennyDen\n", "POSSIBLE CONNECTIONS: ", "BallardBurrow, ",
      "SodoSwamp.\n", "WHERE TO? >", "\n"] }

/-- The fields of `struct tm` that `displayTime` reads. -/
structure Tm where
  tm_min : Int
  tm_hour : Int
  tm_mday : Int
  tm_mon : Int
  tm_year : Int
  tm_wday : Int
deriving DecidableEq, Repr

/-- Lines 115-124 of `displayTime`: the hour to print and `am` or `pm`. -/
def clockHour (tm_hour : Int) : Int × String :=
  if tm_hour > 12 then (tm_hour - 12, "pm")
  else if tm_hour = 0 then (12, "am")
  else (tm_hour, "am")

/-- The `switch` of lines 129-150 of `displayTime`. -/
def dayName (iday : Int) : String :=
  if iday = 0 then "Sunday"
  else if iday = 1 then "Monday"
  else if iday = 2 then "Tuesday"
  else if iday = 3 then "Wednesday"
  else if iday = 4 then "Thursday"
  else if iday = 5 then "Friday"
  else "Saturday"

/-- The `switch` of lines 153-189 of `displayTime`. -/
def monthName (imonth : Int) : String :=
  if imonth = 0 then "January"
  else if imonth = 1 then "February"
  else if imonth = 2 then "March"
  else if imonth = 3 then "April"
  else if imonth = 4 then "May"
  else if imonth = 5 then "June"
  else if imonth = 6 then "July"
  else if imonth = 7 then "August"
  else if imonth = 8 then "September"
  else if imonth = 9 then "October"
  else if imonth = 10 then "November"
  else "December"

/-- The conversion `%d` of `fprintf`. -/
def printInt (n : Int) : String :=
  toString n

/-- The conversion `%02d` of `fprintf`: the text of `%d`, with zeros in front up to
a width of two characters. -/
def printInt02 (n : Int) : String :=
  if (toString n).length < 2 then "0" ++ toString n else toString n

/-- The function `displayTime` on the local time that `localtime` returns: the
text that it writes to `currentTime.txt` (line 198). The file is taken to open,
and the `int` sum `tm_year + 1900` to be the sum of the numbers. The calls on the
mutex are left out. -/
def displayTime (timeinfo : Tm) : String :=
  let hour := (clockHour timeinfo.tm_hour).1
  let ampm := (clockHour timeinfo.tm_hour).2
  let minute := timeinfo.tm_min
  let day := dayName timeinfo.tm_wday
  let month := monthName timeinfo.tm_mon
  let date := timeinfo.tm_mday
  let year := timeinfo.tm_year + 1900
  printInt hour ++ ":" ++ printInt02 minute ++ ampm ++ ", " ++ day ++ ", " ++ month ++ " "
    ++ printInt date ++ ", " ++ printInt year ++ "\n\n"

/-- A sample local time: Saturday, December 5, 2026, at 15:45. -/
def sampleTime : Tm :=
  { tm_min := 45, tm_hour := 15, tm_mday := 5, tm_mon := 11, tm_year := 126, tm_wday := 6 }

/-- A local time at noon: Friday, October 30, 2026, at 12:05. -/
def noonTime : Tm :=
  { tm_min := 5, tm_hour := 12, tm_mday := 30, tm_mon := 9, tm_year := 126, tm_wday := 5 }

/-- The English names of the days of the week, from Sunday. -/
def weekdayNames : List String :=
  ["Sunday", "Monday", "Tuesday", "Wednesday", "Thursday", "Friday", "Saturday"]

/-- The English names of the months, from January. -/
def monthNames : List String :=
  ["January", "February", "March", "April", "May", "June", "July", "August", "September",
   "October", "November", "December"]

/-- A number below 100 as two decimal digits. -/
def twoDigits (m : Nat) : String :=
  String.mk [Char.ofNat (48 + m / 10), Char.ofNat (48 + m % 10)]


/-! ## The thread of `play` and the clock threads -/

/-- A holder of `myMutex`: the thread that runs `play`, or the clock thread created
by the `i`-th call of `pthread_create`, counted from 0. -/
inductive Owner where
  | main : Owner
  | task : Nat → Owner
deriving DecidableEq, Repr

/-- Where the thread that runs `play` stands: before the `pthread_mutex_lock` of
line 336; before the `pthread_create` of line 346; in the inner loop, before it
handles the string read (lines 349-373); after the `pthread_mutex_unlock` of line
375; after the `pthread_join` of line 377; after the `pthread_mutex_lock` of line
378, up to the `fopen` of line 400; with `currentTime.txt` open for reading (lines
401-404); at the test of the outer loop (line 408); after the loop. -/
inductive MainAt where
  | entry : MainAt
  | create : MainAt
  | prompt : MainAt
  | released : MainAt
  | joined : MainAt
  | locked : MainAt
  | reading : MainAt
  | test : MainAt
  | after : MainAt
deriving DecidableEq, Repr

/-- Where a thread that runs `displayTime` stands: before the `pthread_mutex_lock`
of line 99; after it, up to the `fopen` of line 197; with `currentTime.txt` open
for writing (lines 197-199); after the `fclose` of line 199; after the
`pthread_mutex_unlock` of line 201. -/
inductive TaskAt where
  | parked : TaskAt
  | started : TaskAt
  | writing : TaskAt
  | written : TaskAt
  | finished : TaskAt
deriving DecidableEq, Repr

/-- The threads of the game and the mutex: where the thread of `play` stands, where
each clock thread stands, in the order of their creation (the last one is the
thread that `myThread` names), and who holds `myMutex`, if anyone. -/
structure Sys where
  main : MainAt
  tasks : List TaskAt
  mutex : Option Owner
deriving DecidableEq, Repr

/-- What the string read by one pass of the inner loop is: neither a connection nor
`time` (`valid == 0`), a connection (`valid == 1`), or `time` (`valid == 2`). -/
inductive Command where
  | invalid : Command
  | move : Command
  | time : Command
deriving DecidableEq, Repr

/-- One step of one thread: a step of the thread of `play`, with what the data
decide at that point (the string read, when it handles the input; whether
`currentTime.txt` opens, at line 400; whether the test of line 408 holds, at the
test), or a step of clock thread `i`. -/
inductive Event where
  | main : Command → Bool → Bool → Event
  | task : Nat → Event
deriving DecidableEq, Repr

/-- The thread of `play` holds `myMutex` at this point of its code. -/
def MainAt.holds : MainAt → Bool
  | MainAt.entry => false
  | MainAt.released => false
  | MainAt.joined => false
  | _ => true

/-- A clock thread holds `myMutex` at this point of its code. -/
def TaskAt.holds : TaskAt → Bool
  | TaskAt.started => true
  | TaskAt.writing => true
  | TaskAt.written => true
  | _ => false

/-- The next step of the thread that runs `play`, when it can take one:
`pthread_mutex_lock` (lines 336 and 378) waits until nobody holds the mutex, and
`pthread_join` (line 377) until the thread that `myThread` names has returned.
An invalid string leads back to the prompt, a move to the test of the outer loop,
and `time` to the `pthread_mutex_unlock` of line 375; the file is read after the
inner loop (lines 398-406). Lines 424-425, after the loop, are left out. -/
def mainStep (s : Sys) (cmd : Command) (opens again : Bool) : Option Sys :=
  match s.main with
  | MainAt.entry =>
    if s.mutex = none then some { s with main := MainAt.create, mutex := some Owner.main }
    else none
  | MainAt.create => some { s with main := MainAt.prompt, tasks := s.tasks ++ [TaskAt.parked] }
  | MainAt.prompt =>
    match cmd with
    | Command.invalid => some s
    | Command.move => some { s with main := MainAt.test }
    | Command.time =>
      if s.mutex = some Owner.main then some { s with main := MainAt.released, mutex := none }
      else none
  | MainAt.released =>
    if s.tasks[s.tasks.length - 1]? = some TaskAt.finished then
      some { s with main := MainAt.joined }
    else none
  | MainAt.joined =>
    if s.mutex = none then some { s with main := MainAt.locked, mutex := some Owner.main }
    else none
  | MainAt.locked => some { s with main := if opens then MainAt.reading else MainAt.test }
  | MainAt.reading => some { s with main := MainAt.test }
  | MainAt.test => some { s with main := if again then MainAt.create else MainAt.after }
  | MainAt.after => none

/-- The next step of clock thread `i`, which runs `displayTime`, when it can take
one: `pthread_mutex_lock` (line 99) waits until nobody holds the mutex. -/
def clockStep (s : Sys) (i : Nat) : Option Sys :=
  match s.tasks[i]? with
  | some TaskAt.parked =>
    if s.mutex = none then
      some { s with tasks := s.tasks.set i TaskAt.started, mutex := some (Owner.task i) }
    else none
  | some TaskAt.started => some { s with tasks := s.tasks.set i TaskAt.writing }
  | some TaskAt.writing => some { s with tasks := s.tasks.set i TaskAt.written }
  | some TaskAt.written =>
    if s.mutex = some (Owner.task i) then
      some { s with tasks := s.tasks.set i TaskAt.finished, mutex := none }
    else none
  | _ => none

/-- One step of the threads. -/
def step (s : Sys) : Event → Option Sys
  | Event.main cmd opens again => mainStep s cmd opens again
  | Event.task i => clockStep s i

/-- The steps of an interleaving, one after the other. -/
def interleave (s : Sys) : List Event → Option Sys
  | [] => some s
  | e :: es =>
    match step s e with
    | none => none
    | some s1 => interleave s1 es

/-- The threads when `play` is called: no clock thread yet, the mutex free. -/
def initial : Sys :=
  { main := MainAt.entry, tasks := [], mutex := none }

/-- What holds of the threads and the mutex after every step: the mutex is held by
the thread of `play` exactly at the points of its code between a lock and the next
unlock, and by clock thread `i` exactly when that thread is between its lock and
its unlock; and from the return of `pthread_join` until the file is read, the
thread that `myThread` names has returned. -/
structure SysInv (s : Sys) : Prop where
  mainHolds : s.main.holds = true ↔ s.mutex = some Owner.main
  taskHolds : ∀ i t, s.tasks[i]? = some t → (t.holds = true ↔ s.mutex = some (Owner.task i))
  joined : s.main = MainAt.joined ∨ s.main = MainAt.locked ∨ s.main = MainAt.reading →
    s.tasks[s.tasks.length - 1]? = some TaskAt.finished

/-- An interleaving in which the player moves once and then asks for the time: the
thread of `play` locks the mutex, creates clock thread 0, reads a move, creates
clock thread 1, reads `time` and unlocks; clock thread 1 writes the file;
`play` joins it; clock thread 0 takes the mutex and writes the file; `play` takes
the mutex when it is free again and opens the file. -/
def sampleInterleaving : List Event :=
  [Event.main Command.invalid true true, Event.main Command.invalid true true,
   Event.main Command.move true true, Event.main Command.invalid true true,
   Event.main Command.invalid true true, Event.main Command.time true true,
   Event.task 1, Event.task 1, Event.task 1, Event.task 1,
   Event.main Command.invalid true true,
   Event.task 0, Event.task 0, Event.task 0, Event.task 0,
   Event.main Command.invalid true true, Event.main Command.invalid true true]

end Adventure

namespace BuildRooms

/-! ## Lemmas on the loops of the generator -/

/-- Hoare rule for `forLoop` over the counter values `lo, ..., lo + n - 1`. -/
theorem forLoop_rule (body : Nat → List Room → Option (List Room))
    (P : Nat → List Room → Prop) :
    ∀ (n lo : Nat) (rs : List Room), P lo rs →
      (∀ j st, lo ≤ j → j < lo + n → P j st → ∃ st1, body j st = some st1 ∧ P (j + 1) st1) →
      ∃ rs1, forLoop body (List.range' lo n) rs = some rs1 ∧ P (lo + n) rs1 := by
  intro n
  induction n with
  | zero =>
    intro lo rs h _
    exact ⟨rs, by simp [forLoop], by simpa using h⟩
  | succ n ih =>
    intro lo rs h hstep
    obtain ⟨st1, hb, hP⟩ := hstep lo rs (Nat.le_refl _) (by omega) h
    obtain ⟨rs1, hl, hQ⟩ := ih (lo + 1) st1 hP
      (fun j st h1 h2 hp => hstep j st (by omega) (by omega) hp)
    refine ⟨rs1, ?_, ?_⟩
    · rw [List.range'_succ]
      simp only [forLoop, hb]
      exact hl
    · have e : lo + (n + 1) = lo + 1 + n := by omega
      rw [e]
      exact hQ

theorem take_set_succ {α : Type} (l : List α) (k : Nat) (x : α) (h : k < l.length) :
    (l.set k x).take (k + 1) = l.take k ++ [x] := by
  induction l generalizing k with
  | nil => simp at h
  | cons y ys ih =>
    cases k with
    | zero => simp
    | succ k =>
      simp only [List.set_cons_succ, List.take_succ_cons, List.cons_append, List.cons.injEq, true_and]
      exact ih k (by simpa using h)

/-- What `connect` does to the array when both writes are inside `connectingRooms`. -/
theorem connect_eq (rs : List Room) (i j : Nat) (ri rj : Room)
    (hi : rs[i]? = some ri) (hj : rs[j]? = some rj) (hij : i ≠ j)
    (hci : ri.currConnections < 6) (hcj : rj.currConnections < 6) :
    ∃ rs1, connect rs i j = some rs1 ∧ rs1.length = rs.length ∧
      rs1[i]? = some { ri with
        connectingRooms := ri.connectingRooms.set ri.currConnections (some j),
        currConnections := ri.currConnections + 1 } ∧
      rs1[j]? = some { rj with
        connectingRooms := rj.connectingRooms.set rj.currConnections (some i),
        currConnections := rj.currConnections + 1 } ∧
      ∀ a, a ≠ i → a ≠ j → rs1[a]? = rs[a]? := by
  have hil : i < rs.length := by
    rcases List.getElem?_eq_some_iff.mp hi with ⟨h, _⟩; exact h
  have hjl : j < rs.length := by
    rcases List.getElem?_eq_some_iff.mp hj with ⟨h, _⟩; exact h
  have hji : j ≠ i := fun h => hij h.symm
  simp only [connect, storeConnection, incrConnections, hi, MAX_CONNECTIONS, hci, if_true]
  simp only [List.getElem?_set_ne hij, hj, hcj, if_true]
  simp only [List.getElem?_set_ne hji, List.getElem?_set_self, List.length_set, hil, hjl]
  simp only [List.getElem?_set_ne hij, List.getElem?_set_self, List.length_set, hil, hjl]
  refine ⟨_, rfl, by simp, ?_, ?_, ?_⟩
  · simp [List.getElem?_set_ne hji, hil]
  · simp [hjl]
  · intro a hai haj
    simp [List.getElem?_set_ne (Ne.symm hai), List.getElem?_set_ne (Ne.symm haj)]


theorem nbrs_of {rs : List Room} {a : Nat} {r : Room} (h : rs[a]? = some r) :
    nbrs rs a = r.connectingRooms.take r.currConnections := by
  simp [nbrs, h]

theorem nbrs_congr {rs rs1 : List Room} {a : Nat} (h : rs1[a]? = rs[a]?) :
    nbrs rs1 a = nbrs rs a := by
  simp [nbrs, h]

theorem processed_mono {i j a b : Nat} (h : processed i j a b) : processed i (j + 1) a b := by
  unfold processed at *
  omega

theorem countBound_mono (i j a : Nat) : countBound i j a ≤ countBound i (j + 1) a := by
  unfold countBound
  split_ifs <;> omega

/-- Skipping the pair `(i, j)` keeps the invariant. -/
theorem Inv.skip {rs : List Room} {i j : Nat} (h : Inv rs i j) : Inv rs i (j + 1) where
  len := h.len
  slots := h.slots
  bound := fun a r hr => Nat.le_trans (h.bound a r hr) (countBound_mono i j a)
  nodup := h.nodup
  mem := fun a x hx => by
    obtain ⟨b, h1, h2, h3, h4⟩ := h.mem a x hx
    exact ⟨b, h1, h2, h3, processed_mono h4⟩
  sym := h.sym

/-- The end of the turn of room `i` is the start of the turn of room `i + 1`. -/
theorem Inv.next {rs : List Room} {i : Nat} (h : Inv rs i 7) : Inv rs (i + 1) (i + 2) where
  len := h.len
  slots := h.slots
  bound := fun a r hr => by
    have hb := h.bound a r hr
    have ha : a < 7 := by
      rcases List.getElem?_eq_some_iff.mp hr with ⟨h1, _⟩
      rw [h.len] at h1; exact h1
    unfold countBound at *
    split_ifs at hb ⊢ <;> omega
  nodup := h.nodup
  mem := fun a x hx => by
    obtain ⟨b, h1, h2, h3, h4⟩ := h.mem a x hx
    refine ⟨b, h1, h2, h3, ?_⟩
    unfold processed at *
    omega
  sym := h.sym

/-- The effect of `connect` on a state that satisfies the invariant: it succeeds,
appends `j` to the list of room `i` and `i` to the list of room `j`, and changes
nothing else. -/
theorem connect_spec {rs : List Room} {i j : Nat} (h : Inv rs i j) (hij : i < j) (hj : j < 7) :
    ∃ rs1, connect rs i j = some rs1 ∧ Inv rs1 i (j + 1) ∧
      nbrs rs1 i = nbrs rs i ++ [some j] ∧
      nbrs rs1 j = nbrs rs j ++ [some i] ∧
      (∀ a, a ≠ i → a ≠ j → rs1[a]? = rs[a]?) ∧
      (∀ a, maxOf rs1 a = maxOf rs a) ∧
      (∀ a, currOf rs1 a = (currOf rs a).map (fun c => if a = i ∨ a = j then c + 1 else c)) := by
  have hil : i < rs.length := by rw [h.len]; omega
  have hjl : j < rs.length := by rw [h.len]; omega
  obtain ⟨ri, hi⟩ : ∃ ri, rs[i]? = some ri := ⟨rs[i], by simp [hil]⟩
  obtain ⟨rj, hjr⟩ : ∃ rj, rs[j]? = some rj := ⟨rs[j], by simp [hjl]⟩
  have hne : i ≠ j := by omega
  have hbi := h.bound i ri hi
  have hbj := h.bound j rj hjr
  have hci : ri.currConnections < 6 := by
    unfold countBound at hbi; split_ifs at hbi <;> omega
  have hcj : rj.currConnections < 6 := by
    unfold countBound at hbj; split_ifs at hbj <;> omega
  have hsi := h.slots i ri hi
  have hsj := h.slots j rj hjr
  obtain ⟨rs1, hc, hlen, hi1, hj1, hoth⟩ := connect_eq rs i j ri rj hi hjr hne hci hcj
  have hni : nbrs rs1 i = nbrs rs i ++ [some j] := by
    rw [nbrs_of hi1, nbrs_of hi]
    exact take_set_succ _ _ _ (by omega)
  have hnj : nbrs rs1 j = nbrs rs j ++ [some i] := by
    rw [nbrs_of hj1, nbrs_of hjr]
    exact take_set_succ _ _ _ (by omega)
  have hno : ∀ a, a ≠ i → a ≠ j → nbrs rs1 a = nbrs rs a :=
    fun a h1 h2 => nbrs_congr (hoth a h1 h2)
  have hsub : ∀ a x, x ∈ nbrs rs a → x ∈ nbrs rs1 a := by
    intro a x hx
    by_cases hai : a = i
    · subst hai; rw [hni]; exact List.mem_append_left _ hx
    · by_cases haj : a = j
      · subst haj; rw [hnj]; exact List.mem_append_left _ hx
      · rw [hno a hai haj]; exact hx
  have hnotij : some j ∉ nbrs rs i := by
    intro hx
    obtain ⟨b, h1, _, _, h4⟩ := h.mem i _ hx
    have : b = j := by simpa using h1.symm
    subst this
    unfold processed at h4; omega
  have hnotji : some i ∉ nbrs rs j := by
    intro hx
    obtain ⟨b, h1, _, _, h4⟩ := h.mem j _ hx
    have : b = i := by simpa using h1.symm
    subst this
    unfold processed at h4; omega
  refine ⟨rs1, hc, ?_, hni, hnj, hoth, ?_, ?_⟩
  · constructor
    · rw [hlen]; exact h.len
    · intro a r hr
      by_cases hai : a = i
      · subst hai
        rw [hi1] at hr
        cases hr
        simpa using hsi
      · by_cases haj : a = j
        · subst haj
          rw [hj1] at hr
          cases hr
          simpa using hsj
        · rw [hoth a hai haj] at hr
          exact h.slots a r hr
    · intro a r hr
      by_cases hai : a = i
      · subst hai
        rw [hi1] at hr
        cases hr
        show ri.currConnections + 1 ≤ _
        unfold countBound at hbi ⊢
        split_ifs at hbi ⊢ <;> omega
      · by_cases haj : a = j
        · subst haj
          rw [hj1] at hr
          cases hr
          show rj.currConnections + 1 ≤ _
          unfold countBound at hbj ⊢
          split_ifs at hbj ⊢ <;> omega
        · rw [hoth a hai haj] at hr
          exact Nat.le_trans (h.bound a r hr) (countBound_mono i j a)
    · intro a
      by_cases hai : a = i
      · subst hai
        rw [hni]
        exact List.nodup_append.mpr ⟨h.nodup a, List.nodup_singleton _, by
          intro x hx hx2
          have : x = some j := by simpa using hx2
          subst this
          exact hnotij hx⟩
      · by_cases haj : a = j
        · subst haj
          rw [hnj]
          exact List.nodup_append.mpr ⟨h.nodup a, List.nodup_singleton _, by
            intro x hx hx2
            have : x = some i := by simpa using hx2
            subst this
            exact hnotji hx⟩
        · rw [hno a hai haj]; exact h.nodup a
    · intro a x hx
      by_cases hai : a = i
      · subst hai
        rw [hni] at hx
        rcases List.mem_append.mp hx with hx | hx
        · obtain ⟨b, h1, h2, h3, h4⟩ := h.mem a x hx
          exact ⟨b, h1, h2, h3, processed_mono h4⟩
        · have : x = some j := by simpa using hx
          exact ⟨j, this, hj, by omega, by unfold processed; omega⟩
      · by_cases haj : a = j
        · subst haj
          rw [hnj] at hx
          rcases List.mem_append.mp hx with hx | hx
          · obtain ⟨b, h1, h2, h3, h4⟩ := h.mem a x hx
            exact ⟨b, h1, h2, h3, processed_mono h4⟩
          · have : x = some i := by simpa using hx
            exact ⟨i, this, by omega, by omega, by unfold processed; omega⟩
        · rw [hno a hai haj] at hx
          obtain ⟨b, h1, h2, h3, h4⟩ := h.mem a x hx
          exact ⟨b, h1, h2, h3, processed_mono h4⟩
    · intro a b hab
      have key : some b ∈ nbrs rs a ∨ (a = i ∧ b = j) ∨ (a = j ∧ b = i) := by
        by_cases hai : a = i
        · subst hai
          rw [hni] at hab
          rcases List.mem_append.mp hab with hx | hx
          · exact Or.inl hx
          · right; left; exact ⟨rfl, by simpa using hx⟩
        · by_cases haj : a = j
          · subst haj
            rw [hnj] at hab
            rcases List.mem_append.mp hab with hx | hx
            · exact Or.inl hx
            · right; right; exact ⟨rfl, by simpa using hx⟩
          · rw [hno a hai haj] at hab; exact Or.inl hab
      rcases key with hk | ⟨rfl, rfl⟩ | ⟨rfl, rfl⟩
      · exact hsub b _ (h.sym a b hk)
      · rw [hnj]; simp
      · rw [hni]; simp
  · intro a
    by_cases hai : a = i
    · subst hai; simp [maxOf, hi1, hi]
    · by_cases haj : a = j
      · subst haj; simp [maxOf, hj1, hjr]
      · simp [maxOf, hoth a hai haj]
  · intro a
    by_cases hai : a = i
    · subst hai; simp [currOf, hi1, hi]
    · by_cases haj : a = j
      · subst haj; simp [currOf, hj1, hjr]
      · simp only [currOf, hoth a hai haj]
        cases rs[a]? <;> simp [hai, haj]


/-- Every connection of `rs` is still a connection of `rs1`. -/
theorem connect_keeps {rs rs1 : List Room} {i j : Nat}
    (hni : nbrs rs1 i = nbrs rs i ++ [some j]) (hnj : nbrs rs1 j = nbrs rs j ++ [some i])
    (hoth : ∀ a, a ≠ i → a ≠ j → rs1[a]? = rs[a]?) :
    ∀ a x, x ∈ nbrs rs a → x ∈ nbrs rs1 a := by
  intro a x hx
  by_cases hai : a = i
  · subst hai; rw [hni]; exact List.mem_append_left _ hx
  · by_cases haj : a = j
    · subst haj; rw [hnj]; exact List.mem_append_left _ hx
    · rw [nbrs_congr (hoth a hai haj)]; exact hx

/-- The adjustment of lines 213-214 touches `maxConnections` of room `i` only. -/
theorem adjustMax_spec {rs : List Room} {i k l : Nat} (h : Inv rs k l) (hi : i < 7) :
    ∃ rs1, adjustMax rs i = some rs1 ∧ Inv rs1 k l ∧
      (∀ a, nbrs rs1 a = nbrs rs a) ∧
      (∀ a, currOf rs1 a = currOf rs a) ∧
      (∀ a, a ≠ i → maxOf rs1 a = maxOf rs a) := by
  have hil : i < rs.length := by rw [h.len]; exact hi
  obtain ⟨ri, hri⟩ : ∃ ri, rs[i]? = some ri := ⟨rs[i], by simp [hil]⟩
  by_cases hlt : ri.maxConnections < (ri.currConnections : Int)
  · have hget : ∀ a, a ≠ i →
        (rs.set i { ri with maxConnections := (ri.currConnections : Int) })[a]? = rs[a]? :=
      fun a ha => List.getElem?_set_ne (Ne.symm ha)
    have hself : (rs.set i { ri with maxConnections := (ri.currConnections : Int) })[i]?
        = some { ri with maxConnections := (ri.currConnections : Int) } := by
      simp [hil]
    have hn : ∀ a, nbrs (rs.set i { ri with maxConnections := (ri.currConnections : Int) }) a
        = nbrs rs a := by
      intro a
      by_cases ha : a = i
      · subst ha; rw [nbrs_of hself, nbrs_of hri]
      · exact nbrs_congr (hget a ha)
    refine ⟨_, by simp [adjustMax, hri, hlt], ?_, hn, ?_, ?_⟩
    · constructor
      · simpa using h.len
      · intro a r hr
        by_cases ha : a = i
        · subst ha; rw [hself] at hr; cases hr; exact h.slots a ri hri
        · rw [hget a ha] at hr; exact h.slots a r hr
      · intro a r hr
        by_cases ha : a = i
        · subst ha; rw [hself] at hr; cases hr; exact h.bound a ri hri
        · rw [hget a ha] at hr; exact h.bound a r hr
      · intro a; rw [hn a]; exact h.nodup a
      · intro a x hx; rw [hn a] at hx; exact h.mem a x hx
      · intro a b hab; rw [hn a] at hab; rw [hn b]; exact h.sym a b hab
    · intro a
      by_cases ha : a = i
      · subst ha; simp [currOf, hself, hri]
      · simp [currOf, hget a ha]
    · intro a ha
      simp [maxOf, hget a ha]
  · exact ⟨rs, by simp [adjustMax, hri, hlt], h, fun _ => rfl, fun _ => rfl, fun _ _ => rfl⟩

/-- The full-connect loop of lines 194-199, from a state that satisfies the invariant. -/
theorem connectAll_spec {rs : List Room} {i : Nat} (h : Inv rs i (i + 1)) (hi : i < 7) :
    ∃ rs1, forLoop (fun j st => connect st i j) (List.range' (i + 1) (7 - (i + 1))) rs = some rs1 ∧
      Inv rs1 i 7 ∧
      (∀ a x, x ∈ nbrs rs a → x ∈ nbrs rs1 a) ∧
      (∀ a, maxOf rs1 a = maxOf rs a) ∧
      (∀ b, i < b → b < 7 → some b ∈ nbrs rs1 i) := by
  have key := forLoop_rule (fun j st => connect st i j)
    (fun j st => Inv st i j ∧ (∀ a x, x ∈ nbrs rs a → x ∈ nbrs st a) ∧
      (∀ a, maxOf st a = maxOf rs a) ∧ (∀ b, i < b → b < j → some b ∈ nbrs st i))
    (7 - (i + 1)) (i + 1) rs
    ⟨h, fun _ _ hx => hx, fun _ => rfl, fun b h1 h2 => by omega⟩
    (by
      intro j st h1 h2 ⟨hinv, hkeep, hmax, hall⟩
      obtain ⟨st1, hc, hinv1, hni, hnj, hoth, hm, _⟩ := connect_spec hinv (by omega) (by omega)
      have hk := connect_keeps hni hnj hoth
      refine ⟨st1, hc, hinv1, fun a x hx => hk a x (hkeep a x hx),
        fun a => (hm a).trans (hmax a), ?_⟩
      intro b hb1 hb2
      by_cases hbj : b = j
      · subst hbj; rw [hni]; simp
      · exact hk i _ (hall b hb1 (by omega)))
  have e : i + 1 + (7 - (i + 1)) = 7 := by omega
  rw [e] at key
  exact key

/-- The scan loop of lines 204-211, from a state that satisfies the invariant. -/
theorem scan_spec {rs : List Room} {i : Nat} (h : Inv rs i (i + 1)) (hi : i < 7) :
    ∃ rs1, forLoop (scanBody i) (List.range' (i + 1) (7 - (i + 1))) rs = some rs1 ∧
      Inv rs1 i 7 ∧
      (∀ a x, x ∈ nbrs rs a → x ∈ nbrs rs1 a) ∧
      (∀ a, maxOf rs1 a = maxOf rs a) := by
  have key := forLoop_rule (scanBody i)
    (fun j st => Inv st i j ∧ (∀ a x, x ∈ nbrs rs a → x ∈ nbrs st a) ∧
      (∀ a, maxOf st a = maxOf rs a))
    (7 - (i + 1)) (i + 1) rs
    ⟨h, fun _ _ hx => hx, fun _ => rfl⟩
    (by
      intro j st h1 h2 ⟨hinv, hkeep, hmax⟩
      have hjl : j < st.length := by rw [hinv.len]; omega
      obtain ⟨rj, hrj⟩ : ∃ rj, st[j]? = some rj := ⟨st[j], by simp [hjl]⟩
      by_cases hcap : rj.maxConnections > (rj.currConnections : Int)
      · obtain ⟨st1, hc, hinv1, hni, hnj, hoth, hm, _⟩ := connect_spec hinv (by omega) (by omega)
        have hk := connect_keeps hni hnj hoth
        exact ⟨st1, by simp [scanBody, hrj, hcap, hc], hinv1,
          fun a x hx => hk a x (hkeep a x hx), fun a => (hm a).trans (hmax a)⟩
      · exact ⟨st, by simp [scanBody, hrj, hcap], hinv.skip, hkeep, hmax⟩)
  have e : i + 1 + (7 - (i + 1)) = 7 := by omega
  rw [e] at key
  exact key

/-- Skipping the whole turn of room `i` keeps the invariant. -/
theorem Inv.skipTurn {rs : List Room} {i : Nat} (h : Inv rs i (i + 1)) : Inv rs i 7 where
  len := h.len
  slots := h.slots
  bound := fun a r hr => by
    have hb := h.bound a r hr
    have ha : a < 7 := by
      rcases List.getElem?_eq_some_iff.mp hr with ⟨h1, _⟩
      rw [h.len] at h1; exact h1
    unfold countBound at *
    split_ifs at hb ⊢ <;> omega
  nodup := h.nodup
  mem := fun a x hx => by
    obtain ⟨b, h1, h2, h3, h4⟩ := h.mem a x hx
    refine ⟨b, h1, h2, h3, ?_⟩
    unfold processed at *
    omega
  sym := h.sym

/-- One turn of the outer loop of `createConnections`, from a state that satisfies
the invariant: it succeeds, keeps the invariant and every connection, changes no
target but that of room `i`, and connects a room of target 6 to every later room. -/
theorem roomStep_spec {rs : List Room} {i : Nat} (h : Inv rs i (i + 1)) (hi : i < 7) :
    ∃ rs1, roomStep i rs = some rs1 ∧ Inv rs1 (i + 1) (i + 2) ∧
      (∀ a x, x ∈ nbrs rs a → x ∈ nbrs rs1 a) ∧
      (∀ a, a ≠ i → maxOf rs1 a = maxOf rs a) ∧
      (maxOf rs i = some 6 → ∀ b, i < b → b < 7 → some b ∈ nbrs rs1 i) := by
  have hil : i < rs.length := by rw [h.len]; exact hi
  obtain ⟨ri, hri⟩ : ∃ ri, rs[i]? = some ri := ⟨rs[i], by simp [hil]⟩
  have hmaxi : maxOf rs i = some ri.maxConnections := by simp [maxOf, hri]
  by_cases h6 : ri.maxConnections = 6
  · obtain ⟨rs1, hl, hinv, hkeep, hmax, hall⟩ := connectAll_spec h hi
    have hrun : roomStep i rs = some rs1 := by
      simp only [roomStep, hri, h6, if_true, ROOMS_IN_GAME]
      exact hl
    exact ⟨rs1, hrun, hinv.next, hkeep,
      fun a _ => hmax a, fun _ => hall⟩
  · have hno : maxOf rs i = some 6 → ∀ b, i < b → b < 7 → some b ∈ nbrs rs i := by
      intro h1
      rw [hmaxi] at h1
      exact absurd (Option.some.inj h1) h6
    by_cases hlt : ri.maxConnections > (ri.currConnections : Int)
    · obtain ⟨rs1, hl, hinv, hkeep, hmax⟩ := scan_spec h hi
      obtain ⟨rs2, ha, hinv2, hn, _, hm2⟩ := adjustMax_spec hinv hi
      have hrun : roomStep i rs = some rs2 := by
        simp only [roomStep, hri, h6, hlt, if_true, if_false, ROOMS_IN_GAME, hl]
        exact ha
      refine ⟨rs2, hrun, hinv2.next, ?_, ?_, ?_⟩
      · intro a x hx; rw [hn a]; exact hkeep a x hx
      · intro a hai; rw [hm2 a hai]; exact hmax a
      · intro h1; rw [hmaxi] at h1; exact absurd (Option.some.inj h1) h6
    · refine ⟨rs, by simp [roomStep, hri, h6, hlt], h.skipTurn.next, fun _ _ hx => hx,
        fun _ _ => rfl, hno⟩


/-- Fresh rooms satisfy the invariant at the start of the outer loop. -/
theorem Fresh.inv {rs : List Room} (h : Fresh rs) : Inv rs 0 1 := by
  obtain ⟨hlen, hall⟩ := h
  have hroom : ∀ (a : Nat) (r : Room), rs[a]? = some r →
      r.currConnections = 0 ∧ r.connectingRooms.length = 6 := by
    intro a r hr
    rcases List.getElem?_eq_some_iff.mp hr with ⟨h1, h2⟩
    exact hall r (h2 ▸ List.getElem_mem h1)
  have hn : ∀ a, nbrs rs a = [] := by
    intro a
    unfold nbrs
    cases hr : rs[a]? with
    | none => rfl
    | some r => simp [(hroom a r hr).1]
  constructor
  · exact hlen
  · exact fun a r hr => (hroom a r hr).2
  · intro a r hr
    rw [(hroom a r hr).1]
    exact Nat.zero_le _
  · intro a; rw [hn a]; exact List.nodup_nil
  · intro a x hx; rw [hn a] at hx; simp at hx
  · intro a b hab; rw [hn a] at hab; simp at hab

/-- The whole of `createConnections` on fresh rooms: it succeeds (no write leaves
a `connectingRooms` array), the final state satisfies the invariant with every
pair considered, and a room whose target was 6 lists every later room. -/
theorem createConnections_spec {rs : List Room} (h : Fresh rs) :
    ∃ rs1, createConnections rs = some rs1 ∧ Inv rs1 7 8 ∧
      (∀ a, a < 7 → maxOf rs a = some 6 → ∀ b, a < b → b < 7 → some b ∈ nbrs rs1 a) := by
  have key := forLoop_rule roomStep
    (fun i st => Inv st i (i + 1) ∧ (∀ a, i ≤ a → maxOf st a = maxOf rs a) ∧
      (∀ a, a < i → maxOf rs a = some 6 → ∀ b, a < b → b < 7 → some b ∈ nbrs st a))
    7 0 rs ⟨h.inv, fun _ _ => rfl, fun a ha => by omega⟩
    (by
      intro i st _ h2 ⟨hinv, hmax, hall⟩
      obtain ⟨st1, hr, hinv1, hkeep, hm, h6⟩ := roomStep_spec hinv (by omega)
      refine ⟨st1, hr, hinv1, ?_, ?_⟩
      · intro a ha
        rw [hm a (by omega)]
        exact hmax a (by omega)
      · intro a ha hma b hab hb
        by_cases hai : a = i
        · subst hai
          exact h6 ((hmax a (Nat.le_refl _)).trans hma) b hab hb
        · exact hkeep a _ (hall a (by omega) hma b hab hb))
  obtain ⟨rs1, hrun, hinv, _, hall⟩ := key
  exact ⟨rs1, hrun, hinv, fun a ha => hall a (by omega)⟩

theorem sampleRooms_fresh : Fresh sampleRooms := by
  unfold Fresh sampleRooms
  decide

/-- Claim C1. Symmetry of the generated graph: on seven fresh rooms of any targets,
`createConnections` ends in a state where room `a` lists room `b` among its
`connectingRooms[0..currConnections)` exactly when room `b` lists room `a`. -/
theorem createConnections_symmetric (rs : List Room) (h : Fresh rs) :
    ∃ rs1, createConnections rs = some rs1 ∧
      ∀ a b, a < ROOMS_IN_GAME → b < ROOMS_IN_GAME →
        (some b ∈ nbrs rs1 a ↔ some a ∈ nbrs rs1 b) := by
  obtain ⟨rs1, hrun, hinv, _⟩ := createConnections_spec h
  exact ⟨rs1, hrun, fun a b _ _ => ⟨hinv.sym a b, hinv.sym b a⟩⟩

theorem createConnections_symmetric_witness :
    Fresh sampleRooms ∧
    ∃ rs1, createConnections sampleRooms = some rs1 ∧
      ∀ a b, a < ROOMS_IN_GAME → b < ROOMS_IN_GAME →
        (some b ∈ nbrs rs1 a ↔ some a ∈ nbrs rs1 b) :=
  ⟨sampleRooms_fresh, createConnections_symmetric sampleRooms sampleRooms_fresh⟩

/-- Claim C2. No self-loop and no duplicate edge: on seven fresh rooms of any
targets, `createConnections` ends in a state where no room occurs in its own
connection list and no connection list holds an entry twice. -/
theorem createConnections_no_loop_no_dup (rs : List Room) (h : Fresh rs) :
    ∃ rs1, createConnections rs = some rs1 ∧
      ∀ a, a < ROOMS_IN_GAME → some a ∉ nbrs rs1 a ∧ (nbrs rs1 a).Nodup := by
  obtain ⟨rs1, hrun, hinv, _⟩ := createConnections_spec h
  refine ⟨rs1, hrun, fun a _ => ⟨?_, hinv.nodup a⟩⟩
  intro hx
  obtain ⟨b, h1, _, h3, _⟩ := hinv.mem a _ hx
  exact h3 (Option.some.inj h1).symm

theorem createConnections_no_loop_no_dup_witness :
    Fresh sampleRooms ∧
    ∃ rs1, createConnections sampleRooms = some rs1 ∧
      ∀ a, a < ROOMS_IN_GAME → some a ∉ nbrs rs1 a ∧ (nbrs rs1 a).Nodup :=
  ⟨sampleRooms_fresh, createConnections_no_loop_no_dup sampleRooms sampleRooms_fresh⟩

/-- A write of `storeConnection` that succeeds had its index inside the array. -/
theorem storeConnection_index {rs rs1 : List Room} {i j : Nat}
    (h : storeConnection rs i j = some rs1) :
    ∃ r, rs[i]? = some r ∧ r.currConnections < MAX_CONNECTIONS := by
  unfold storeConnection at h
  cases hr : rs[i]? with
  | none => simp [hr] at h
  | some r =>
    refine ⟨r, rfl, ?_⟩
    by_contra hlt
    simp [hr, hlt] at h

/-- Claim C4. Degree never exceeds the configured maximum: on seven fresh rooms of
any targets (no range assumed), `createConnections` returns a state, which it does
only when every write `connectingRooms[currConnections]` had an index below
`MAX_CONNECTIONS`, and every room ends with `currConnections` at most
`MAX_CONNECTIONS`. -/
theorem createConnections_within_capacity (rs : List Room) (h : Fresh rs) :
    ∃ rs1, createConnections rs = some rs1 ∧
      ∀ r ∈ rs1, r.currConnections ≤ MAX_CONNECTIONS := by
  obtain ⟨rs1, hrun, hinv, _⟩ := createConnections_spec h
  refine ⟨rs1, hrun, fun r hr => ?_⟩
  obtain ⟨a, ha, rfl⟩ := List.getElem_of_mem hr
  have hb := hinv.bound a rs1[a] (by simp [ha])
  rw [hinv.len] at ha
  unfold countBound at hb
  unfold MAX_CONNECTIONS
  split_ifs at hb
  omega

theorem createConnections_within_capacity_witness :
    Fresh sampleRooms ∧
    ∃ rs1, createConnections sampleRooms = some rs1 ∧
      ∀ r ∈ rs1, r.currConnections ≤ MAX_CONNECTIONS :=
  ⟨sampleRooms_fresh, createConnections_within_capacity sampleRooms sampleRooms_fresh⟩

/-- Claim C8. Full-connect branch: on seven fresh rooms of any targets, a room `i`
whose target is 6 ends connected to every room `j > i`, in both directions; in
particular a first room of target 6 is connected to all six other rooms. -/
theorem createConnections_full_connect (rs : List Room) (h : Fresh rs) :
    ∃ rs1, createConnections rs = some rs1 ∧
      (∀ i j, i < j → j < ROOMS_IN_GAME → maxOf rs i = some 6 →
        some j ∈ nbrs rs1 i ∧ some i ∈ nbrs rs1 j) ∧
      (maxOf rs 0 = some 6 → ∀ j, 1 ≤ j → j < ROOMS_IN_GAME →
        some j ∈ nbrs rs1 0 ∧ some 0 ∈ nbrs rs1 j) := by
  obtain ⟨rs1, hrun, hinv, hall⟩ := createConnections_spec h
  have hmain : ∀ i j, i < j → j < ROOMS_IN_GAME → maxOf rs i = some 6 →
      some j ∈ nbrs rs1 i ∧ some i ∈ nbrs rs1 j := by
    intro i j hij hj hm
    unfold ROOMS_IN_GAME at hj
    have h1 := hall i (by omega) hm j hij hj
    exact ⟨h1, hinv.sym i j h1⟩
  exact ⟨rs1, hrun, hmain, fun hm j h1 hj => hmain 0 j (by omega) hj hm⟩

theorem createConnections_full_connect_witness :
    Fresh sampleRooms ∧
    ∃ rs1, createConnections sampleRooms = some rs1 ∧
      (∀ i j, i < j → j < ROOMS_IN_GAME → maxOf sampleRooms i = some 6 →
        some j ∈ nbrs rs1 i ∧ some i ∈ nbrs rs1 j) ∧
      (maxOf sampleRooms 0 = some 6 → ∀ j, 1 ≤ j → j < ROOMS_IN_GAME →
        some j ∈ nbrs rs1 0 ∧ some 0 ∈ nbrs rs1 j) :=
  ⟨sampleRooms_fresh, createConnections_full_connect sampleRooms sampleRooms_fresh⟩


/-! ## `createRooms` and `createArrays` -/

/-- The loop of `createRooms` over positions that hold a pool index: it succeeds and
appends one fresh room per position, with the role of the position, the name of
the index and the target of the position. -/
theorem createRoomsFrom_spec (rooms connections : List Int) :
    ∀ (is : List Nat) (acc : List Room),
      (∀ i ∈ is, ∃ k c nm, rooms[i]? = some k ∧ connections[i]? = some c ∧
        roomNameAt k = some nm) →
      ∃ rs, createRoomsFrom rooms connections is acc = some rs ∧
        rs.map (fun r => r.roomType) = acc.map (fun r => r.roomType) ++ is.map roleOf ∧
        rs.map (fun r => r.name)
          = acc.map (fun r => r.name) ++ is.filterMap (fun i => (rooms[i]?).bind roomNameAt) ∧
        rs.map (fun r => r.maxConnections)
          = acc.map (fun r => r.maxConnections) ++ is.filterMap (fun i => connections[i]?) ∧
        ∀ r ∈ rs, r ∈ acc ∨ (r.currConnections = 0 ∧ r.connectingRooms.length = 6) := by
  intro is
  induction is with
  | nil =>
    intro acc _
    exact ⟨acc, rfl, by simp, by simp, by simp, fun r hr => Or.inl hr⟩
  | cons i is ih =>
    intro acc hall
    obtain ⟨k, c, nm, hk, hc, hnm⟩ := hall i (List.mem_cons_self _ _)
    obtain ⟨rs, hrun, hty, hname, hmax, hfresh⟩ :=
      ih (acc ++ [{ name := nm, maxConnections := c, roomType := roleOf i,
                    connectingRooms := List.replicate MAX_CONNECTIONS none,
                    currConnections := 0 }])
        (fun i1 hi1 => hall i1 (List.mem_cons_of_mem _ hi1))
    refine ⟨rs, ?_, ?_, ?_, ?_, ?_⟩
    · simp only [createRoomsFrom, hk, hc, hnm]
      exact hrun
    · rw [hty]; simp
    · rw [hname]; simp [hk, hnm]
    · rw [hmax]; simp [hc]
    · intro r hr
      rcases hfresh r hr with h1 | h1
      · rcases List.mem_append.mp h1 with h2 | h2
        · exact Or.inl h2
        · right
          rw [List.mem_singleton.mp h2]
          simp [MAX_CONNECTIONS]
      · exact Or.inr h1

/-- The function `createRooms` on two arrays of seven entries, the first of pool
indices: it returns seven fresh rooms with the roles, names and targets in order. -/
theorem createRooms_spec (rooms connections : List Int)
    (hr : rooms.length = 7) (hc : connections.length = 7)
    (hpool : ∀ k ∈ rooms, 0 ≤ k ∧ k < 10) :
    ∃ rs, createRooms rooms connections = some rs ∧ Fresh rs ∧
      rs.map (fun r => r.roomType)
        = ["START_ROOM", "MID_ROOM", "MID_ROOM", "MID_ROOM", "MID_ROOM", "MID_ROOM", "END_ROOM"] ∧
      rs.map (fun r => r.name) = rooms.filterMap roomNameAt ∧
      (rooms.filterMap roomNameAt).length = 7 ∧
      rs.map (fun r => r.maxConnections) = connections := by
  have hname : ∀ k ∈ rooms, ∃ nm, roomNameAt k = some nm := by
    intro k hk
    obtain ⟨h0, h10⟩ := hpool k hk
    have hlt : k.toNat < roomNames.length := by
      have : roomNames.length = 10 := by decide
      omega
    exact ⟨roomNames[k.toNat], by simp [roomNameAt, h0, hlt]⟩
  match rooms, hr, hpool, hname with
  | [a0, a1, a2, a3, a4, a5, a6], _, _, hname =>
    match connections, hc with
    | [c0, c1, c2, c3, c4, c5, c6], _ =>
      obtain ⟨n0, h0⟩ := hname a0 (by simp)
      obtain ⟨n1, h1⟩ := hname a1 (by simp)
      obtain ⟨n2, h2⟩ := hname a2 (by simp)
      obtain ⟨n3, h3⟩ := hname a3 (by simp)
      obtain ⟨n4, h4⟩ := hname a4 (by simp)
      obtain ⟨n5, h5⟩ := hname a5 (by simp)
      obtain ⟨n6, h6⟩ := hname a6 (by simp)
      obtain ⟨rs, hrun, hty, hnm, hmax, hfresh⟩ :=
        createRoomsFrom_spec [a0, a1, a2, a3, a4, a5, a6] [c0, c1, c2, c3, c4, c5, c6]
          (List.range' 0 ROOMS_IN_GAME) []
          (by
            intro i hi
            have hi7 : i < 7 := by
              have := List.mem_range'_1.mp hi
              unfold ROOMS_IN_GAME at this
              omega
            interval_cases i
            · exact ⟨a0, c0, n0, rfl, rfl, h0⟩
            · exact ⟨a1, c1, n1, rfl, rfl, h1⟩
            · exact ⟨a2, c2, n2, rfl, rfl, h2⟩
            · exact ⟨a3, c3, n3, rfl, rfl, h3⟩
            · exact ⟨a4, c4, n4, rfl, rfl, h4⟩
            · exact ⟨a5, c5, n5, rfl, rfl, h5⟩
            · exact ⟨a6, c6, n6, rfl, rfl, h6⟩)
      have hlen : rs.length = 7 := by
        have := congrArg List.length hty
        simpa [ROOMS_IN_GAME] using this
      refine ⟨rs, hrun, ⟨hlen, ?_⟩, ?_, ?_, ?_, ?_⟩
      · intro r hr
        rcases hfresh r hr with h | h
        · simp at h
        · exact h
      · rw [hty]; rfl
      · rw [hnm]
        simp [ROOMS_IN_GAME, List.range', h0, h1, h2, h3, h4, h5, h6]
      · simp [h0, h1, h2, h3, h4, h5, h6]
      · rw [hmax]
        simp [ROOMS_IN_GAME, List.range']


/-- Claim C6. Role counts: for every array of seven pool indices and every array of
seven targets, `createRooms` returns seven rooms whose roles are, in order,
`START_ROOM`, five times `MID_ROOM`, `END_ROOM`; so there is exactly one start
room (position 0), exactly one end room (position 6) and exactly five mid rooms,
and the start room and the end room are different rooms. -/
theorem createRooms_roles (rooms connections : List Int)
    (hr : rooms.length = ROOMS_IN_GAME) (hc : connections.length = ROOMS_IN_GAME)
    (hpool : ∀ k ∈ rooms, 0 ≤ k ∧ k < 10) :
    ∃ rs, createRooms rooms connections = some rs ∧ rs.length = ROOMS_IN_GAME ∧
      (rs.map (fun r => r.roomType)).count "START_ROOM" = 1 ∧
      (rs.map (fun r => r.roomType)).count "END_ROOM" = 1 ∧
      (rs.map (fun r => r.roomType)).count "MID_ROOM" = 5 ∧
      ∀ (a : Nat) (r : Room), rs[a]? = some r →
        (r.roomType = "START_ROOM" ↔ a = 0) ∧
        (r.roomType = "END_ROOM" ↔ a = ROOMS_IN_GAME - 1) ∧
        (r.roomType = "MID_ROOM" ↔ 1 ≤ a ∧ a < ROOMS_IN_GAME - 1) := by
  obtain ⟨rs, hrun, hfresh, hty, _⟩ := createRooms_spec rooms connections hr hc hpool
  refine ⟨rs, hrun, hfresh.1, by rw [hty]; decide, by rw [hty]; decide, by rw [hty]; decide, ?_⟩
  intro a r har
  have hmap : (rs.map (fun r => r.roomType))[a]? = some r.roomType := by
    simp [List.getElem?_map, har]
  rw [hty] at hmap
  have ha : a < 7 := by
    rcases List.getElem?_eq_some_iff.mp har with ⟨h1, _⟩
    have := hfresh.1
    unfold ROOMS_IN_GAME at this
    omega
  unfold ROOMS_IN_GAME
  interval_cases a <;> simp at hmap <;> rw [← hmap] <;> decide

theorem createRooms_roles_witness :
    ([3, 1, 4, 5, 9, 2, 6] : List Int).length = ROOMS_IN_GAME ∧
    ([3, 6, 4, 5, 3, 6, 4] : List Int).length = ROOMS_IN_GAME ∧
    (∀ k ∈ ([3, 1, 4, 5, 9, 2, 6] : List Int), 0 ≤ k ∧ k < 10) ∧
    ∃ rs, createRooms [3, 1, 4, 5, 9, 2, 6] [3, 6, 4, 5, 3, 6, 4] = some rs ∧
      rs.length = ROOMS_IN_GAME ∧
      (rs.map (fun r => r.roomType)).count "START_ROOM" = 1 ∧
      (rs.map (fun r => r.roomType)).count "END_ROOM" = 1 ∧
      (rs.map (fun r => r.roomType)).count "MID_ROOM" = 5 ∧
      ∀ (a : Nat) (r : Room), rs[a]? = some r →
        (r.roomType = "START_ROOM" ↔ a = 0) ∧
        (r.roomType = "END_ROOM" ↔ a = ROOMS_IN_GAME - 1) ∧
        (r.roomType = "MID_ROOM" ↔ 1 ≤ a ∧ a < ROOMS_IN_GAME - 1) :=
  ⟨by decide, by decide, by decide,
    createRooms_roles [3, 1, 4, 5, 9, 2, 6] [3, 6, 4, 5, 3, 6, 4]
      (by decide) (by decide) (by decide)⟩

/-- The loop of `createArrays` keeps the filled parts of the two arrays equally
long, the indices in the pool and pairwise distinct, and the targets between
`MIN_CONNECTIONS` and `MAX_CONNECTIONS`; when it ends, seven entries are filled. -/
theorem createArraysLoop_spec :
    ∀ (n : Nat) (draws : List Nat) (rooms connections : List Int) (out : List Int × List Int),
      draws.length ≤ n →
      rooms.length < 7 → connections.length = rooms.length →
      (∀ k ∈ rooms, 0 ≤ k ∧ k < 10) → rooms.Nodup →
      (∀ c ∈ connections, 3 ≤ c ∧ c ≤ 6) →
      createArraysLoop draws rooms connections = some out →
      out.1.length = 7 ∧ out.2.length = 7 ∧ (∀ k ∈ out.1, 0 ≤ k ∧ k < 10) ∧ out.1.Nodup ∧
        (∀ c ∈ out.2, 3 ≤ c ∧ c ≤ 6) := by
  intro n
  induction n with
  | zero =>
    intro draws rooms connections out hn _ _ _ _ _ hrun
    have : draws = [] := List.length_eq_zero.mp (Nat.le_zero.mp hn)
    subst this
    simp [createArraysLoop] at hrun
  | succ n ih =>
    intro draws rooms connections out hn hlt hlen hpool hnd hcon hrun
    cases draws with
    | nil => simp [createArraysLoop] at hrun
    | cons d ds =>
      rw [createArraysLoop.eq_def] at hrun
      simp only at hrun
      by_cases hsel : rooms.any (fun x => x == ((d % 10 : Nat) : Int)) = true
      · simp only [hsel, if_true, ROOMS_IN_GAME, hlt] at hrun
        exact ih ds rooms connections out (by simpa using hn) hlt hlen hpool hnd hcon hrun
      · simp only [hsel] at hrun
        cases ds with
        | nil => simp at hrun
        | cons e es =>
          have hnew : ((d % 10 : Nat) : Int) ∉ rooms := by
            intro hmem
            apply hsel
            simp only [List.any_eq_true]
            exact ⟨_, hmem, by simp⟩
          have hpool1 : ∀ k ∈ rooms ++ [((d % 10 : Nat) : Int)], 0 ≤ k ∧ k < 10 := by
            intro k hk
            rcases List.mem_append.mp hk with h | h
            · exact hpool k h
            · rw [List.mem_singleton.mp h]
              omega
          have hnd1 : (rooms ++ [((d % 10 : Nat) : Int)]).Nodup :=
            List.nodup_append.mpr ⟨hnd, List.nodup_singleton _, by
              intro x hx hx2
              rw [List.mem_singleton.mp hx2] at hx
              exact hnew hx⟩
          have hcon1 : ∀ c ∈ connections ++
              [((e % (MAX_CONNECTIONS - MIN_CONNECTIONS + 1) + MIN_CONNECTIONS : Nat) : Int)],
              3 ≤ c ∧ c ≤ 6 := by
            intro c hc
            rcases List.mem_append.mp hc with h | h
            · exact hcon c h
            · rw [List.mem_singleton.mp h]
              simp only [MAX_CONNECTIONS, MIN_CONNECTIONS]
              omega
          by_cases hmore : (rooms ++ [((d % 10 : Nat) : Int)]).length < ROOMS_IN_GAME
          · simp only [hmore, if_true, Bool.false_eq_true, if_false] at hrun
            have hmore7 : (rooms ++ [((d % 10 : Nat) : Int)]).length < 7 := hmore
            exact ih es _ _ out (by simp at hn; omega) hmore7 (by simp [hlen]) hpool1 hnd1
              hcon1 hrun
          · simp only [hmore, if_false, Bool.false_eq_true] at hrun
            have : out = (rooms ++ [((d % 10 : Nat) : Int)], connections ++
                [((e % (MAX_CONNECTIONS - MIN_CONNECTIONS + 1) + MIN_CONNECTIONS : Nat) : Int)]) := by
              simpa using hrun.symm
            subst this
            unfold ROOMS_IN_GAME at hmore
            simp only [List.length_append, List.length_singleton] at hmore
            refine ⟨by simp; omega, by simp; omega, hpool1, hnd1, hcon1⟩

/-- Only the indices 0..9 have a name in the pool. -/
theorem roomNameAt_pool {x : Int} {nm : String} (h : roomNameAt x = some nm) :
    0 ≤ x ∧ x < 10 := by
  unfold roomNameAt at h
  split_ifs at h with h0
  rcases List.getElem?_eq_some_iff.mp h with ⟨h1, _⟩
  have hl : roomNames.length = 10 := by decide
  omega

/-- Two pool indices with the same name are the same index. -/
theorem roomNameAt_inj {x y : Int} (hx : 0 ≤ x ∧ x < 10) (hy : 0 ≤ y ∧ y < 10)
    (h : roomNameAt x = roomNameAt y) : x = y := by
  have hnd : roomNames.Nodup := by decide
  have hl : roomNames.length = 10 := by decide
  have hxl : x.toNat < roomNames.length := by omega
  have hyl : y.toNat < roomNames.length := by omega
  simp only [roomNameAt, hx.1, hy.1, if_true, List.getElem?_eq_getElem hxl,
    List.getElem?_eq_getElem hyl, Option.some.injEq] at h
  have := (hnd.getElem_inj_iff).mp h
  omega

/-- Claim C7. Room selection without repetition: whenever `createArrays` finishes
on a sequence of draws, the `rooms` array holds exactly seven indices, each in
0..9 and pairwise distinct, and the seven rooms that `createRooms` builds from
them have pairwise distinct names taken from the pool of ten names. -/
theorem createArrays_distinct (draws : List Nat) (rooms connections : List Int)
    (h : createArrays draws = some (rooms, connections)) :
    rooms.length = ROOMS_IN_GAME ∧ (∀ k ∈ rooms, 0 ≤ k ∧ k < 10) ∧ rooms.Nodup ∧
    ∃ rs, createRooms rooms connections = some rs ∧ rs.length = ROOMS_IN_GAME ∧
      (rs.map (fun r => r.name)).Nodup ∧ ∀ r ∈ rs, r.name ∈ roomNames := by
  obtain ⟨h1, h2, h3, h4, _⟩ := createArraysLoop_spec draws.length draws [] [] (rooms, connections)
    (Nat.le_refl _) (by simp) rfl (by simp) List.nodup_nil (by simp) h
  simp only at h1 h2 h3 h4
  obtain ⟨rs, hrun, hfresh, _, hnm, _, _⟩ := createRooms_spec rooms connections h1 h2 h3
  have hnames : ∀ nm ∈ rooms.filterMap roomNameAt, nm ∈ roomNames := by
    intro nm hmem
    obtain ⟨k, _, hk⟩ := List.mem_filterMap.mp hmem
    unfold roomNameAt at hk
    split_ifs at hk
    exact List.getElem?_mem hk
  refine ⟨h1, h3, h4, rs, hrun, hfresh.1, ?_, ?_⟩
  · rw [hnm]
    refine List.Nodup.filterMap ?_ h4
    intro x y nm hx hy
    have hx1 : roomNameAt x = some nm := hx
    have hy1 : roomNameAt y = some nm := hy
    exact roomNameAt_inj (roomNameAt_pool hx1) (roomNameAt_pool hy1) (hx1.trans hy1.symm)
  · intro r hr
    exact hnames _ (hnm ▸ List.mem_map_of_mem (fun r => r.name) hr)


theorem createArrays_distinct_witness :
    createArrays [0, 0, 0, 1, 1, 11, 2, 2, 3, 3, 4, 4, 5, 5, 25, 9, 7]
      = some ([0, 1, 2, 3, 4, 5, 9], [3, 4, 5, 6, 3, 4, 6]) ∧
    (([0, 1, 2, 3, 4, 5, 9] : List Int).length = ROOMS_IN_GAME ∧
      (∀ k ∈ ([0, 1, 2, 3, 4, 5, 9] : List Int), 0 ≤ k ∧ k < 10) ∧
      ([0, 1, 2, 3, 4, 5, 9] : List Int).Nodup ∧
      ∃ rs, createRooms [0, 1, 2, 3, 4, 5, 9] [3, 4, 5, 6, 3, 4, 6] = some rs ∧
        rs.length = ROOMS_IN_GAME ∧
        (rs.map (fun r => r.name)).Nodup ∧ ∀ r ∈ rs, r.name ∈ roomNames) :=
  ⟨by decide,
    createArrays_distinct [0, 0, 0, 1, 1, 11, 2, 2, 3, 3, 4, 4, 5, 5, 25, 9, 7]
      [0, 1, 2, 3, 4, 5, 9] [3, 4, 5, 6, 3, 4, 6] (by decide)⟩

/-- Claim C3, at the targets 6, 6, 6, 6, 3, 3, 3 (each in 3..6): the four rooms of
target 6 connect to room 4 without looking at its count, and the turn of room 4
changes nothing, so room 4 ends with `currConnections = 4` above its final
`maxConnections = 3`. -/
theorem generate_degree_above_target :
    (generate [0, 1, 2, 3, 4, 5, 6] [6, 6, 6, 6, 3, 3, 3]).map
      (fun rs => (currOf rs 4, maxOf rs 4)) = some (some 4, some 3) := by
  decide

/-- Claim C5, at the targets 3, 3, 3, 5, 3, 3, 3 (each in 3..6): room 3 has the
target 5, finds no later room below its target, and ends its scan with
`currConnections = 3`; the test of line 213 is `maxConnections < currConnections`,
so `maxConnections` stays 5 and room 3 ends below its target. -/
theorem generate_target_not_lowered :
    (generate [0, 1, 2, 3, 4, 5, 6] [3, 3, 3, 5, 3, 3, 3]).map
      (fun rs => (currOf rs 3, maxOf rs 3)) = some (some 3, some 5) := by
  decide

end BuildRooms

namespace Adventure

/-! ## The player loop -/

theorem take_set_succ_zero {α : Type} (l : List α) (x : α) (h : 0 < l.length) :
    (l.set 0 x).take (0 + 1) = [x] := by
  cases l with
  | nil => simp at h
  | cons y ys => simp

/-- In a well-formed graph every slot below `currConnections` holds a name. -/
theorem WellFormed.slot {rooms : List Room} (h : WellFormed rooms) {c : Room} (hc : c ∈ rooms)
    {i : Nat} (hi : i < c.currConnections) :
    ∃ nm, c.connectingRooms[i]? = some (some nm) := by
  obtain ⟨hlen, hcap, hall⟩ := h.2.2.2 c hc
  have hil : i < c.connectingRooms.length := by
    rw [hlen]; exact Nat.lt_of_lt_of_le hi hcap
  have hmem : c.connectingRooms[i] ∈ adjacent c := by
    unfold adjacent
    rw [List.mem_iff_getElem?]
    exact ⟨i, by rw [List.getElem?_take_of_lt hi]; simp [hil]⟩
  obtain ⟨nm, hnm, _⟩ := hall _ hmem
  exact ⟨nm, by simp [hil, hnm]⟩

theorem printConnections_some (c : Room) :
    ∀ is : List Nat, (∀ i ∈ is, ∃ nm, c.connectingRooms[i]? = some (some nm)) →
      ∃ l, printConnections c is = some l := by
  intro is
  induction is with
  | nil => intro _; exact ⟨[], rfl⟩
  | cons i is ih =>
    intro h
    obtain ⟨nm, hnm⟩ := h i (List.mem_cons_self _ _)
    obtain ⟨l, hl⟩ := ih (fun j hj => h j (List.mem_cons_of_mem _ hj))
    refine ⟨(if i + 1 < c.currConnections then String.mk nm ++ ", " else String.mk nm ++ ".\n")
      :: l, ?_⟩
    simp [printConnections, hnm, hl]

/-- The loop of lines 367-372 ends with `valid = 1` and `nextRoom = input` when a
scanned slot holds `input`, and leaves both as they were otherwise. -/
theorem matchConnections_spec (c : Room) (input : List Char) :
    ∀ (is : List Nat) (acc : Nat × Option (List Char)),
      (∀ i ∈ is, ∃ nm, c.connectingRooms[i]? = some (some nm)) →
      ∃ res, matchConnections c input is acc = some res ∧
        ((∃ i ∈ is, c.connectingRooms[i]? = some (some input)) → res = (1, some input)) ∧
        ((¬ ∃ i ∈ is, c.connectingRooms[i]? = some (some input)) → res = acc) := by
  intro is
  induction is with
  | nil =>
    intro acc _
    exact ⟨acc, rfl, by simp, fun _ => rfl⟩
  | cons i is ih =>
    intro acc h
    obtain ⟨nm, hnm⟩ := h i (List.mem_cons_self _ _)
    obtain ⟨res, hres, hyes, hno⟩ :=
      ih (if input = nm then (1, some nm) else acc) (fun j hj => h j (List.mem_cons_of_mem _ hj))
    refine ⟨res, by simp only [matchConnections, hnm]; exact hres, ?_, ?_⟩
    · rintro ⟨j, hj, hjin⟩
      by_cases hrest : ∃ k ∈ is, c.connectingRooms[k]? = some (some input)
      · exact hyes hrest
      · rw [hno hrest]
        rcases List.mem_cons.mp hj with rfl | hj2
        · rw [hnm] at hjin
          have : nm = input := by simpa using hjin
          simp [this]
        · exact absurd ⟨j, hj2, hjin⟩ hrest
    · intro hnone
      have hrest : ¬ ∃ k ∈ is, c.connectingRooms[k]? = some (some input) := by
        rintro ⟨k, hk, hkin⟩
        exact hnone ⟨k, List.mem_cons_of_mem _ hk, hkin⟩
      rw [hno hrest]
      have hne : input ≠ nm := by
        intro he
        exact hnone ⟨i, List.mem_cons_self _ _, by rw [hnm, he]⟩
      simp [hne]

/-- The loop of lines 390-395 when exactly the room at index `t` is named `next`:
scanning `t` makes that room the current room and writes `t` to `path[steps - 1]`;
scanning other rooms changes nothing. -/
theorem enterRoom_spec (rooms : List Room) (next : List Char) (t : Nat)
    (hnamed : ∀ i, i < rooms.length → ∃ r nm, rooms[i]? = some r ∧ r.name = some nm ∧
      (nm = next ↔ i = t)) :
    ∀ (is : List Nat) (g : Game), is.Nodup → (∀ i ∈ is, i < rooms.length) →
      1 ≤ g.steps → g.steps - 1 < 50 →
      ∃ g1, enterRoom rooms next is g = some g1 ∧
        (t ∈ is → g1 = { g with currRoom := some t, path := g.path.set (g.steps - 1) (some t) }) ∧
        (t ∉ is → g1 = g) := by
  intro is
  induction is with
  | nil =>
    intro g _ _ _ _
    exact ⟨g, rfl, by simp, fun _ => rfl⟩
  | cons i is ih =>
    intro g hnd hlt h1 h50
    obtain ⟨r, nm, hr, hnm, hiff⟩ := hnamed i (hlt i (List.mem_cons_self _ _))
    have hnd2 : is.Nodup := (List.nodup_cons.mp hnd).2
    have hni : i ∉ is := (List.nodup_cons.mp hnd).1
    have hlt2 : ∀ j ∈ is, j < rooms.length := fun j hj => hlt j (List.mem_cons_of_mem _ hj)
    by_cases hit : i = t
    · subst hit
      have hnx : nm = next := hiff.mpr rfl
      obtain ⟨g1, hg1, _, hout⟩ :=
        ih { g with currRoom := some i, path := g.path.set (g.steps - 1) (some i) } hnd2 hlt2 h1 h50
      refine ⟨g1, ?_, fun _ => hout hni, fun hn => absurd (List.mem_cons_self _ _) hn⟩
      simp only [enterRoom, hr, hnm, hnx, if_true, h1, h50, and_self]
      exact hg1
    · have hnx : nm ≠ next := fun he => hit (hiff.mp he)
      obtain ⟨g1, hg1, hin, hout⟩ := ih g hnd2 hlt2 h1 h50
      refine ⟨g1, ?_, ?_, ?_⟩
      · simp only [enterRoom, hr, hnm, hnx, if_false]
        exact hg1
      · intro hmem
        rcases List.mem_cons.mp hmem with h | h
        · exact absurd h.symm hit
        · exact hin h
      · intro hmem
        exact hout (fun h => hmem (List.mem_cons_of_mem _ h))

/-- In a well-formed graph a name belongs to one room only. -/
theorem WellFormed.named {rooms : List Room} (h : WellFormed rooms) {t : Nat} {rt : Room}
    {next : List Char} (ht : rooms[t]? = some rt) (hname : rt.name = some next) :
    ∀ i, i < rooms.length → ∃ r nm, rooms[i]? = some r ∧ r.name = some nm ∧
      (nm = next ↔ i = t) := by
  intro i hi
  have htl : t < rooms.length := by
    rcases List.getElem?_eq_some_iff.mp ht with ⟨h1, _⟩; exact h1
  have hrt : rooms[t] = rt := by
    rcases List.getElem?_eq_some_iff.mp ht with ⟨_, h2⟩; exact h2
  have hsome := h.2.1 rooms[i] (List.getElem_mem hi)
  obtain ⟨nm, hnm⟩ := Option.ne_none_iff_exists'.mp hsome
  refine ⟨rooms[i], nm, by simp [hi], hnm, ?_⟩
  constructor
  · intro he
    have hi2 : i < (rooms.map (fun r => r.name)).length := by simpa using hi
    have ht2 : t < (rooms.map (fun r => r.name)).length := by simpa using htl
    have heq : (rooms.map (fun r => r.name))[i] = (rooms.map (fun r => r.name))[t] := by
      simp [hnm, hrt, hname, he]
    exact (h.2.2.1.getElem_inj_iff).mp heq
  · intro he
    subst he
    rw [hrt, hname] at hnm
    exact (Option.some.inj hnm).symm


/-- A move to an adjacent room: in a well-formed graph, in a state with current
room `c`, step counter `s < 50` and the 50 slots of `path`, an input line that,
once its newline is stripped, is the name of a room adjacent to `c` and is not
the word `time`, makes the room of that name the current room, sets the step
counter to `s + 1` and writes the index of that room to `path[s]`, leaving every
other slot as it was; from a step counter of 0 the counter becomes 1 and the
path holds one entry. -/
theorem playLine_move (rooms : List Room) (timeFile : Option String) (g : Game)
    (line input : List Char) (ci : Nat) (c : Room)
    (hwf : WellFormed rooms) (hcur : g.currRoom = some ci) (hc : rooms[ci]? = some c)
    (hs : g.steps < 50) (hp : g.path.length = 50)
    (hline : stripNewline line = some input)
    (hadj : some input ∈ adjacent c)
    (hnt : input ≠ "time".toList) :
    ∃ t rt g1, rooms[t]? = some rt ∧ rt.name = some input ∧
      playLine rooms timeFile g line = some g1 ∧
      g1.currRoom = some t ∧ g1.steps = g.steps + 1 ∧
      g1.path = g.path.set g.steps (some t) ∧
      g1.path[g.steps]? = some (some t) ∧
      (∀ k, k < g.steps → g1.path[k]? = g.path[k]?) ∧
      (g.steps = 0 → g1.steps = 1 ∧ g1.path.take g1.steps = [some t]) := by
  have hcmem : c ∈ rooms := List.getElem?_mem hc
  obtain ⟨cname, hcname⟩ := Option.ne_none_iff_exists'.mp (hwf.2.1 c hcmem)
  have hslots : ∀ i ∈ List.range' 0 c.currConnections,
      ∃ nm, c.connectingRooms[i]? = some (some nm) := by
    intro i hi
    exact hwf.slot hcmem (by have := List.mem_range'_1.mp hi; omega)
  obtain ⟨conns, hconns⟩ := printConnections_some c _ hslots
  obtain ⟨res, hres, hyes, _⟩ := matchConnections_spec c input _ (0, g.nextRoom) hslots
  have hfound : ∃ i ∈ List.range' 0 c.currConnections,
      c.connectingRooms[i]? = some (some input) := by
    unfold adjacent at hadj
    obtain ⟨i, hi⟩ := List.mem_iff_getElem?.mp hadj
    rw [List.getElem?_take] at hi
    split_ifs at hi with hlt
    exact ⟨i, List.mem_range'_1.mpr ⟨Nat.zero_le _, by omega⟩, hi⟩
  have hres1 : res = (1, some input) := hyes hfound
  subst hres1
  obtain ⟨nm, hnm, r1, hr1, hr1name⟩ := (hwf.2.2.2 c hcmem).2.2 _ hadj
  have hnm2 : nm = input := (Option.some.inj hnm).symm
  subst hnm2
  obtain ⟨t, ht, hrt⟩ := List.getElem_of_mem hr1
  have htsome : rooms[t]? = some r1 := by simp [ht, hrt]
  have hask : ask rooms g line = some (1, { g with
      nextRoom := some nm,
      printed := g.printed ++ (["CURRENT LOCATION: " ++ String.mk cname ++ "\n",
        "POSSIBLE CONNECTIONS: "] ++ conns ++ ["WHERE TO? >"] ++ [] ++ ["\n"]) }) := by
    simp only [ask, hcur, hc, hcname, hconns, hline, hres, hnt, if_false]
    simp
  have hlen7 : rooms.length = 7 := hwf.1
  obtain ⟨g1, hg1, hin, _⟩ := enterRoom_spec rooms nm t (hwf.named htsome hr1name)
    (List.range' 0 ROOMS_IN_GAME)
    { currRoom := g.currRoom, steps := g.steps + 1, path := g.path, nextRoom := some nm,
      printed := g.printed ++ (["CURRENT LOCATION: " ++ String.mk cname ++ "\n",
        "POSSIBLE CONNECTIONS: "] ++ conns ++ ["WHERE TO? >"] ++ [] ++ ["\n"]) }
    (List.nodup_range' 0 ROOMS_IN_GAME 1 Nat.one_pos)
    (by
      intro i hi
      have := List.mem_range'_1.mp hi
      unfold ROOMS_IN_GAME at this
      omega)
    (by simp) (by simp; omega)
  have htin : t ∈ List.range' 0 ROOMS_IN_GAME := by
    refine List.mem_range'_1.mpr ⟨Nat.zero_le _, ?_⟩
    unfold ROOMS_IN_GAME
    omega
  have hg1eq := hin htin
  have hplay : playLine rooms timeFile g line = some g1 := by
    simp only [playLine, hask, advance]
    simp only [Nat.one_ne_zero, if_false, if_true]
    exact hg1
  have hpath : g1.path = g.path.set g.steps (some t) := by
    rw [hg1eq]; simp
  have hsteps : g1.steps = g.steps + 1 := by
    rw [hg1eq]
  refine ⟨t, r1, g1, htsome, hr1name, hplay, by rw [hg1eq], hsteps, hpath, ?_, ?_, ?_⟩
  · rw [hpath]
    simp [hp, hs]
  · intro k hk
    rw [hpath]
    exact List.getElem?_set_ne (by omega)
  · intro h0
    refine ⟨by omega, ?_⟩
    rw [hsteps, hpath, h0]
    exact take_set_succ_zero g.path (some t) (by omega)

theorem ringRooms_wellFormed : WellFormed ringRooms := by
  unfold WellFormed
  decide

/-- No name of the pool of the generator is the word `time`. -/
theorem roomNames_not_time : ∀ nm ∈ BuildRooms.roomNames, nm.toList ≠ "time".toList := by
  decide

/-- Claim C10. Valid move: for every loaded graph whose seven rooms have distinct
names, taken from the pool of ten names of the generator (the only names that
the generator writes), and whose every connection name is the name of a loaded
room, and every state with current room `c`, step counter `s < 50` and the 50
slots of `path`: an input line that, once its newline is stripped, is the name of
a room adjacent to `c` makes the room of that name the current room, sets the
step counter to `s + 1` and writes the index of that room to `path[s]`, leaving
every other slot as it was; from a step counter of 0 the counter becomes 1 and
the path holds one entry. -/
theorem playLine_valid_move (rooms : List Room) (timeFile : Option String) (g : Game)
    (line input : List Char) (ci : Nat) (c : Room)
    (hwf : WellFormed rooms)
    (hpool : ∀ r ∈ rooms, ∃ nm ∈ BuildRooms.roomNames, r.name = some nm.toList)
    (hcur : g.currRoom = some ci) (hc : rooms[ci]? = some c)
    (hs : g.steps < 50) (hp : g.path.length = 50)
    (hline : stripNewline line = some input)
    (hadj : some input ∈ adjacent c) :
    ∃ t rt g1, rooms[t]? = some rt ∧ rt.name = some input ∧
      playLine rooms timeFile g line = some g1 ∧
      g1.currRoom = some t ∧ g1.steps = g.steps + 1 ∧
      g1.path = g.path.set g.steps (some t) ∧
      g1.path[g.steps]? = some (some t) ∧
      (∀ k, k < g.steps → g1.path[k]? = g.path[k]?) ∧
      (g.steps = 0 → g1.steps = 1 ∧ g1.path.take g1.steps = [some t]) := by
  have hcmem : c ∈ rooms := List.getElem?_mem hc
  obtain ⟨nm, hnm, r1, hr1, hr1name⟩ := (hwf.2.2.2 c hcmem).2.2 _ hadj
  obtain ⟨p, hp1, hp2⟩ := hpool r1 hr1
  have hnt : input ≠ "time".toList := by
    rw [hr1name] at hp2
    rw [Option.some.inj hnm, Option.some.inj hp2]
    exact roomNames_not_time p hp1
  exact playLine_move rooms timeFile g line input ci c hwf hcur hc hs hp hline hadj hnt

theorem playLine_valid_move_witness :
    WellFormed ringRooms ∧
    (∀ r ∈ ringRooms, ∃ nm ∈ BuildRooms.roomNames, r.name = some nm.toList) ∧
    ∃ g0, startGame ringRooms = some g0 ∧ g0.currRoom = some 0 ∧ g0.steps = 0 ∧
    ∃ t rt g1, ringRooms[t]? = some rt ∧ rt.name = some "BallardBurrow".toList ∧
      playLine ringRooms none g0 ("BallardBurrow".toList ++ [Char.ofNat 10]) = some g1 ∧
      g1.currRoom = some t ∧ g1.steps = g0.steps + 1 ∧
      g1.path = g0.path.set g0.steps (some t) ∧
      g1.path[g0.steps]? = some (some t) ∧
      (∀ k, k < g0.steps → g1.path[k]? = g0.path[k]?) ∧
      (g0.steps = 0 → g1.steps = 1 ∧ g1.path.take g1.steps = [some t]) :=
  ⟨ringRooms_wellFormed, by decide,
   { currRoom := some 0, steps := 0, path := List.replicate 50 none, nextRoom := none,
     printed := [] }, by decide, rfl, rfl,
    playLine_valid_move ringRooms none _ ("BallardBurrow".toList ++ [Char.ofNat 10])
      "BallardBurrow".toList 0
      { name := some "DennyDen".toList, maxConnections := none,
        roomType := some "START_ROOM".toList,
        connectingRooms := [some "BallardBurrow".toList, some "SodoSwamp".toList,
          none, none, none, none],
        currConnections := 2 }
      ringRooms_wellFormed (by decide) rfl (by decide) (by decide) (by decide) (by decide)
      (by decide)⟩

/-- The names of the rooms matter: `timeRooms` is well formed but has a room named
`time`, a name that is not in the pool of the generator. Its start room (index 0)
lists that room (index 1), and from the initial state the input line `time` is
taken as the time command: the current room stays the start room and the step
counter stays 0. -/
theorem playLine_room_named_time :
    WellFormed timeRooms ∧
    (∃ c, timeRooms[0]? = some c ∧ some "time".toList ∈ adjacent c) ∧
    (∃ r, timeRooms[1]? = some r ∧ r.name = some "time".toList) ∧
    stripNewline ("time".toList ++ [Char.ofNat 10]) = some "time".toList ∧
    (startGame timeRooms).map (fun g => (g.currRoom, g.steps)) = some (some 0, 0) ∧
    ((startGame timeRooms).bind fun g =>
        playLine timeRooms none g ("time".toList ++ [Char.ofNat 10])).map
      (fun g => (g.currRoom, g.steps, g.path.take 1)) = some (some 0, 0, [none]) := by
  refine ⟨by unfold WellFormed; decide, by decide, by decide, by decide, by decide, by decide⟩


/-! ## The room file codec -/

/-- One call of `fgets` on a line of fewer than 99 characters before its newline. -/
theorem fgetsAll_line :
    ∀ (body rest cur : List Char), Char.ofNat 10 ∉ body → cur.length + body.length + 1 ≤ 99 →
      fgetsAll 100 (body ++ Char.ofNat 10 :: rest) cur
        = (cur.reverse ++ body ++ [Char.ofNat 10]) :: fgetsAll 100 rest [] := by
  intro body
  induction body with
  | nil =>
    intro rest cur _ _
    simp [fgetsAll]
  | cons c body ih =>
    intro rest cur hnl hlen
    have hc : c ≠ Char.ofNat 10 := fun h => hnl (h ▸ List.mem_cons_self _ _)
    have hlen2 : ¬ cur.length + 1 = 100 - 1 := by
      simp only [List.length_cons] at hlen
      omega
    rw [List.cons_append, fgetsAll, if_neg (by simp [hc, hlen2])]
    rw [ih rest (c :: cur) (fun h => hnl (List.mem_cons_of_mem _ h))
      (by simp only [List.length_cons] at hlen ⊢; omega)]
    simp

theorem GoodName.no_newline {s : List Char} (h : GoodName s) : Char.ofNat 10 ∉ s := by
  intro hmem
  have := h.2.2 _ hmem
  revert this
  decide

/-- The directive `%s` on a good name that is followed by a newline reads the name
and stops before the newline. -/
theorem scan_str (ds : List Directive) (nm rest : List Char) (h : GoodName nm) :
    scanDirectives (Directive.str :: ds) (nm ++ Char.ofNat 10 :: rest)
      = ScanVal.str nm :: scanDirectives ds (Char.ofNat 10 :: rest) := by
  obtain ⟨hne, _, hsp⟩ := h
  have hdrop : (nm ++ Char.ofNat 10 :: rest).dropWhile isspace = nm ++ Char.ofNat 10 :: rest := by
    cases nm with
    | nil => exact absurd rfl hne
    | cons c cs =>
      have : isspace c = false := hsp c (List.mem_cons_self _ _)
      simp [List.dropWhile, this]
  have htake : ∀ (l : List Char), (∀ c ∈ l, isspace c = false) →
      (l ++ Char.ofNat 10 :: rest).takeWhile (fun c => !isspace c) = l := by
    intro l
    induction l with
    | nil =>
      intro _
      have : isspace (Char.ofNat 10) = true := by decide
      simp [List.takeWhile, this]
    | cons c cs ih =>
      intro hl
      have : isspace c = false := hl c (List.mem_cons_self _ _)
      simp [List.takeWhile, this, ih (fun d hd => hl d (List.mem_cons_of_mem _ hd))]
  have hdrop2 : ∀ (l : List Char), (∀ c ∈ l, isspace c = false) →
      (l ++ Char.ofNat 10 :: rest).dropWhile (fun c => !isspace c) = Char.ofNat 10 :: rest := by
    intro l
    induction l with
    | nil =>
      intro _
      have : isspace (Char.ofNat 10) = true := by decide
      simp [List.dropWhile, this]
    | cons c cs ih =>
      intro hl
      have : isspace c = false := hl c (List.mem_cons_self _ _)
      simp [List.dropWhile, this, ih (fun d hd => hl d (List.mem_cons_of_mem _ hd))]
  simp only [scanDirectives, hdrop, htake nm hsp, hdrop2 nm hsp]
  simp [hne]

/-- The white-space directive that ends the formats reads the rest of the line. -/
theorem scan_tail (rest : List Char) :
    scanDirectives [Directive.space] rest = [] := by
  simp [scanDirectives]

/-- An ordinary character of the format reads the same character. -/
theorem scan_lit (c : Char) (ds : List Directive) (s : List Char) :
    scanDirectives (Directive.lit c :: ds) (c :: s) = scanDirectives ds s := by
  simp [scanDirectives]

/-- A white-space directive reads one blank that a character other than white
space follows. -/
theorem scan_blank (ds : List Directive) (x : Char) (s : List Char) (hx : isspace x = false) :
    scanDirectives (Directive.space :: ds) (' ' :: x :: s) = scanDirectives ds (x :: s) := by
  have hsp : isspace ' ' = true := by decide
  simp [scanDirectives, List.dropWhile, hsp, hx]

/-- The directive `%d` reads one digit that a colon follows. -/
theorem scan_digit (ds : List Directive) (d : Char) (s : List Char) (hd : isdigit d = true) :
    ∃ n, scanDirectives (Directive.int :: ds) (d :: ':' :: s)
      = ScanVal.int n :: scanDirectives ds (':' :: s) := by
  have hrange : 48 ≤ d.toNat ∧ d.toNat ≤ 57 := by
    simpa [isdigit] using hd
  have hsp : isspace d = false := by
    simp only [isspace, Bool.or_eq_false_iff, Bool.and_eq_false_iff, decide_eq_false_iff_not]
    omega
  have hminus : d ≠ '-' := by
    intro h
    rw [h] at hrange
    revert hrange
    decide
  have hplus : d ≠ '+' := by
    intro h
    rw [h] at hrange
    revert hrange
    decide
  have hcolon : isdigit ':' = false := by decide
  refine ⟨digitsValue [d], ?_⟩
  simp [scanDirectives, List.dropWhile, List.takeWhile, hsp, hminus, hplus, hd, hcolon]

/-- The format of the name line reads the name of a name line. -/
theorem sscanf_nameLine (nm : List Char) (h : GoodName nm) :
    sscanf (nameLine nm) "ROOM NAME: %s\n" = [ScanVal.str nm] := by
  have hfmt : parseFormat "ROOM NAME: %s\n".toList
      = [Directive.lit 'R', Directive.lit 'O', Directive.lit 'O', Directive.lit 'M',
         Directive.space, Directive.lit 'N', Directive.lit 'A', Directive.lit 'M',
         Directive.lit 'E', Directive.lit ':', Directive.space, Directive.str,
         Directive.space] := by decide
  obtain ⟨c, cs, hcs⟩ : ∃ c cs, nm = c :: cs := by
    cases nm with
    | nil => exact absurd rfl h.1
    | cons c cs => exact ⟨c, cs, rfl⟩
  subst hcs
  have hc : isspace c = false := h.2.2 c (List.mem_cons_self _ _)
  have hin : nameLine (c :: cs)
      = 'R' :: 'O' :: 'O' :: 'M' :: ' ' :: 'N' :: 'A' :: 'M' :: 'E' :: ':' :: ' '
        :: c :: (cs ++ Char.ofNat 10 :: []) := by
    simp [nameLine, String.toList]
  unfold sscanf
  rw [hfmt, hin]
  simp only [scan_lit, scan_blank _ 'N' _ (by decide), scan_blank _ c _ hc]
  have := scan_str [Directive.space] (c :: cs) [] h
  rw [List.cons_append] at this
  rw [this, scan_tail]

/-- The format of the type line reads the role of a type line. -/
theorem sscanf_typeLine (role : List Char) (h : GoodName role) :
    sscanf (typeLine role) "ROOM TYPE: %s\n" = [ScanVal.str role] := by
  have hfmt : parseFormat "ROOM TYPE: %s\n".toList
      = [Directive.lit 'R', Directive.lit 'O', Directive.lit 'O', Directive.lit 'M',
         Directive.space, Directive.lit 'T', Directive.lit 'Y', Directive.lit 'P',
         Directive.lit 'E', Directive.lit ':', Directive.space, Directive.str,
         Directive.space] := by decide
  obtain ⟨c, cs, hcs⟩ : ∃ c cs, role = c :: cs := by
    cases role with
    | nil => exact absurd rfl h.1
    | cons c cs => exact ⟨c, cs, rfl⟩
  subst hcs
  have hc : isspace c = false := h.2.2 c (List.mem_cons_self _ _)
  have hin : typeLine (c :: cs)
      = 'R' :: 'O' :: 'O' :: 'M' :: ' ' :: 'T' :: 'Y' :: 'P' :: 'E' :: ':' :: ' '
        :: c :: (cs ++ Char.ofNat 10 :: []) := by
    simp [typeLine, String.toList]
  unfold sscanf
  rw [hfmt, hin]
  simp only [scan_lit, scan_blank _ 'T' _ (by decide), scan_blank _ c _ hc]
  have := scan_str [Directive.space] (c :: cs) [] h
  rw [List.cons_append] at this
  rw [this, scan_tail]

/-- The number of a connection line below 7 is one digit. -/
theorem repr_succ_digit (j : Nat) (hj : j < 6) :
    ∃ d, (Nat.repr (j + 1)).toList = [d] ∧ isdigit d = true := by
  interval_cases j
  · exact ⟨'1', by decide, by decide⟩
  · exact ⟨'2', by decide, by decide⟩
  · exact ⟨'3', by decide, by decide⟩
  · exact ⟨'4', by decide, by decide⟩
  · exact ⟨'5', by decide, by decide⟩
  · exact ⟨'6', by decide, by decide⟩

/-- The format of the connection line reads the number and the name of a
connection line. -/
theorem sscanf_connectionLine (j : Nat) (hj : j < 6) (nm : List Char) (h : GoodName nm) :
    ∃ n, sscanf (connectionLine j nm) "CONNECTION %d: %s\n" = [ScanVal.int n, ScanVal.str nm] := by
  have hfmt : parseFormat "CONNECTION %d: %s\n".toList
      = [Directive.lit 'C', Directive.lit 'O', Directive.lit 'N', Directive.lit 'N',
         Directive.lit 'E', Directive.lit 'C', Directive.lit 'T', Directive.lit 'I',
         Directive.lit 'O', Directive.lit 'N', Directive.space, Directive.int,
         Directive.lit ':', Directive.space, Directive.str, Directive.space] := by decide
  obtain ⟨c, cs, hcs⟩ : ∃ c cs, nm = c :: cs := by
    cases nm with
    | nil => exact absurd rfl h.1
    | cons c cs => exact ⟨c, cs, rfl⟩
  subst hcs
  have hc : isspace c = false := h.2.2 c (List.mem_cons_self _ _)
  obtain ⟨d, hd, hdig⟩ := repr_succ_digit j hj
  have hd2 : (Nat.repr (j + 1)).data = [d] := hd
  have hdsp : isspace d = false := by
    have hrange : 48 ≤ d.toNat ∧ d.toNat ≤ 57 := by simpa [isdigit] using hdig
    simp only [isspace, Bool.or_eq_false_iff, Bool.and_eq_false_iff, decide_eq_false_iff_not]
    omega
  have hin : connectionLine j (c :: cs)
      = 'C' :: 'O' :: 'N' :: 'N' :: 'E' :: 'C' :: 'T' :: 'I' :: 'O' :: 'N' :: ' ' :: d :: ':'
        :: ' ' :: c :: (cs ++ Char.ofNat 10 :: []) := by
    simp [connectionLine, hd2, String.toList]
  obtain ⟨n, hn⟩ := scan_digit
    [Directive.lit ':', Directive.space, Directive.str, Directive.space] d
    (' ' :: c :: (cs ++ Char.ofNat 10 :: [])) hdig
  refine ⟨n, ?_⟩
  unfold sscanf
  rw [hfmt, hin]
  simp only [scan_lit, scan_blank _ d _ hdsp]
  rw [hn]
  simp only [scan_lit, scan_blank _ c _ hc]
  have := scan_str [Directive.space] (c :: cs) [] h
  rw [List.cons_append] at this
  rw [this, scan_tail]


theorem set_after_names (pre : List (Option (List Char))) (m : Nat) (x : Option (List Char)) :
    (pre ++ List.replicate (m + 1) none).set pre.length x = pre ++ x :: List.replicate m none := by
  induction pre with
  | nil => simp [List.replicate_succ]
  | cons y ys ih => simpa using ih

/-- The loop body of `readFile` on a name line, when the allocator leaves room for
the NUL. -/
theorem readLine_nameLine (usable : Nat → Nat) (hspare : ∀ n, n + 1 ≤ usable n)
    (st : ReadState) (nm : List Char) (h : GoodName nm) :
    readLine usable st (nameLine nm)
      = some { st with gameRoom := { st.gameRoom with name := some nm }, input := some nm } := by
  have hpre : (nameLine nm).take 9 = "ROOM NAME".toList := by
    simp [nameLine, String.toList]
  have hlen : nm.length + 1 ≤ 30 := by have := h.2.1; omega
  unfold readLine
  rw [if_pos hpre]
  simp [sscanf_nameLine nm h, storeInput, hlen, copyInput, hspare]

/-- The loop body of `readFile` on a type line, when the allocator leaves room for
the NUL. -/
theorem readLine_typeLine (usable : Nat → Nat) (hspare : ∀ n, n + 1 ≤ usable n)
    (st : ReadState) (role : List Char) (h : GoodName role) :
    readLine usable st (typeLine role)
      = some { st with gameRoom := { st.gameRoom with roomType := some role },
                       input := some role } := by
  have hpre : (typeLine role).take 9 ≠ "ROOM NAME".toList := by
    simp [typeLine, String.toList]
  have hpre2 : (typeLine role).take 10 ≠ "CONNECTION".toList := by
    simp [typeLine, String.toList]
  have hlen : role.length + 1 ≤ 30 := by have := h.2.1; omega
  unfold readLine
  rw [if_neg hpre, if_neg hpre2]
  simp [sscanf_typeLine role h, storeInput, hlen, copyInput, hspare]

/-- The loop body of `readFile` on a connection line, when the allocator leaves room
for the NUL and `count` is below `MAX_CONNECTIONS`. -/
theorem readLine_connectionLine (usable : Nat → Nat) (hspare : ∀ n, n + 1 ≤ usable n)
    (st : ReadState) (j : Nat) (hj : j < 6) (nm : List Char) (h : GoodName nm)
    (hcount : st.count < 6) :
    readLine usable st (connectionLine j nm)
      = some { gameRoom := { st.gameRoom with
                 connectingRooms := st.gameRoom.connectingRooms.set st.count (some nm) },
               count := st.count + 1, input := some nm } := by
  have hpre : (connectionLine j nm).take 9 ≠ "ROOM NAME".toList := by
    simp [connectionLine, String.toList]
  have hpre2 : (connectionLine j nm).take 10 = "CONNECTION".toList := by
    simp [connectionLine, String.toList]
  have hlen : nm.length + 1 ≤ 30 := by have := h.2.1; omega
  obtain ⟨n, hn⟩ := sscanf_connectionLine j hj nm h
  have hcount2 : st.count < MAX_CONNECTIONS := hcount
  unfold readLine
  rw [if_neg hpre, if_pos hpre2, if_pos hcount2]
  simp [hn, storeInput, hlen, copyInput, hspare]

/-- The loop of `readFile` over the connection lines of the slots after the names
`pre` that were read before: the names are stored in order and counted, and the
other fields of the room stay as they were. -/
theorem readLines_connectionLines (usable : Nat → Nat) (hspare : ∀ n, n + 1 ≤ usable n)
    (tail : List (List Char)) :
    ∀ (conns pre : List (List Char)) (st : ReadState),
      (∀ nm ∈ conns, GoodName nm) → pre.length + conns.length ≤ 6 →
      st.count = pre.length →
      st.gameRoom.connectingRooms = pre.map some ++ List.replicate (6 - pre.length) none →
      ∃ st1,
        readLines usable (connectionLines st.count conns ++ tail) st = readLines usable tail st1 ∧
        st1.count = (pre ++ conns).length ∧
        st1.gameRoom.connectingRooms
          = (pre ++ conns).map some ++ List.replicate (6 - (pre ++ conns).length) none ∧
        st1.gameRoom.name = st.gameRoom.name ∧
        st1.gameRoom.roomType = st.gameRoom.roomType ∧
        st1.gameRoom.maxConnections = st.gameRoom.maxConnections := by
  intro conns
  induction conns with
  | nil =>
    intro pre st _ _ hc hs
    exact ⟨st, by simp [connectionLines], by simpa using hc, by simpa using hs, rfl, rfl, rfl⟩
  | cons nm conns ih =>
    intro pre st hgood hlen hc hs
    simp only [List.length_cons] at hlen
    have hstep := readLine_connectionLine usable hspare st st.count (by omega) nm
      (hgood nm (List.mem_cons_self _ _)) (by omega)
    have hset : (pre.map some ++ List.replicate (6 - pre.length) none).set pre.length (some nm)
        = (pre ++ [nm]).map some ++ List.replicate (6 - (pre ++ [nm]).length) none := by
      have e : 6 - pre.length = (6 - (pre.length + 1)) + 1 := by omega
      rw [e]
      have := set_after_names (pre.map some) (6 - (pre.length + 1)) (some nm)
      simp only [List.length_map] at this
      rw [this]
      simp
    obtain ⟨st1, hrun, h1, h2, h3, h4, h5⟩ := ih (pre ++ [nm])
      { gameRoom :=
          { st.gameRoom with
            connectingRooms := st.gameRoom.connectingRooms.set st.count (some nm) },
        count := st.count + 1,
        input := some nm }
      (fun x hx => hgood x (List.mem_cons_of_mem _ hx)) (by simp; omega)
      (by simp [hc]) (by simp only [hs, hc]; exact hset)
    refine ⟨st1, ?_, ?_, ?_, h3, h4, h5⟩
    · simp only [connectionLines, List.cons_append, readLines, hstep]
      exact hrun
    · simpa using h1
    · simpa using h2

/-- The calls of `fgets` on the connection lines of a room file return them one by
one. -/
theorem fgetsAll_connectionLines (rest : List Char) :
    ∀ (conns : List (List Char)) (j : Nat),
      (∀ nm ∈ conns, GoodName nm) → j + conns.length ≤ 6 →
      fgetsAll 100 ((connectionLines j conns).flatten ++ rest) []
        = connectionLines j conns ++ fgetsAll 100 rest [] := by
  intro conns
  induction conns with
  | nil => intro j _ _; simp [connectionLines]
  | cons nm conns ih =>
    intro j hgood hlen
    simp only [List.length_cons] at hlen
    have hnm := hgood nm (List.mem_cons_self _ _)
    obtain ⟨d, hd, hdig⟩ := repr_succ_digit j (by omega)
    have hd2 : (Nat.repr (j + 1)).data = [d] := hd
    have hdnl : d ≠ Char.ofNat 10 := by
      intro h
      rw [h] at hdig
      revert hdig
      decide
    have hline : connectionLine j nm
        = ("CONNECTION ".toList ++ [d] ++ ": ".toList ++ nm) ++ Char.ofNat 10 :: [] := by
      simp [connectionLine, hd2, String.toList]
    have hbody : Char.ofNat 10 ∉ "CONNECTION ".toList ++ [d] ++ ": ".toList ++ nm := by
      intro hmem
      rcases List.mem_append.mp hmem with h | h
      · rcases List.mem_append.mp h with h | h
        · rcases List.mem_append.mp h with h | h
          · revert h; decide
          · exact hdnl (List.mem_singleton.mp h).symm
        · revert h; decide
      · exact hnm.no_newline h
    have hblen : ("CONNECTION ".toList ++ [d] ++ ": ".toList ++ nm).length + 1 ≤ 99 := by
      have := hnm.2.1
      simp [String.toList]
      omega
    simp only [connectionLines, List.flatten_cons, List.append_assoc, List.cons_append]
    rw [hline]
    simp only [List.append_assoc, List.cons_append, List.nil_append]
    have := fgetsAll_line ("CONNECTION ".toList ++ [d] ++ ": ".toList ++ nm)
      ((connectionLines (j + 1) conns).flatten ++ rest) [] hbody (by simpa using hblen)
    simp only [List.append_assoc, List.cons_append, List.nil_append, List.reverse_nil] at this
    rw [this, ih (j + 1) (fun x hx => hgood x (List.mem_cons_of_mem _ hx)) (by omega)]

/-- The round trip of the codec on the lines of a room file, when the allocator
leaves room for the NUL: `readFile` returns the name, the role, the connection
names in order and their number. -/
theorem readFile_lines (usable : Nat → Nat) (hspare : ∀ n, n + 1 ≤ usable n)
    (nm role : List Char) (conns : List (List Char))
    (hnm : GoodName nm) (hrole : GoodName role) (hconns : ∀ x ∈ conns, GoodName x)
    (hk : conns.length ≤ 6) :
    readFile usable
        (nameLine nm ++ ((connectionLines 0 conns).flatten ++ typeLine role))
      = some { name := some nm, maxConnections := none, roomType := some role,
               connectingRooms := conns.map some ++ List.replicate (6 - conns.length) none,
               currConnections := conns.length } := by
  have hname : fgetsAll 100
      (nameLine nm ++ ((connectionLines 0 conns).flatten ++ typeLine role)) []
      = nameLine nm :: fgetsAll 100 ((connectionLines 0 conns).flatten ++ typeLine role) [] := by
    have hb : Char.ofNat 10 ∉ "ROOM NAME: ".toList ++ nm := by
      intro hmem
      rcases List.mem_append.mp hmem with h | h
      · revert h; decide
      · exact hnm.no_newline h
    have hl : ("ROOM NAME: ".toList ++ nm).length + 1 ≤ 99 := by
      have := hnm.2.1
      simp [String.toList]
      omega
    have := fgetsAll_line ("ROOM NAME: ".toList ++ nm)
      ((connectionLines 0 conns).flatten ++ typeLine role) [] hb (by simpa using hl)
    simp only [List.reverse_nil, List.nil_append] at this
    simp only [nameLine, List.append_assoc, List.singleton_append]
    simp only [List.append_assoc] at this
    exact this
  have htype : fgetsAll 100 (typeLine role) [] = [typeLine role] := by
    have hb : Char.ofNat 10 ∉ "ROOM TYPE: ".toList ++ role := by
      intro hmem
      rcases List.mem_append.mp hmem with h | h
      · revert h; decide
      · exact hrole.no_newline h
    have hl : ("ROOM TYPE: ".toList ++ role).length + 1 ≤ 99 := by
      have := hrole.2.1
      simp [String.toList]
      omega
    have := fgetsAll_line ("ROOM TYPE: ".toList ++ role) [] [] hb (by simpa using hl)
    simp only [List.reverse_nil, List.nil_append] at this
    simp only [typeLine]
    rw [this]
    simp [fgetsAll]
  have hlines : fgetsAll 100
      (nameLine nm ++ ((connectionLines 0 conns).flatten ++ typeLine role)) []
      = nameLine nm :: (connectionLines 0 conns ++ [typeLine role]) := by
    rw [hname, fgetsAll_connectionLines (typeLine role) conns 0 hconns (by omega), htype]
  obtain ⟨st1, hrun, h1, h2, h3, h4, h5⟩ := readLines_connectionLines usable hspare
    [typeLine role] conns []
    { gameRoom :=
        { name := some nm, maxConnections := none, roomType := none,
          connectingRooms := List.replicate MAX_CONNECTIONS none, currConnections := 0 },
      count := 0,
      input := some nm }
    hconns (by simpa using hk) rfl (by simp [MAX_CONNECTIONS])
  unfold readFile
  simp only [hlines, readLines, readLine_nameLine usable hspare _ nm hnm]
  simp only at hrun
  rw [hrun]
  simp only [readLines, readLine_typeLine usable hspare st1 role hrole]
  simp only [List.nil_append] at h1 h2
  simp only at h3 h4 h5
  cases st1 with
  | mk room count input =>
    cases room with
    | mk n m t cr cc =>
      simp only at h1 h2 h3 h4 h5
      subst h1 h2 h3 h5
      rfl


/-- With blocks exactly as large as requested, the loop body of `readFile` fails on
every line: each of its three branches ends with the `strcpy` of `input` into a
block of `strlen(input)` bytes. -/
theorem readLine_exact_block (st : ReadState) (line : List Char) :
    readLine (fun n => n) st line = none := by
  have hcopy : ∀ input : Option (List Char), copyInput (fun n => n) input = none := by
    intro input
    cases input with
    | none => rfl
    | some s => simp [copyInput]
  unfold readLine
  split_ifs
  · cases storeInput 30 st.input (sscanf line "ROOM NAME: %s\n") <;> simp [hcopy]
  · cases storeInput 30 st.input (sscanf line "CONNECTION %d: %s\n") <;> simp [hcopy]
  · rfl
  · cases storeInput 30 st.input (sscanf line "ROOM TYPE: %s\n") <;> simp [hcopy]

/-- The connection lines that `writeFile` prints for the slots `j, j + 1, ...` of a
room whose slots point to the rooms named `conns`. -/
theorem mapM_connectionLine (f : Nat → Option (List Char)) :
    ∀ (conns : List (List Char)) (j : Nat),
      (∀ i (h : i < conns.length), f (j + i) = some (connectionLine (j + i) conns[i])) →
      (List.range' j conns.length).mapM f = some (connectionLines j conns) := by
  intro conns
  induction conns with
  | nil => intro j _; rfl
  | cons nm conns ih =>
    intro j h
    have h0 := h 0 (by simp)
    simp only [Nat.add_zero, List.getElem_cons_zero] at h0
    have hrest := ih (j + 1) (fun i hi => by
      have := h (i + 1) (by simpa using hi)
      simpa [Nat.add_assoc, Nat.add_comm 1 i] using this)
    simp only [List.length_cons, List.range'_succ, List.mapM_cons, h0, hrest, connectionLines]
    rfl

/-- The round trip of the codec, when the allocator leaves room for the NUL: for a
room with a good name, one of the three roles and at most six connections to rooms
with good names, `readFile` on the text that `writeFile` prints returns the same
name, role, number of connections and connection names in order. -/
theorem readFile_writeFile (usable : Nat → Nat) (hspare : ∀ n, n + 1 ≤ usable n)
    (rs : List BuildRooms.Room) (r : BuildRooms.Room) (conns : List (List Char))
    (hname : GoodName r.name.toList)
    (hrole : r.roomType = "START_ROOM" ∨ r.roomType = "MID_ROOM" ∨ r.roomType = "END_ROOM")
    (hk : r.currConnections = conns.length) (hk6 : conns.length ≤ 6)
    (hslot : ∀ j (h : j < conns.length), ∃ k rk, r.connectingRooms[j]? = some (some k) ∧
      rs[k]? = some rk ∧ rk.name.toList = conns[j])
    (hgood : ∀ c ∈ conns, GoodName c) :
    ∃ text, BuildRooms.roomFileText rs r = some text ∧
      readFile usable text
        = some { name := some r.name.toList, maxConnections := none,
                 roomType := some r.roomType.toList,
                 connectingRooms := conns.map some ++ List.replicate (6 - conns.length) none,
                 currConnections := conns.length } := by
  have hroleGood : GoodName r.roomType.toList := by
    rcases hrole with h | h | h <;> rw [h] <;> unfold GoodName <;> decide
  refine ⟨nameLine r.name.toList ++ ((connectionLines 0 conns).flatten ++ typeLine r.roomType.toList),
    ?_, readFile_lines usable hspare _ _ conns hname hroleGood hgood hk6⟩
  unfold BuildRooms.roomFileText
  simp only [hk]
  rw [mapM_connectionLine _ conns 0 (by
    intro i hi
    obtain ⟨k, rk, h1, h2, h3⟩ := hslot i hi
    simp only [Nat.zero_add, h1, h2, connectionLine, h3])]
  simp [nameLine, typeLine]


/-- Claim C9, at the room `PioneerPlains` of the graph generated with the targets
6, 6, 6, 6, 3, 3, 3: `writeFile` emits the six lines shown, and `readFile`, with the
blocks of `malloc(strlen(input))` as large as requested, does not return the
room: the `strcpy` of the name line writes the NUL outside the block. -/
theorem readFile_block_too_small :
    ((BuildRooms.generate [0, 1, 2, 3, 4, 5, 6] [6, 6, 6, 6, 3, 3, 3]).bind fun rs =>
        (rs[4]?).bind (BuildRooms.roomFileText rs))
      = some ("ROOM NAME: PioneerPlains\nCONNECTION 1: DennyDen\nCONNECTION 2: BallardBurrow\n"
          ++ "CONNECTION 3: FremontForest\nCONNECTION 4: MontlakeMountains\n"
          ++ "ROOM TYPE: MID_ROOM\n").toList ∧
    readFile (fun n => n)
        ("ROOM NAME: PioneerPlains\nCONNECTION 1: DennyDen\nCONNECTION 2: BallardBurrow\n"
          ++ "CONNECTION 3: FremontForest\nCONNECTION 4: MontlakeMountains\n"
          ++ "ROOM TYPE: MID_ROOM\n").toList = none := by
  constructor
  · decide
  · decide

/-- The same file is read back as the room that was written as soon as every
block has one byte more than requested. -/
theorem readFile_with_spare_byte :
    readFile (fun n => n + 1)
        ("ROOM NAME: PioneerPlains\nCONNECTION 1: DennyDen\nCONNECTION 2: BallardBurrow\n"
          ++ "CONNECTION 3: FremontForest\nCONNECTION 4: MontlakeMountains\n"
          ++ "ROOM TYPE: MID_ROOM\n").toList
      = some { name := some "PioneerPlains".toList, maxConnections := none,
               roomType := some "MID_ROOM".toList,
               connectingRooms := [some "DennyDen".toList, some "BallardBurrow".toList,
                 some "FremontForest".toList, some "MontlakeMountains".toList, none, none],
               currConnections := 4 } := by
  decide


/-! ## `displayTime` -/

/-- Away from noon the hour that `displayTime` prints is the hour of the 12-hour
clock: between 1 and 12, congruent to the hour of the day modulo 12, with `am`
before noon and `pm` after. -/
theorem clockHour_away_from_noon (h : Int) (h0 : 0 ≤ h) (h23 : h ≤ 23) (hne : h ≠ 12) :
    1 ≤ (clockHour h).1 ∧ (clockHour h).1 ≤ 12 ∧ (clockHour h).1 % 12 = h % 12 ∧
      ((clockHour h).2 = if h < 12 then "am" else "pm") := by
  interval_cases h <;> first | exact absurd rfl hne | decide

/-- Claim C17, at the hour 12 of the day: the test of line 115 is `tm_hour > 12`, so
noon falls into the last branch and `displayTime` prints the hour 12 with `am`,
where the 12-hour clock has `12pm`. -/
theorem displayTime_noon :
    clockHour 12 = (12, "am") ∧
    displayTime noonTime = "12:05am, Friday, October 30, 2026\n\n" := by
  constructor <;> decide

/-- The `switch` on the day of the week picks the English name of the day. -/
theorem dayName_eq (w : Int) (h0 : 0 ≤ w) (h6 : w ≤ 6) :
    dayName w = weekdayNames.getD w.toNat "" := by
  interval_cases w <;> rfl

/-- The `switch` on the month picks the English name of the month. -/
theorem monthName_eq (m : Int) (h0 : 0 ≤ m) (h11 : m ≤ 11) :
    monthName m = monthNames.getD m.toNat "" := by
  interval_cases m <;> rfl

/-- The conversion `%02d` prints a minute as two digits. -/
theorem printInt02_minute (m : Int) (h0 : 0 ≤ m) (h59 : m ≤ 59) :
    printInt02 m = twoDigits m.toNat := by
  interval_cases m <;> decide

/-- Claim C19. Time line format: for every broken-down time with the minute in
0..59, the day of the week in 0..6 and the month in 0..11, the text that
`displayTime` writes is the hour, a colon, the minute as two digits, `am` or `pm`,
a comma, the English name of the day of the week (0 is Sunday), a comma, the
English name of the month (0 is January), the day of the month, a comma and the
year `tm_year + 1900`, followed by a newline and one empty line. The hour and
`am` or `pm` are those of lines 115-124. -/
theorem displayTime_format (t : Tm)
    (hmin : 0 ≤ t.tm_min ∧ t.tm_min ≤ 59) (hwday : 0 ≤ t.tm_wday ∧ t.tm_wday ≤ 6)
    (hmon : 0 ≤ t.tm_mon ∧ t.tm_mon ≤ 11) :
    displayTime t
      = (toString (clockHour t.tm_hour).1 ++ ":" ++ twoDigits t.tm_min.toNat
          ++ (clockHour t.tm_hour).2 ++ ", " ++ weekdayNames.getD t.tm_wday.toNat "" ++ ", "
          ++ monthNames.getD t.tm_mon.toNat "" ++ " " ++ toString t.tm_mday ++ ", "
          ++ toString (t.tm_year + 1900)) ++ "\n" ++ "\n" := by
  unfold displayTime printInt
  simp only []
  rw [dayName_eq _ hwday.1 hwday.2, monthName_eq _ hmon.1 hmon.2,
    printInt02_minute _ hmin.1 hmin.2]
  simp only [String.append_assoc]
  rfl

theorem displayTime_format_witness :
    ((0 : Int) ≤ sampleTime.tm_min ∧ sampleTime.tm_min ≤ 59) ∧
    ((0 : Int) ≤ sampleTime.tm_wday ∧ sampleTime.tm_wday ≤ 6) ∧
    ((0 : Int) ≤ sampleTime.tm_mon ∧ sampleTime.tm_mon ≤ 11) ∧
    displayTime sampleTime = "3:45pm, Saturday, December 5, 2026\n\n" :=
  ⟨by decide, by decide, by decide,
    (displayTime_format sampleTime (by decide) (by decide) (by decide)).trans (by decide)⟩


/-! ## The loop of `play` -/

/-- A string is among the connections of a room exactly when a slot below
`currConnections` holds it. -/
theorem mem_adjacent_iff (c : Room) (x : Option (List Char)) :
    x ∈ adjacent c ↔ ∃ i ∈ List.range' 0 c.currConnections, c.connectingRooms[i]? = some x := by
  unfold adjacent
  constructor
  · intro h
    obtain ⟨i, hi⟩ := List.mem_iff_getElem?.mp h
    rw [List.getElem?_take] at hi
    split_ifs at hi with hlt
    exact ⟨i, List.mem_range'_1.mpr ⟨Nat.zero_le _, by omega⟩, hi⟩
  · rintro ⟨i, hi, hx⟩
    have hlt : i < c.currConnections := by
      have := List.mem_range'_1.mp hi
      omega
    exact List.mem_iff_getElem?.mpr ⟨i, by rw [List.getElem?_take_of_lt hlt]; exact hx⟩

/-- One pass of the inner loop on a well-formed graph: it prints the prompt, and the
string read is a `time` command (`valid = 2`), else the name of an adjacent room
(`valid = 1`, and `nextRoom` is that name), else invalid (`valid = 0`, with the
error message). -/
theorem ask_spec {rooms : List Room} (hwf : WellFormed rooms) {g : Game} {ci : Nat} {c : Room}
    (hcur : g.currRoom = some ci) (hc : rooms[ci]? = some c) {line input : List Char}
    (hline : stripNewline line = some input) :
    ∃ cname conns, c.name = some cname ∧
      printConnections c (List.range' 0 c.currConnections) = some conns ∧
      ask rooms g line = some
        (if input = "time".toList then 2 else if some input ∈ adjacent c then 1 else 0,
         { g with
           nextRoom := if some input ∈ adjacent c then some input else g.nextRoom,
           printed := g.printed ++ (promptText cname conns
             ++ (if input ≠ "time".toList ∧ some input ∉ adjacent c then [errorMessage] else [])
             ++ ["\n"]) }) := by
  have hcmem : c ∈ rooms := List.getElem?_mem hc
  obtain ⟨cname, hcname⟩ := Option.ne_none_iff_exists'.mp (hwf.2.1 c hcmem)
  have hslots : ∀ i ∈ List.range' 0 c.currConnections,
      ∃ nm, c.connectingRooms[i]? = some (some nm) := by
    intro i hi
    exact hwf.slot hcmem (by have := List.mem_range'_1.mp hi; omega)
  obtain ⟨conns, hconns⟩ := printConnections_some c _ hslots
  obtain ⟨res, hres, hyes, hno⟩ := matchConnections_spec c input _ (0, g.nextRoom) hslots
  refine ⟨cname, conns, hcname, hconns, ?_⟩
  by_cases hadj : some input ∈ adjacent c
  · have hr : res = (1, some input) := hyes ((mem_adjacent_iff c _).mp hadj)
    subst hr
    by_cases ht : input = "time".toList
    · subst ht
      simp only [ask, hcur, hc, hcname, hconns, hline, hres, hadj, promptText, errorMessage]
      simp
    · simp only [ask, hcur, hc, hcname, hconns, hline, hres, ht, hadj, promptText, errorMessage]
      simp
  · have hr : res = (0, g.nextRoom) := hno (fun h => hadj ((mem_adjacent_iff c _).mpr h))
    subst hr
    by_cases ht : input = "time".toList
    · subst ht
      simp only [ask, hcur, hc, hcname, hconns, hline, hres, hadj, promptText, errorMessage]
      simp
    · have ht2 : ¬ input = ['t', 'i', 'm', 'e'] := ht
      simp only [ask, hcur, hc, hcname, hconns, hline, hres, ht, hadj, promptText, errorMessage]
      simp [ht2]


theorem stripNewline_some {line : List Char} (h : line ≠ []) :
    ∃ input, stripNewline line = some input := by
  unfold stripNewline
  cases hl : line.getLast? with
  | none => exact absurd (List.getLast?_eq_none_iff.mp hl) h
  | some c =>
    by_cases hc : c = Char.ofNat 10
    · exact ⟨line.dropLast, by simp [hc]⟩
    · exact ⟨line, by simp [hc]⟩

/-- The test of the outer loop reads the current room and the step counter only. -/
theorem goesOn_congr {rooms : List Room} {g g1 : Game} (hc : g1.currRoom = g.currRoom)
    (hs : g1.steps = g.steps) : goesOn rooms g1 = goesOn rooms g := by
  unfold goesOn
  rw [hc, hs]

/-- The invariant of the loop reads the current room, the step counter and the path
only. -/
theorem LoopInv.congr {rooms : List Room} {start : Nat} {g g1 : Game} {log log1 : Log}
    (h : LoopInv rooms start g log) (hc : g1.currRoom = g.currRoom) (hs : g1.steps = g.steps)
    (hp : g1.path = g.path) (he : log1.entered = log.entered) : LoopInv rooms start g1 log1 where
  cur := by rw [hc, he]; exact h.cur
  startRoom := h.startRoom
  inRange := by rw [he]; exact h.inRange
  steps := by rw [hs, he]; exact h.steps
  bound := by rw [hs]; exact h.bound
  plen := by rw [hp]; exact h.plen
  path := by rw [hp, hs, he]; exact h.path
  chain := by rw [he]; exact h.chain

theorem chain_concat {R : Nat → Nat → Prop} :
    ∀ (l : List Nat) (a b : Nat), List.Chain R a l → R (l.getLastD a) b →
      List.Chain R a (l ++ [b]) := by
  intro l
  induction l with
  | nil =>
    intro a b _ hr
    exact List.Chain.cons hr List.Chain.nil
  | cons x xs ih =>
    intro a b hc hr
    rw [List.getLastD_cons] at hr
    cases hc with
    | cons hax hrest => exact List.Chain.cons hax (ih x b hrest hr)

theorem getLastD_lt {rooms : List Room} {start : Nat} {l : List Nat}
    (hs : start < rooms.length) (hl : ∀ t ∈ l, t < rooms.length) :
    l.getLastD start < rooms.length := by
  rw [List.getLastD_eq_getLast?]
  cases h : l.getLast? with
  | none => simpa using hs
  | some x =>
    obtain ⟨ys, rfl⟩ := List.getLast?_eq_some_iff.mp h
    simpa using hl x (by simp)

/-- The current room of a state that satisfies the invariant is a room of the graph. -/
theorem LoopInv.room {rooms : List Room} {start : Nat} {g : Game} {log : Log}
    (h : LoopInv rooms start g log) :
    ∃ c, rooms[log.entered.getLastD start]? = some c ∧ c ∈ rooms := by
  have hlt := getLastD_lt h.startRoom h.inRange
  exact ⟨rooms[log.entered.getLastD start], by simp [hlt], List.getElem_mem hlt⟩

/-- The move of lines 388-395 to the room named `nextRoom`, which is room `t`: it
becomes the current room, the step counter goes up by one and `t` is written
to `path[steps]`. -/
theorem advance_move {rooms : List Room} (hwf : WellFormed rooms) (timeFile : Option String)
    {g : Game} {input : List Char} {t : Nat} {rt : Room}
    (hnext : g.nextRoom = some input) (ht : rooms[t]? = some rt) (hname : rt.name = some input)
    (hs : g.steps < 50) :
    advance rooms timeFile 1 g
      = some { g with
               currRoom := some t,
               steps := g.steps + 1,
               path := g.path.set g.steps (some t) } := by
  have hlen7 : rooms.length = 7 := hwf.1
  have htl : t < rooms.length := by
    rcases List.getElem?_eq_some_iff.mp ht with ⟨h1, _⟩; exact h1
  obtain ⟨g1, hg1, hin, _⟩ := enterRoom_spec rooms input t (hwf.named ht hname)
    (List.range' 0 ROOMS_IN_GAME)
    { g with steps := g.steps + 1 }
    (List.nodup_range' 0 ROOMS_IN_GAME 1 Nat.one_pos)
    (by
      intro i hi
      have := List.mem_range'_1.mp hi
      unfold ROOMS_IN_GAME at this
      omega)
    (by simp) (by simp; omega)
  have htin : t ∈ List.range' 0 ROOMS_IN_GAME := by
    refine List.mem_range'_1.mpr ⟨Nat.zero_le _, ?_⟩
    unfold ROOMS_IN_GAME
    omega
  have hg1eq := hin htin
  have hadv : advance rooms timeFile 1 g
      = enterRoom rooms input (List.range' 0 ROOMS_IN_GAME) { g with steps := g.steps + 1 } := by
    simp only [advance, hnext, if_true]
  rw [hadv, hg1, hg1eq]
  simp

/-- In a well-formed graph the name of a connection is the name of a room. -/
theorem WellFormed.target {rooms : List Room} (hwf : WellFormed rooms) {c : Room}
    (hc : c ∈ rooms) {input : List Char} (hadj : some input ∈ adjacent c) :
    ∃ (t : Nat) (rt : Room), rooms[t]? = some rt ∧ rt.name = some input := by
  obtain ⟨nm, hnm, r1, hr1, hr1name⟩ := (hwf.2.2.2 c hc).2.2 _ hadj
  have hnm2 : nm = input := (Option.some.inj hnm).symm
  subst hnm2
  obtain ⟨t, ht, hrt⟩ := List.getElem_of_mem hr1
  refine ⟨t, r1, ?_, hr1name⟩
  rw [List.getElem?_eq_getElem ht, hrt]

/-- The test of the outer loop in a state whose current room is room `t`. -/
theorem goesOn_eq {rooms : List Room} {g : Game} {t : Nat} {rt : Room} {ty : List Char}
    (hc : g.currRoom = some t) (ht : rooms[t]? = some rt) (hty : rt.roomType = some ty) :
    goesOn rooms g = some (decide (ty ≠ "END_ROOM".toList) && decide (g.steps < 50)) := by
  simp [goesOn, hc, ht, hty]


/-- The `time` branch of lines 398-406 prints the text of the file and changes
nothing else. -/
theorem advance_time (rooms : List Room) (timeFile : Option String) (g : Game) :
    ∃ g2, advance rooms timeFile 2 g = some g2 ∧ g2.currRoom = g.currRoom ∧
      g2.steps = g.steps ∧ g2.path = g.path ∧ g2.nextRoom = g.nextRoom ∧
      g2.printed = g.printed ++ timeFile.toList := by
  cases timeFile with
  | none => exact ⟨g, by simp [advance], rfl, rfl, rfl, rfl, by simp⟩
  | some text =>
    exact ⟨{ g with printed := g.printed ++ [text] }, by simp [advance], rfl, rfl, rfl, rfl,
      by simp⟩

/-- One pass of the inner loop, with the new state described field by field. -/
theorem ask_fields {rooms : List Room} (hwf : WellFormed rooms) {g : Game} {ci : Nat} {c : Room}
    (hcur : g.currRoom = some ci) (hc : rooms[ci]? = some c) {line input : List Char}
    (hline : stripNewline line = some input) :
    ∃ cname conns g1, c.name = some cname ∧
      printConnections c (List.range' 0 c.currConnections) = some conns ∧
      ask rooms g line = some
        (if input = "time".toList then 2 else if some input ∈ adjacent c then 1 else 0, g1) ∧
      g1.currRoom = g.currRoom ∧ g1.steps = g.steps ∧ g1.path = g.path ∧
      g1.nextRoom = (if some input ∈ adjacent c then some input else g.nextRoom) ∧
      g1.printed = g.printed ++ (promptText cname conns
        ++ (if input ≠ "time".toList ∧ some input ∉ adjacent c then [errorMessage] else [])
        ++ ["\n"]) := by
  obtain ⟨cname, conns, h1, h2, h3⟩ := ask_spec hwf hcur hc hline
  exact ⟨cname, conns, _, h1, h2, h3, rfl, rfl, rfl, rfl, rfl⟩

/-- What the loop of `play` does with one string, from a prompt in a state that
satisfies the invariant, with current room `c`: it ends in a state that satisfies
the invariant, either at the next prompt or at the end of the loop. A `time`
command is joined; the name of an adjacent room, other than `time`, enters the
room of that name and counts one step; any other string changes neither the
current room, nor the step counter, nor the path. -/
theorem playLoop_step {rooms : List Room} (hl : Loaded rooms) (timeFile : Nat → Option String)
    {start : Nat} {g : Game} {log : Log} (hinv : LoopInv rooms start g log)
    (hgo : goesOn rooms g = some true)
    (hth : log.created = log.joined + log.entered.length + 1)
    {c : Room} (hc : rooms[log.entered.getLastD start]? = some c)
    {line input : List Char} (hline : stripNewline line = some input) :
    ∃ g1 log1, LoopInv rooms start g1 log1 ∧
      log1.joined = log.joined + (if input = "time".toList then 1 else 0) ∧
      (input ≠ "time".toList ∧ some input ∈ adjacent c →
        ∃ (t : Nat) (rt : Room), rooms[t]? = some rt ∧ rt.name = some input ∧
          log1.entered = log.entered ++ [t] ∧ g1.steps = g.steps + 1) ∧
      (¬ (input ≠ "time".toList ∧ some input ∈ adjacent c) →
        log1.entered = log.entered ∧ g1.steps = g.steps ∧ g1.currRoom = g.currRoom ∧
          g1.path = g.path) ∧
      ((goesOn rooms g1 = some true ∧ log1.created = log1.joined + log1.entered.length + 1 ∧
          ∀ rest, playLoop rooms timeFile (line :: rest) g log
            = playLoop rooms timeFile rest g1 log1) ∨
       (goesOn rooms g1 = some false ∧ log1.created = log1.joined + log1.entered.length ∧
          ∀ rest, playLoop rooms timeFile (line :: rest) g log
            = some (Run.finished g1 log1 rest))) := by
  obtain ⟨hwf, htyped, _⟩ := hl
  have hcmem : c ∈ rooms := List.getElem?_mem hc
  obtain ⟨cty, hcty⟩ := Option.ne_none_iff_exists'.mp (htyped c hcmem)
  have hgo2 := goesOn_eq hinv.cur hc hcty
  rw [hgo] at hgo2
  have hsteps : g.steps < 50 := by
    have := Option.some.inj hgo2
    simp only [Bool.true_eq, Bool.and_eq_true, decide_eq_true_eq] at this
    exact this.2
  obtain ⟨cname, conns, g1, _, _, hask, hcur1, hsteps1, hpath1, hnext1, _⟩ :=
    ask_fields hwf hinv.cur hc hline
  by_cases ht : input = "time".toList
  · -- the `time` command
    rw [if_pos ht] at hask
    obtain ⟨g2, hadv, hcur2, hsteps2, hpath2, _, _⟩ := advance_time rooms (timeFile log.joined) g1
    have hgo3 : goesOn rooms g2 = some true := by
      rw [← hgo]; exact goesOn_congr (hcur2.trans hcur1) (hsteps2.trans hsteps1)
    refine ⟨g2, { created := log.created + 1, joined := log.joined + 1, entered := log.entered },
      hinv.congr (hcur2.trans hcur1) (hsteps2.trans hsteps1) (hpath2.trans hpath1) rfl,
      by rw [if_pos ht], fun h => absurd ht h.1,
      fun _ => ⟨rfl, hsteps2.trans hsteps1, hcur2.trans hcur1, hpath2.trans hpath1⟩,
      Or.inl ⟨hgo3, ?_, ?_⟩⟩
    · simp only; omega
    · intro rest
      simp only [playLoop, hask, hadv, hgo3]
      simp
  · rw [if_neg ht] at hask
    by_cases hadj : some input ∈ adjacent c
    · -- a move
      rw [if_pos hadj] at hask hnext1
      obtain ⟨t, rt, hrt, hrtname⟩ := hwf.target hcmem hadj
      have htl : t < rooms.length := by
        rcases List.getElem?_eq_some_iff.mp hrt with ⟨h1, _⟩; exact h1
      have hrtmem : rt ∈ rooms := List.getElem?_mem hrt
      obtain ⟨rty, hrty⟩ := Option.ne_none_iff_exists'.mp (htyped rt hrtmem)
      have hadv := advance_move hwf (timeFile log.joined) hnext1 hrt hrtname
        (by rw [hsteps1]; exact hsteps)
      have hadjTo : adjacentTo rooms (log.entered.getLastD start) t = true := by
        unfold adjacentTo
        rw [hc, hrt]
        simp [hrtname, hadj]
      have hinv2 : ∀ (created joined : Nat),
          LoopInv rooms start
            { g1 with
              currRoom := some t,
              steps := g1.steps + 1,
              path := g1.path.set g1.steps (some t) }
            { created := created, joined := joined, entered := log.entered ++ [t] } := by
        intro created joined
        constructor
        · simp only [List.getLastD_concat]
        · exact hinv.startRoom
        · intro x hx
          rcases List.mem_append.mp hx with h | h
          · exact hinv.inRange x h
          · rw [List.mem_singleton.mp h]; exact htl
        · simp [hinv.steps, hsteps1]
        · show g1.steps + 1 ≤ 50
          omega
        · simp [hinv.plen, hpath1]
        · show (g1.path.set g1.steps (some t)).take (g1.steps + 1) = _
          rw [hpath1, hsteps1,
            BuildRooms.take_set_succ _ _ _ (by rw [hinv.plen]; exact hsteps), hinv.path]
          simp
        · exact chain_concat _ _ _ hinv.chain hadjTo
      have hgo3 : goesOn rooms
            { g1 with
              currRoom := some t,
              steps := g1.steps + 1,
              path := g1.path.set g1.steps (some t) }
            = some (decide (rty ≠ "END_ROOM".toList) && decide (g1.steps + 1 < 50)) :=
        goesOn_eq rfl hrt hrty
      by_cases hcont : (decide (rty ≠ "END_ROOM".toList) && decide (g1.steps + 1 < 50)) = true
      · refine ⟨_, _, hinv2 (log.created + 1) log.joined, by rw [if_neg ht]; rfl,
          fun _ => ⟨t, rt, hrt, hrtname, rfl, by simp [hsteps1]⟩,
          fun h => absurd ⟨ht, hadj⟩ h, Or.inl ⟨?_, ?_, ?_⟩⟩
        · rw [hgo3, hcont]
        · simp only [List.length_append, List.length_singleton]; omega
        · intro rest
          simp only [playLoop, hask, hadv, Nat.one_ne_zero, if_false]
          rw [hgo3, hcont]
          simp
      · have hcont2 :
            (decide (rty ≠ "END_ROOM".toList) && decide (g1.steps + 1 < 50)) = false := by
          simpa using hcont
        refine ⟨_, _, hinv2 log.created log.joined, by rw [if_neg ht]; rfl,
          fun _ => ⟨t, rt, hrt, hrtname, rfl, by simp [hsteps1]⟩,
          fun h => absurd ⟨ht, hadj⟩ h, Or.inr ⟨?_, ?_, ?_⟩⟩
        · rw [hgo3, hcont2]
        · simp only [List.length_append, List.length_singleton]; omega
        · intro rest
          simp only [playLoop, hask, hadv, Nat.one_ne_zero, if_false]
          rw [hgo3, hcont2]
          simp
    · -- an invalid string
      rw [if_neg hadj] at hask
      refine ⟨g1, log, hinv.congr hcur1 hsteps1 hpath1 rfl, by rw [if_neg ht]; rfl,
        fun h => absurd h.2 hadj, fun _ => ⟨rfl, hsteps1, hcur1, hpath1⟩,
        Or.inl ⟨?_, hth, ?_⟩⟩
      · rw [← hgo]; exact goesOn_congr hcur1 hsteps1
      · intro rest
        simp [playLoop, hask]


theorem timeCommands_cons {line input : List Char} (hline : stripNewline line = some input)
    (used : List (List Char)) :
    timeCommands (line :: used)
      = (if input = "time".toList then 1 else 0) + timeCommands used := by
  unfold timeCommands
  rw [List.filter_cons]
  by_cases ht : input = "time".toList
  · have hd : decide (stripNewline line = some "time".toList) = true := by
      rw [hline, ht]; exact decide_eq_true rfl
    rw [if_pos hd, if_pos ht, List.length_cons, Nat.add_comm]
  · have hd : ¬ (decide (stripNewline line = some "time".toList) = true) := by
      rw [hline, decide_eq_true_eq]
      intro h
      exact ht (Option.some.inj h)
    rw [if_neg hd, if_neg ht, Nat.zero_add]

/-- The loop of `play` from a prompt in a state that satisfies the invariant, on
strings as `fgets` stores them: it returns a run, whose end satisfies the
invariant; the run joined one clock thread per `time` command that it read, and
it ended the loop exactly when the test of line 408 failed. -/
theorem playLoop_spec {rooms : List Room} (hl : Loaded rooms) (timeFile : Nat → Option String)
    {start : Nat} :
    ∀ (inputs : List (List Char)) (g : Game) (log : Log), (∀ l ∈ inputs, l ≠ []) →
      LoopInv rooms start g log → goesOn rooms g = some true →
      log.created = log.joined + log.entered.length + 1 →
      ∃ run used, playLoop rooms timeFile inputs g log = some run ∧
        LoopInv rooms start run.game run.log ∧
        run.log.joined = log.joined + timeCommands used ∧
        (∃ more, run.log.entered = log.entered ++ more) ∧
        (match run with
         | Run.waiting g1 log1 =>
           inputs = used ∧ goesOn rooms g1 = some true ∧
             log1.created = log1.joined + log1.entered.length + 1
         | Run.finished g1 log1 rest =>
           inputs = used ++ rest ∧ goesOn rooms g1 = some false ∧
             log1.created = log1.joined + log1.entered.length) := by
  intro inputs
  induction inputs with
  | nil =>
    intro g log _ hinv hgo hth
    exact ⟨Run.waiting g log, [], rfl, hinv, by simp [Run.log, timeCommands], ⟨[], by simp [Run.log]⟩,
      rfl, hgo, hth⟩
  | cons line rest ih =>
    intro g log hne hinv hgo hth
    obtain ⟨input, hline⟩ := stripNewline_some (hne line (List.mem_cons_self _ _))
    obtain ⟨c, hc, _⟩ := hinv.room
    obtain ⟨g1, log1, hinv1, hj, hmove, hstay, hcase⟩ :=
      playLoop_step hl timeFile hinv hgo hth hc hline
    have hmore : ∃ more, log1.entered = log.entered ++ more := by
      by_cases hm : input ≠ "time".toList ∧ some input ∈ adjacent c
      · obtain ⟨t, _, _, _, he, _⟩ := hmove hm
        exact ⟨[t], he⟩
      · exact ⟨[], by simp [(hstay hm).1]⟩
    rcases hcase with ⟨hgo1, hth1, hrun⟩ | ⟨hgo1, hth1, hrun⟩
    · obtain ⟨run, used, hr, hinvr, hjr, ⟨more2, hmore2⟩, hmatch⟩ :=
        ih g1 log1 (fun l hl2 => hne l (List.mem_cons_of_mem _ hl2)) hinv1 hgo1 hth1
      obtain ⟨more1, hmore1⟩ := hmore
      refine ⟨run, line :: used, by rw [hrun, hr], hinvr, ?_, ⟨more1 ++ more2, ?_⟩, ?_⟩
      · rw [hjr, hj, timeCommands_cons hline, Nat.add_assoc]
      · rw [hmore2, hmore1, List.append_assoc]
      · cases run with
        | waiting g2 log2 =>
          obtain ⟨h1, h2, h3⟩ := hmatch
          exact ⟨by rw [h1], h2, h3⟩
        | finished g2 log2 rest2 =>
          obtain ⟨h1, h2, h3⟩ := hmatch
          exact ⟨by rw [h1]; rfl, h2, h3⟩
    · refine ⟨Run.finished g1 log1 rest, [line], hrun rest, hinv1, ?_, hmore, rfl, hgo1, hth1⟩
      show log1.joined = log.joined + timeCommands [line]
      rw [hj, timeCommands_cons hline]
      simp [timeCommands]

/-- The search for the start room in a loaded graph ends at a room of type
`START_ROOM`. -/
theorem findStart_spec {rooms : List Room} (htyped : ∀ r ∈ rooms, r.roomType ≠ none) :
    ∀ (is : List Nat) (curr : Option Nat), (∀ i ∈ is, i < rooms.length) →
      ∃ res, findStart rooms is curr = some res ∧
        ((∃ i ∈ is, ∃ r, rooms[i]? = some r ∧ r.roomType = some "START_ROOM".toList) →
          ∃ s r, res = some s ∧ rooms[s]? = some r ∧ r.roomType = some "START_ROOM".toList) ∧
        ((¬ ∃ i ∈ is, ∃ r, rooms[i]? = some r ∧ r.roomType = some "START_ROOM".toList) →
          res = curr) := by
  intro is
  induction is with
  | nil =>
    intro curr _
    exact ⟨curr, rfl, by simp, fun _ => rfl⟩
  | cons i is ih =>
    intro curr hlt
    have hil := hlt i (List.mem_cons_self _ _)
    have hri : rooms[i]? = some rooms[i] := by simp [hil]
    obtain ⟨ty, hty⟩ := Option.ne_none_iff_exists'.mp (htyped rooms[i] (List.getElem_mem hil))
    obtain ⟨res, hres, hyes, hno⟩ :=
      ih (if ty = "START_ROOM".toList then some i else curr)
        (fun j hj => hlt j (List.mem_cons_of_mem _ hj))
    refine ⟨res, by simp only [findStart, hri, hty]; exact hres, ?_, ?_⟩
    · rintro ⟨j, hj, r, hr, hrty⟩
      by_cases hrest : ∃ k ∈ is, ∃ r, rooms[k]? = some r ∧ r.roomType = some "START_ROOM".toList
      · exact hyes hrest
      · rw [hno hrest]
        rcases List.mem_cons.mp hj with rfl | hj2
        · rw [hri] at hr
          cases hr
          rw [hty] at hrty
          have hts : ty = "START_ROOM".toList := Option.some.inj hrty
          exact ⟨j, rooms[j], by rw [if_pos hts], hri, by rw [hty, hts]⟩
        · exact absurd ⟨j, hj2, r, hr, hrty⟩ hrest
    · intro hnone
      have hrest : ¬ ∃ k ∈ is, ∃ r, rooms[k]? = some r ∧ r.roomType = some "START_ROOM".toList := by
        rintro ⟨k, hk, h⟩
        exact hnone ⟨k, List.mem_cons_of_mem _ hk, h⟩
      rw [hno hrest]
      have hne : ty ≠ "START_ROOM".toList := by
        intro he
        exact hnone ⟨i, List.mem_cons_self _ _, rooms[i], hri, by rw [hty, he]⟩
      rw [if_neg hne]

/-- In a loaded graph `play` enters its loop in a room of type `START_ROOM`, with no
step counted, in a state that satisfies the invariant. -/
theorem startGame_spec {rooms : List Room} (hl : Loaded rooms) :
    ∃ start r, rooms[start]? = some r ∧ r.roomType = some "START_ROOM".toList ∧
      startGame rooms = some { currRoom := some start, steps := 0,
                               path := List.replicate 50 none, nextRoom := none,
                               printed := [] } ∧
      LoopInv rooms start
        { currRoom := some start, steps := 0, path := List.replicate 50 none, nextRoom := none,
          printed := [] }
        { created := 1, joined := 0, entered := [] } ∧
      goesOn rooms
        { currRoom := some start, steps := 0, path := List.replicate 50 none, nextRoom := none,
          printed := [] } = some true := by
  obtain ⟨hwf, htyped, r0, hr0, hr0ty⟩ := hl
  have hlen : rooms.length = 7 := hwf.1
  obtain ⟨res, hres, hyes, _⟩ := findStart_spec htyped (List.range' 0 ROOMS_IN_GAME) none
    (by
      intro i hi
      have := List.mem_range'_1.mp hi
      unfold ROOMS_IN_GAME at this
      omega)
  obtain ⟨i0, hi0, hri0⟩ := List.getElem_of_mem hr0
  obtain ⟨s, r, hs, hr, hrty⟩ := hyes ⟨i0, List.mem_range'_1.mpr ⟨Nat.zero_le _, by
      unfold ROOMS_IN_GAME; omega⟩, r0, by simp [hi0, hri0], hr0ty⟩
  have hsl : s < rooms.length := by
    rcases List.getElem?_eq_some_iff.mp hr with ⟨h1, _⟩; exact h1
  subst hs
  refine ⟨s, r, hr, hrty, by simp [startGame, hres], ?_, ?_⟩
  · constructor
    · rfl
    · exact hsl
    · intro t ht; simp at ht
    · rfl
    · show 0 ≤ 50
      omega
    · simp
    · simp
    · exact List.Chain.nil
  · rw [goesOn_eq rfl hr hrty]
    have h1 : decide ("START_ROOM".toList ≠ "END_ROOM".toList) = true := by decide
    have h2 : decide ((0 : Nat) < 50) = true := by decide
    show some (decide ("START_ROOM".toList ≠ "END_ROOM".toList) && decide ((0 : Nat) < 50))
      = some true
    rw [h1, h2]
    rfl


/-- The function `play` on a loaded graph and on strings as `fgets` stores them: it
starts in a room of type `START_ROOM` and returns a run, whose end satisfies the
invariant of the loop. -/
theorem play_spec {rooms : List Room} (hl : Loaded rooms) (timeFile : Nat → Option String)
    (inputs : List (List Char)) (hne : ∀ l ∈ inputs, l ≠ []) :
    ∃ start rs run used, rooms[start]? = some rs ∧ rs.roomType = some "START_ROOM".toList ∧
      play rooms timeFile inputs = some run ∧ LoopInv rooms start run.game run.log ∧
      run.log.joined = timeCommands used ∧
      (match run with
       | Run.waiting g1 log1 =>
         inputs = used ∧ goesOn rooms g1 = some true ∧
           log1.created = log1.joined + log1.entered.length + 1
       | Run.finished g1 log1 rest =>
         inputs = used ++ rest ∧ goesOn rooms g1 = some false ∧
           log1.created = log1.joined + log1.entered.length) := by
  obtain ⟨start, rs, hrs, hty, hstart, hinv, hgo⟩ := startGame_spec hl
  obtain ⟨run, used, hrun, hinv1, hj, _, hmatch⟩ :=
    playLoop_spec hl timeFile inputs _ _ hne hinv hgo rfl
  refine ⟨start, rs, run, used, hrs, hty, ?_, hinv1, ?_, hmatch⟩
  · simp only [play, hstart]
    exact hrun
  · rw [hj]
    exact Nat.zero_add _

/-- Once the loop has ended, strings typed after the ones it read are left unread. -/
theorem playLoop_append (rooms : List Room) (timeFile : Nat → Option String)
    (extra : List (List Char)) :
    ∀ (inputs : List (List Char)) (g : Game) (log : Log) (g1 : Game) (log1 : Log)
      (rest : List (List Char)),
      playLoop rooms timeFile inputs g log = some (Run.finished g1 log1 rest) →
      playLoop rooms timeFile (inputs ++ extra) g log
        = some (Run.finished g1 log1 (rest ++ extra)) := by
  intro inputs
  induction inputs with
  | nil =>
    intro g log g1 log1 rest h
    simp [playLoop] at h
  | cons line more ih =>
    intro g log g1 log1 rest h
    rw [List.cons_append]
    simp only [playLoop] at h ⊢
    cases hask : ask rooms g line with
    | none => rw [hask] at h; simp at h
    | some p =>
      obtain ⟨valid, ga⟩ := p
      rw [hask] at h
      simp only [] at h ⊢
      by_cases hv : valid = 0
      · rw [if_pos hv] at h ⊢
        exact ih _ _ _ _ _ h
      · rw [if_neg hv] at h ⊢
        cases hadv : advance rooms (timeFile log.joined) valid ga with
        | none => rw [hadv] at h; simp at h
        | some g2 =>
          rw [hadv] at h
          simp only [] at h ⊢
          cases hgo : goesOn rooms g2 with
          | none => rw [hgo] at h; simp at h
          | some b =>
            rw [hgo] at h
            cases b with
            | true =>
              simp only [] at h ⊢
              exact ih _ _ _ _ _ h
            | false =>
              simp only [Option.some.injEq, Run.finished.injEq] at h ⊢
              obtain ⟨h1, h2, h3⟩ := h
              exact ⟨h1, h2, by rw [h3]⟩

/-- The test of the outer loop in terms of the current room and the step counter. -/
theorem goesOn_isEnd {rooms : List Room} {g : Game} {ci : Nat} (hcur : g.currRoom = some ci)
    {b : Bool} (h : goesOn rooms g = some b) :
    b = (!isEnd rooms ci && decide (g.steps < 50)) := by
  unfold goesOn at h
  unfold isEnd
  rw [hcur] at h
  simp only [] at h
  cases hr : rooms[ci]? with
  | none => rw [hr] at h; simp at h
  | some c =>
    rw [hr] at h
    simp only [] at h ⊢
    cases hty : c.roomType with
    | none => rw [hty] at h; simp at h
    | some ty =>
      rw [hty] at h
      simp only [Option.some.injEq] at h
      rw [← h]
      by_cases he : ty = "END_ROOM".toList <;> simp [he]

/-- The loop of lines 419-422 prints the names of the rooms that `path` holds. -/
theorem pathLines_spec {rooms : List Room} (hwf : WellFormed rooms) (g : Game) :
    ∀ (es : List Nat) (k : Nat), (∀ t ∈ es, t < rooms.length) →
      (∀ i, i < es.length → g.path[k + i]? = (es[i]?).map some) →
      pathLines rooms g (List.range' k es.length)
        = some (es.map fun t => String.mk (roomName rooms t) ++ "\n") := by
  intro es
  induction es with
  | nil =>
    intro k _ _
    rfl
  | cons e es ih =>
    intro k hlt hpath
    have he : e < rooms.length := hlt e (List.mem_cons_self _ _)
    have hre : rooms[e]? = some rooms[e] := by simp [he]
    obtain ⟨nm, hnm⟩ := Option.ne_none_iff_exists'.mp (hwf.2.1 rooms[e] (List.getElem_mem he))
    have h0 : g.path[k]? = some (some e) := by
      have := hpath 0 (by simp)
      simpa using this
    have htail := ih (k + 1) (fun t ht => hlt t (List.mem_cons_of_mem _ ht))
      (by
        intro i hi
        have := hpath (i + 1) (by simp; omega)
        rw [List.getElem?_cons_succ] at this
        rw [← this]
        congr 1
        omega)
    rw [List.length_cons, List.range'_succ]
    simp only [pathLines, h0, hre, hnm, htail, List.map_cons, roomName, Option.getD_some]

/-- The lines of the path at the end of a run that satisfies the invariant. -/
theorem LoopInv.pathLines {rooms : List Room} (hwf : WellFormed rooms) {start : Nat} {g : Game}
    {log : Log} (h : LoopInv rooms start g log) :
    pathLines rooms g (List.range' 0 g.steps)
      = some (log.entered.map fun t => String.mk (roomName rooms t) ++ "\n") := by
  rw [← h.steps]
  apply pathLines_spec hwf g log.entered 0 h.inRange
  intro i hi
  rw [Nat.zero_add]
  have hi2 : i < g.steps := by rw [← h.steps]; exact hi
  rw [← List.getElem?_take_of_lt hi2, h.path, List.getElem?_map]

/-- The search `roomNamed` returns a room of the given name. -/
theorem roomNamed_spec (nm : List Char) :
    ∀ (rooms : List Room) (k t : Nat), roomNamed nm rooms k = some t →
      ∃ r, k ≤ t ∧ rooms[t - k]? = some r ∧ r.name = some nm := by
  intro rooms
  induction rooms with
  | nil =>
    intro k t h
    simp [roomNamed] at h
  | cons r rest ih =>
    intro k t h
    simp only [roomNamed] at h
    by_cases hr : r.name = some nm
    · rw [if_pos hr] at h
      have hk : k = t := Option.some.inj h
      subst hk
      exact ⟨r, Nat.le_refl _, by simp, hr⟩
    · rw [if_neg hr] at h
      obtain ⟨r1, hle, hr1, hname⟩ := ih (k + 1) t h
      refine ⟨r1, by omega, ?_, hname⟩
      have : t - k = (t - (k + 1)) + 1 := by omega
      rw [this, List.getElem?_cons_succ]
      exact hr1

/-- Valid moves that stay out of the end room, as many as bring the step counter to
50: the loop reads them all, ends with 50 steps counted and leaves what is
typed after them unread. -/
theorem playLoop_moves {rooms : List Room} (hl : Loaded rooms) (timeFile : Nat → Option String)
    {start : Nat} :
    ∀ (lines : List (List Char)) (g : Game) (log : Log), LoopInv rooms start g log →
      goesOn rooms g = some true → log.created = log.joined + log.entered.length + 1 →
      movesAvoidingEnd rooms (log.entered.getLastD start) lines = true → lines ≠ [] →
      g.steps + lines.length = 50 →
      ∃ g1 log1, g1.steps = 50 ∧ LoopInv rooms start g1 log1 ∧
        ∀ extra, playLoop rooms timeFile (lines ++ extra) g log
          = some (Run.finished g1 log1 extra) := by
  intro lines
  induction lines with
  | nil =>
    intro g log _ _ _ _ hne _
    exact absurd rfl hne
  | cons line rest ih =>
    intro g log hinv hgo hth hmoves _ hlen
    obtain ⟨c, hc, hcmem⟩ := hinv.room
    simp only [movesAvoidingEnd] at hmoves
    cases hmt : moveTarget rooms (log.entered.getLastD start) line with
    | none => rw [hmt] at hmoves; simp at hmoves
    | some t =>
      rw [hmt] at hmoves
      simp only [] at hmoves
      cases hrt : rooms[t]? with
      | none => rw [hrt] at hmoves; simp at hmoves
      | some rt =>
        rw [hrt] at hmoves
        simp only [Bool.and_eq_true, decide_eq_true_eq] at hmoves
        obtain ⟨hnotEnd, hrestMoves⟩ := hmoves
        -- the string is the name of an adjacent room, which is room `t`
        unfold moveTarget at hmt
        cases hline : stripNewline line with
        | none => rw [hline] at hmt; simp at hmt
        | some input =>
          rw [hline, hc] at hmt
          simp only [] at hmt
          by_cases hvalid : input ≠ "time".toList ∧ some input ∈ adjacent c
          · rw [if_pos hvalid] at hmt
            obtain ⟨r0, _, hr0, hr0name⟩ := roomNamed_spec input rooms 0 t hmt
            rw [Nat.sub_zero, hrt] at hr0
            have hr0eq : rt = r0 := Option.some.inj hr0
            subst hr0eq
            obtain ⟨g1, log1, hinv1, _, hmove, _, hcase⟩ :=
              playLoop_step hl timeFile hinv hgo hth hc hline
            obtain ⟨t1, rt1, hrt1, hrt1name, hent, hsteps1⟩ := hmove hvalid
            have ht1l : t1 < rooms.length := by
              rcases List.getElem?_eq_some_iff.mp hrt1 with ⟨h1, _⟩; exact h1
            obtain ⟨r2, nm2, hr2, hnm2, hiff⟩ := hl.1.named hrt hr0name t1 ht1l
            rw [hrt1] at hr2
            have hr2eq : rt1 = r2 := Option.some.inj hr2
            subst hr2eq
            rw [hrt1name] at hnm2
            have ht1 : t1 = t := hiff.mp (Option.some.inj hnm2).symm
            subst ht1
            have hlast : log1.entered.getLastD start = t1 := by
              rw [hent]; simp
            obtain ⟨ty, hty⟩ := Option.ne_none_iff_exists'.mp (hl.2.1 rt (List.getElem?_mem hrt))
            have htyne : ty ≠ "END_ROOM".toList := by
              intro he
              exact hnotEnd (by rw [hty, he])
            have hgo1 : goesOn rooms g1 = some (decide (g1.steps < 50)) := by
              rw [goesOn_eq (hinv1.cur.trans (by rw [hlast])) hrt hty]
              have hd : decide (ty ≠ "END_ROOM".toList) = true := decide_eq_true htyne
              rw [hd, Bool.true_and]
            by_cases hrest : rest = []
            · subst hrest
              have h50 : g1.steps = 50 := by
                simp only [List.length_cons, List.length_nil] at hlen
                omega
              rcases hcase with ⟨hgo2, _, _⟩ | ⟨_, _, hrun⟩
              · rw [hgo1, h50] at hgo2
                simp at hgo2
              · exact ⟨g1, log1, h50, hinv1, fun extra => by
                  rw [List.cons_append, List.nil_append]; exact hrun extra⟩
            · have hlt : g1.steps < 50 := by
                have : 0 < rest.length := List.length_pos.mpr hrest
                simp only [List.length_cons] at hlen
                omega
              rcases hcase with ⟨hgo2, hth1, hrun⟩ | ⟨hgo2, _, _⟩
              · obtain ⟨g2, log2, h50, hinv2, hrun2⟩ :=
                  ih g1 log1 hinv1 hgo2 hth1 (by rw [hlast]; exact hrestMoves) hrest
                    (by simp only [List.length_cons] at hlen; omega)
                exact ⟨g2, log2, h50, hinv2, fun extra => by
                  rw [List.cons_append, hrun]; exact hrun2 extra⟩
              · rw [hgo1] at hgo2
                simp [hlt] at hgo2
          · rw [if_neg hvalid] at hmt
            simp at hmt

theorem ringRooms_loaded : Loaded ringRooms := by
  unfold Loaded WellFormed
  decide


/-! ## The claims on the loop of `play` -/

theorem isEnd_true {rooms : List Room} {t : Nat} (h : isEnd rooms t = true) :
    ∃ r, rooms[t]? = some r ∧ r.roomType = some "END_ROOM".toList := by
  unfold isEnd at h
  cases hr : rooms[t]? with
  | none => rw [hr] at h; simp at h
  | some r =>
    rw [hr] at h
    exact ⟨r, rfl, of_decide_eq_true h⟩

/-- What `play` prints after its loop when the loop ended in the end room with fewer
than 50 steps: the congratulations, the step count and the names of the rooms
entered, in order. -/
theorem playEnd_solved {rooms : List Room} (hwf : WellFormed rooms) {start : Nat} {g : Game}
    {log : Log} (hinv : LoopInv rooms start g log)
    (hend : isEnd rooms (log.entered.getLastD start) = true) (h50 : g.steps ≠ 50) :
    playEnd rooms g = some ([congratulations, stepsMessage g.steps]
      ++ log.entered.map fun t => String.mk (roomName rooms t) ++ "\n") := by
  obtain ⟨r, hr, hty⟩ := isEnd_true hend
  unfold playEnd
  rw [if_neg h50, hinv.cur]
  simp only [hr, hty, if_true, hinv.pathLines hwf]

set_option maxRecDepth 100000 in
/-- Claim C11, on the fiftieth move: in the loaded graph `ringRooms` the fifty moves
`fiftyMovesToEnd` are all valid and the last one enters the end room. The loop
ends with the current room of type `END_ROOM` and 50 steps counted; the test of
line 410 comes first, so `play` prints the failure message and returns, without
the congratulations, the step count or the path. -/
theorem play_end_room_on_fiftieth_move :
    Loaded ringRooms ∧ isEnd ringRooms 6 = true ∧
    (play ringRooms (fun _ => none) fiftyMovesToEnd).map
        (fun run => (decide (run = Run.finished run.game run.log []), run.game.currRoom,
          run.game.steps, run.log.entered.length))
      = some (true, some 6, 50, 50) ∧
    (play ringRooms (fun _ => none) fiftyMovesToEnd).map
        (fun run => playEnd ringRooms run.game) = some (some [failureMessage]) :=
  ⟨ringRooms_loaded, by decide, by decide, by decide⟩

/-- Claim C12. Path on Solved: for every well-formed loaded graph and all inputs
after which `play` leaves its loop and prints the congratulations, with step
count `s`: after the congratulations and the step count it prints exactly `s`
lines; line `k` is the name of the room that the `k`-th valid move entered, which
is also the room that `path[k]` holds (the start room is not listed); each of
these rooms is adjacent to the one before it, the first to the start room; and
the last one is of type `END_ROOM`. -/
theorem play_solved_path {rooms : List Room} (hl : Loaded rooms)
    (timeFile : Nat → Option String) (inputs : List (List Char)) (hne : ∀ l ∈ inputs, l ≠ [])
    {g : Game} {log : Log} {rest : List (List Char)}
    (hrun : play rooms timeFile inputs = some (Run.finished g log rest))
    {out : List String} (hout : playEnd rooms g = some out) (hsolved : congratulations ∈ out) :
    ∃ start rs last, rooms[start]? = some rs ∧ rs.roomType = some "START_ROOM".toList ∧
      out = [congratulations, stepsMessage g.steps]
        ++ log.entered.map (fun t => String.mk (roomName rooms t) ++ "\n") ∧
      (log.entered.map (fun t => String.mk (roomName rooms t) ++ "\n")).length = g.steps ∧
      g.path.take g.steps = log.entered.map some ∧
      List.Chain (fun a b => adjacentTo rooms a b = true) start log.entered ∧
      log.entered.getLast? = some last ∧ isEnd rooms last = true := by
  obtain ⟨start, rs, run, used, hrs, hty, hplay, hinv, _, hmatch⟩ :=
    play_spec hl timeFile inputs hne
  rw [hrun] at hplay
  have hr : run = Run.finished g log rest := (Option.some.inj hplay).symm
  subst hr
  have hinv2 : LoopInv rooms start g log := hinv
  have hgo : goesOn rooms g = some false := hmatch.2.1
  have hb := goesOn_isEnd hinv2.cur hgo
  have h50 : g.steps ≠ 50 := by
    intro h50
    unfold playEnd at hout
    rw [if_pos h50] at hout
    rw [← Option.some.inj hout] at hsolved
    revert hsolved
    decide
  have hlt : g.steps < 50 := Nat.lt_of_le_of_ne hinv2.bound h50
  have hend : isEnd rooms (log.entered.getLastD start) = true := by
    have hd : decide (g.steps < 50) = true := decide_eq_true hlt
    rw [hd, Bool.and_true] at hb
    cases he : isEnd rooms (log.entered.getLastD start) with
    | true => rfl
    | false => rw [he] at hb; exact absurd hb (by decide)
  have hout2 := playEnd_solved hl.1 hinv2 hend h50
  rw [hout] at hout2
  have hlast : ∃ last, log.entered.getLast? = some last := by
    cases hg : log.entered.getLast? with
    | some x => exact ⟨x, rfl⟩
    | none =>
      rw [List.getLastD_eq_getLast?, hg] at hend
      obtain ⟨r, hr, hrty⟩ := isEnd_true hend
      rw [Option.getD_none, hrs] at hr
      rw [← Option.some.inj hr, hty] at hrty
      exact absurd hrty (by decide)
  obtain ⟨last, hlast⟩ := hlast
  refine ⟨start, rs, last, hrs, hty, Option.some.inj hout2, ?_, hinv2.path, hinv2.chain, hlast, ?_⟩
  · rw [List.length_map]
    exact hinv2.steps
  · rw [List.getLastD_eq_getLast?, hlast] at hend
    exact hend

theorem play_solved_path_witness :
    Loaded ringRooms ∧
    play ringRooms (fun _ => none) (typed ["SodoSwamp"])
      = some (Run.finished ringSolved { created := 1, joined := 0, entered := [6] } []) ∧
    playEnd ringRooms ringSolved = some [congratulations, stepsMessage 1, "SodoSwamp\n"] ∧
    ∃ start rs last, ringRooms[start]? = some rs ∧ rs.roomType = some "START_ROOM".toList ∧
      [congratulations, stepsMessage 1, "SodoSwamp\n"]
        = [congratulations, stepsMessage ringSolved.steps]
          ++ [6].map (fun t => String.mk (roomName ringRooms t) ++ "\n") ∧
      ([6].map (fun t => String.mk (roomName ringRooms t) ++ "\n")).length = ringSolved.steps ∧
      ringSolved.path.take ringSolved.steps = [6].map some ∧
      List.Chain (fun a b => adjacentTo ringRooms a b = true) start [6] ∧
      [6].getLast? = some last ∧ isEnd ringRooms last = true :=
  ⟨ringRooms_loaded, by decide, by decide,
    play_solved_path ringRooms_loaded (fun _ => none) (typed ["SodoSwamp"]) (by decide)
      (show play ringRooms (fun _ => none) (typed ["SodoSwamp"])
        = some (Run.finished ringSolved { created := 1, joined := 0, entered := [6] } [])
        by decide)
      (show playEnd ringRooms ringSolved
        = some [congratulations, stepsMessage 1, "SodoSwamp\n"] by decide)
      (by decide)⟩

/-- Claim C13. Bounded traversal: for every well-formed loaded graph and all
inputs, `play` runs without a write outside the 50 slots of `path` (the model
returns no run on such a write), and in the state reached the step counter is at
most 50 and equals the number of valid moves accepted. While the loop waits for
input the current room is not the end room and the step counter is below 50;
once the current room is the end room or the step counter is 50 the loop has
ended, and whatever is typed after that is left unread. -/
theorem play_bounded {rooms : List Room} (hl : Loaded rooms) (timeFile : Nat → Option String)
    (inputs : List (List Char)) (hne : ∀ l ∈ inputs, l ≠ []) :
    ∃ run ci, play rooms timeFile inputs = some run ∧ run.game.currRoom = some ci ∧
      run.game.steps ≤ 50 ∧ run.log.entered.length = run.game.steps ∧
      run.game.path.length = 50 ∧
      (match run with
       | Run.waiting g _ => isEnd rooms ci = false ∧ g.steps < 50
       | Run.finished g log rest =>
         (isEnd rooms ci = true ∨ g.steps = 50) ∧
         ∀ extra, play rooms timeFile (inputs ++ extra)
           = some (Run.finished g log (rest ++ extra))) := by
  obtain ⟨start, rs, run, used, hrs, hty, hplay, hinv, _, hmatch⟩ :=
    play_spec hl timeFile inputs hne
  refine ⟨run, run.log.entered.getLastD start, hplay, hinv.cur, hinv.bound, hinv.steps,
    hinv.plen, ?_⟩
  cases run with
  | waiting g log =>
    have hgo : goesOn rooms g = some true := hmatch.2.1
    have hb := goesOn_isEnd hinv.cur hgo
    have hb2 := hb.symm
    rw [Bool.and_eq_true, Bool.not_eq_true', decide_eq_true_eq] at hb2
    exact hb2
  | finished g log rest =>
    have hgo : goesOn rooms g = some false := hmatch.2.1
    have hb := goesOn_isEnd hinv.cur hgo
    have hbound : g.steps ≤ 50 := hinv.bound
    have hb1 : false = (!isEnd rooms (log.entered.getLastD start) && decide (g.steps < 50)) := hb
    constructor
    · show isEnd rooms (log.entered.getLastD start) = true ∨ g.steps = 50
      cases he : isEnd rooms (log.entered.getLastD start) with
      | true => exact Or.inl rfl
      | false =>
        right
        rw [he] at hb1
        have hb2 := hb1.symm
        rw [Bool.not_false, Bool.true_and, decide_eq_false_iff_not] at hb2
        omega
    · intro extra
      unfold play at hplay ⊢
      cases hs : startGame rooms with
      | none => rw [hs] at hplay; simp at hplay
      | some g0 =>
        rw [hs] at hplay
        exact playLoop_append rooms timeFile extra inputs g0 _ g log rest hplay

theorem play_bounded_witness :
    Loaded ringRooms ∧
    (∀ l ∈ fiftyMovesAround ++ typed ["BallardBurrow"], l ≠ []) ∧
    ∃ run ci, play ringRooms (fun _ => none) (fiftyMovesAround ++ typed ["BallardBurrow"])
        = some run ∧ run.game.currRoom = some ci ∧
      run.game.steps ≤ 50 ∧ run.log.entered.length = run.game.steps ∧
      run.game.path.length = 50 ∧
      (match run with
       | Run.waiting g _ => isEnd ringRooms ci = false ∧ g.steps < 50
       | Run.finished g log rest =>
         (isEnd ringRooms ci = true ∨ g.steps = 50) ∧
         ∀ extra, play ringRooms (fun _ => none)
             (fiftyMovesAround ++ typed ["BallardBurrow"] ++ extra)
           = some (Run.finished g log (rest ++ extra))) :=
  ⟨ringRooms_loaded, by decide,
    play_bounded ringRooms_loaded (fun _ => none) (fiftyMovesAround ++ typed ["BallardBurrow"])
      (by decide)⟩

/-- Claim C14. Exhaustion: for every well-formed loaded graph and every 50
consecutive valid moves from the start room none of which enters the end room,
the loop ends after the 50th move, with 50 steps counted and anything typed
after the 50th move left unread, and `play` then prints the failure message and
nothing else: neither the congratulations nor a line of the path. -/
theorem play_fifty_moves {rooms : List Room} (hl : Loaded rooms)
    (timeFile : Nat → Option String) {g0 : Game} {start : Nat}
    (hstart : startGame rooms = some g0) (hcur : g0.currRoom = some start)
    (lines : List (List Char)) (hlen : lines.length = 50)
    (hmoves : movesAvoidingEnd rooms start lines = true) (extra : List (List Char)) :
    ∃ g log, play rooms timeFile (lines ++ extra) = some (Run.finished g log extra) ∧
      g.steps = 50 ∧ log.entered.length = 50 ∧ playEnd rooms g = some [failureMessage] ∧
      congratulations ∉ [failureMessage] := by
  obtain ⟨start1, rs, _, _, hstart1, hinv, hgo⟩ := startGame_spec hl
  rw [hstart] at hstart1
  have hg0 := Option.some.inj hstart1
  subst hg0
  have hs : start1 = start := Option.some.inj hcur
  subst hs
  have hne : lines ≠ [] := by
    intro h
    rw [h] at hlen
    exact absurd hlen (by decide)
  obtain ⟨g, log, h50, hinv1, hrun⟩ :=
    playLoop_moves hl timeFile lines _ _ hinv hgo rfl hmoves hne
      (by show 0 + lines.length = 50; omega)
  refine ⟨g, log, ?_, h50, ?_, ?_, by decide⟩
  · unfold play
    rw [hstart]
    exact hrun extra
  · rw [hinv1.steps, h50]
  · unfold playEnd
    rw [if_pos h50]

theorem play_fifty_moves_witness :
    Loaded ringRooms ∧ startGame ringRooms = some ringStart ∧ ringStart.currRoom = some 0 ∧
    fiftyMovesAround.length = 50 ∧ movesAvoidingEnd ringRooms 0 fiftyMovesAround = true ∧
    ∃ g log, play ringRooms (fun _ => none) (fiftyMovesAround ++ typed ["SodoSwamp"])
        = some (Run.finished g log (typed ["SodoSwamp"])) ∧
      g.steps = 50 ∧ log.entered.length = 50 ∧ playEnd ringRooms g = some [failureMessage] ∧
      congratulations ∉ [failureMessage] :=
  ⟨ringRooms_loaded, by decide, rfl, by decide, by decide,
    play_fifty_moves ringRooms_loaded (fun _ => none) (show startGame ringRooms = some ringStart
      by decide) rfl fiftyMovesAround (by decide) (by decide) (typed ["SodoSwamp"])⟩

/-- Claim C15. Invalid command: in every state with current room `c` of a
well-formed graph, a string that (without its newline) is neither the word `time`
nor the name of a room that `c` lists makes the pass of the inner loop print the
prompt and the error message and set `valid` to 0; the current room, the step
counter and the path stay as they were; the loop does not end but prompts again,
for the same room, and goes on with the next string. -/
theorem playLoop_invalid_command {rooms : List Room} (hwf : WellFormed rooms)
    (timeFile : Nat → Option String) (g : Game) (log : Log) {ci : Nat} {c : Room}
    (hcur : g.currRoom = some ci) (hc : rooms[ci]? = some c) {line input : List Char}
    (hline : stripNewline line = some input) (hnt : input ≠ "time".toList)
    (hna : some input ∉ adjacent c) :
    ∃ cname conns g1, c.name = some cname ∧
      printConnections c (List.range' 0 c.currConnections) = some conns ∧
      ask rooms g line = some (0, g1) ∧
      g1.printed = g.printed ++ (promptText cname conns ++ [errorMessage] ++ ["\n"]) ∧
      g1.currRoom = g.currRoom ∧ g1.steps = g.steps ∧ g1.path = g.path ∧
      (∀ rest, playLoop rooms timeFile (line :: rest) g log
        = playLoop rooms timeFile rest g1 log) ∧
      (∀ line2 input2, stripNewline line2 = some input2 →
        ∃ v g2 tail, ask rooms g1 line2 = some (v, g2) ∧
          g2.printed = g1.printed ++ (promptText cname conns ++ tail)) := by
  obtain ⟨cname, conns, g1, hname, hconns, hask, hcur1, hsteps1, hpath1, _, hprinted⟩ :=
    ask_fields hwf hcur hc hline
  rw [if_neg hnt, if_neg hna] at hask
  rw [if_pos ⟨hnt, hna⟩] at hprinted
  refine ⟨cname, conns, g1, hname, hconns, hask, hprinted, hcur1, hsteps1, hpath1, ?_, ?_⟩
  · intro rest
    simp only [playLoop, hask, if_true]
  · intro line2 input2 hline2
    obtain ⟨cname2, conns2, g2, hname2, hconns2, hask2, _, _, _, _, hprinted2⟩ :=
      ask_fields hwf (hcur1.trans hcur) hc hline2
    rw [hname] at hname2
    rw [hconns] at hconns2
    rw [← Option.some.inj hname2, ← Option.some.inj hconns2] at hprinted2
    exact ⟨_, g2, _, hask2, by rw [hprinted2, List.append_assoc]⟩

theorem playLoop_invalid_command_witness :
    WellFormed ringRooms ∧ ringStart.currRoom = some 0 ∧
    stripNewline ("Narnia".toList ++ [Char.ofNat 10]) = some "Narnia".toList ∧
    ∃ c, ringRooms[0]? = some c ∧ "Narnia".toList ≠ "time".toList ∧
      some "Narnia".toList ∉ adjacent c ∧
      ∃ cname conns g1, c.name = some cname ∧
        printConnections c (List.range' 0 c.currConnections) = some conns ∧
        ask ringRooms ringStart ("Narnia".toList ++ [Char.ofNat 10]) = some (0, g1) ∧
        g1.printed = ringStart.printed ++ (promptText cname conns ++ [errorMessage] ++ ["\n"]) ∧
        g1.currRoom = ringStart.currRoom ∧ g1.steps = ringStart.steps ∧
        g1.path = ringStart.path ∧
        (∀ rest, playLoop ringRooms (fun _ => none)
            (("Narnia".toList ++ [Char.ofNat 10]) :: rest) ringStart
            { created := 1, joined := 0, entered := [] }
          = playLoop ringRooms (fun _ => none) rest g1
            { created := 1, joined := 0, entered := [] }) ∧
        (∀ line2 input2, stripNewline line2 = some input2 →
          ∃ v g2 tail, ask ringRooms g1 line2 = some (v, g2) ∧
            g2.printed = g1.printed ++ (promptText cname conns ++ tail)) :=
  ⟨ringRooms_wellFormed, rfl, by decide, ringRooms[0], by decide, by decide, by decide,
    playLoop_invalid_command ringRooms_wellFormed (fun _ => none) ringStart
      { created := 1, joined := 0, entered := [] } rfl
      (show ringRooms[0]? = some ringRooms[0] by decide)
      (show stripNewline ("Narnia".toList ++ [Char.ofNat 10]) = some "Narnia".toList by decide)
      (by decide) (by decide)⟩

/-- Claim C16. The `time` command: in every state in which the loop goes on (the
current room `c` is not the end room and the step counter is below 50) and in
which `c` lists no room named `time`, the string `time` sets `valid` to 2, the
pass of the inner loop prints the prompt and no error message, the rest of the
body prints the text of the time file and changes neither the step counter, nor
the current room, nor the path, and the loop goes on with the next string. -/
theorem playLoop_time_command {rooms : List Room} (hwf : WellFormed rooms)
    (timeFile : Nat → Option String) (g : Game) (log : Log) {ci : Nat} {c : Room}
    (hcur : g.currRoom = some ci) (hc : rooms[ci]? = some c)
    (hgo : goesOn rooms g = some true) {line : List Char}
    (hline : stripNewline line = some "time".toList)
    (hna : some "time".toList ∉ adjacent c) :
    ∃ cname conns g1 g2, c.name = some cname ∧
      printConnections c (List.range' 0 c.currConnections) = some conns ∧
      ask rooms g line = some (2, g1) ∧
      g1.printed = g.printed ++ (promptText cname conns ++ ["\n"]) ∧
      advance rooms (timeFile log.joined) 2 g1 = some g2 ∧
      g2.printed = g1.printed ++ (timeFile log.joined).toList ∧
      g2.steps = g.steps ∧ g2.currRoom = g.currRoom ∧ g2.path = g.path ∧
      g2.nextRoom = g.nextRoom ∧
      goesOn rooms g2 = some true ∧
      (∀ rest, playLoop rooms timeFile (line :: rest) g log
        = playLoop rooms timeFile rest g2
            { created := log.created + 1, joined := log.joined + 1, entered := log.entered }) := by
  obtain ⟨cname, conns, g1, hname, hconns, hask, hcur1, hsteps1, hpath1, hnext1, hprinted⟩ :=
    ask_fields hwf hcur hc hline
  rw [if_pos rfl] at hask
  rw [if_neg (fun h => h.1 rfl), List.append_nil] at hprinted
  rw [if_neg hna] at hnext1
  obtain ⟨g2, hadv, hcur2, hsteps2, hpath2, hnext2, hprinted2⟩ :=
    advance_time rooms (timeFile log.joined) g1
  have hgo2 : goesOn rooms g2 = some true := by
    rw [← hgo]
    exact goesOn_congr (hcur2.trans hcur1) (hsteps2.trans hsteps1)
  refine ⟨cname, conns, g1, g2, hname, hconns, hask, hprinted, hadv, hprinted2,
    hsteps2.trans hsteps1, hcur2.trans hcur1, hpath2.trans hpath1, hnext2.trans hnext1, hgo2, ?_⟩
  intro rest
  simp only [playLoop, hask, hadv, hgo2]
  simp

theorem playLoop_time_command_witness :
    WellFormed ringRooms ∧ ringStart.currRoom = some 0 ∧
    goesOn ringRooms ringStart = some true ∧
    stripNewline ("time".toList ++ [Char.ofNat 10]) = some "time".toList ∧
    ∃ c, ringRooms[0]? = some c ∧ some "time".toList ∉ adjacent c ∧
      ∃ cname conns g1 g2, c.name = some cname ∧
        printConnections c (List.range' 0 c.currConnections) = some conns ∧
        ask ringRooms ringStart ("time".toList ++ [Char.ofNat 10]) = some (2, g1) ∧
        g1.printed = ringStart.printed ++ (promptText cname conns ++ ["\n"]) ∧
        advance ringRooms (some "3:45pm, Saturday, December 5, 2026\n\n") 2 g1 = some g2 ∧
        g2.printed = g1.printed ++ (some "3:45pm, Saturday, December 5, 2026\n\n").toList ∧
        g2.steps = ringStart.steps ∧ g2.currRoom = ringStart.currRoom ∧
        g2.path = ringStart.path ∧ g2.nextRoom = ringStart.nextRoom ∧
        goesOn ringRooms g2 = some true ∧
        (∀ rest, playLoop ringRooms (fun _ => some "3:45pm, Saturday, December 5, 2026\n\n")
            (("time".toList ++ [Char.ofNat 10]) :: rest) ringStart
            { created := 1, joined := 0, entered := [] }
          = playLoop ringRooms (fun _ => some "3:45pm, Saturday, December 5, 2026\n\n") rest g2
            { created := 1 + 1, joined := 0 + 1, entered := [] }) :=
  ⟨ringRooms_wellFormed, rfl, by decide, by decide, ringRooms[0], by decide, by decide,
    playLoop_time_command ringRooms_wellFormed
      (fun _ => some "3:45pm, Saturday, December 5, 2026\n\n") ringStart
      { created := 1, joined := 0, entered := [] } rfl
      (show ringRooms[0]? = some ringRooms[0] by decide) (by decide)
      (show stripNewline ("time".toList ++ [Char.ofNat 10]) = some "time".toList by decide)
      (by decide)⟩

/-- Claim C18 as stated fails. In the loaded graph `ringRooms`, before any input is
read one clock thread has been created, with no `time` command given; and after
the one valid move `BallardBurrow`, which holds no `time` command, the loop
waits for input with two clock threads created and none joined. -/
theorem play_two_clock_tasks :
    Loaded ringRooms ∧
    play ringRooms (fun _ => none) []
      = some (Run.waiting ringStart { created := 1, joined := 0, entered := [] }) ∧
    timeCommands (typed ["BallardBurrow"]) = 0 ∧
    (play ringRooms (fun _ => none) (typed ["BallardBurrow"])).map
        (fun run => (decide (run = Run.waiting run.game run.log), run.log.created,
          run.log.joined, run.log.entered))
      = some (true, 2, 0, [1]) :=
  ⟨ringRooms_loaded, by decide, by decide, by decide⟩

/-- Claim C18, amended. For every well-formed loaded graph and all inputs: a clock
thread is created at the start of every pass of the outer loop, the first one
before any input is read, and not in response to a `time` command. So while the
loop waits for input the clock threads created are one more than the valid
commands handled so far (the `time` commands read and the moves accepted), and
once the loop has ended, which a valid command did, they are as many as those.
The clock threads joined are as many as the `time` commands read, and never more
than those created; and as long as no move has been accepted the loop has not
ended and exactly one clock thread is created and not yet joined when it waits
for input. -/
theorem play_clock_tasks {rooms : List Room} (hl : Loaded rooms)
    (timeFile : Nat → Option String) (inputs : List (List Char))
    (hne : ∀ l ∈ inputs, l ≠ []) :
    ∃ run used, play rooms timeFile inputs = some run ∧
      1 ≤ run.log.created ∧ run.log.joined = timeCommands used ∧
      run.log.joined ≤ run.log.created ∧
      run.log.entered.length = run.game.steps ∧
      (match run with
       | Run.waiting g log =>
         inputs = used ∧ log.created = timeCommands used + g.steps + 1 ∧
           (log.entered = [] → log.created = log.joined + 1)
       | Run.finished g log rest =>
         inputs = used ++ rest ∧ log.created = timeCommands used + g.steps ∧
           log.entered ≠ []) := by
  obtain ⟨start, rs, run, used, hrs, hty, hplay, hinv, hj, hmatch⟩ :=
    play_spec hl timeFile inputs hne
  refine ⟨run, used, hplay, ?_, hj, ?_, hinv.steps, ?_⟩
  · cases run with
    | waiting g log =>
      have h : log.created = log.joined + log.entered.length + 1 := hmatch.2.2
      show 1 ≤ log.created
      omega
    | finished g log rest =>
      have h : log.created = log.joined + log.entered.length := hmatch.2.2
      have hgo : goesOn rooms g = some false := hmatch.2.1
      have hinv2 : LoopInv rooms start g log := hinv
      show 1 ≤ log.created
      cases he : log.entered with
      | nil =>
        have hgo2 := goesOn_eq (hinv2.cur.trans (by rw [he]; rfl)) hrs hty
        rw [hgo, ← hinv2.steps, he] at hgo2
        exact absurd (Option.some.inj hgo2) (by decide)
      | cons x xs =>
        rw [he, List.length_cons] at h
        omega
  · cases run with
    | waiting g log =>
      have h : log.created = log.joined + log.entered.length + 1 := hmatch.2.2
      show log.joined ≤ log.created
      omega
    | finished g log rest =>
      have h : log.created = log.joined + log.entered.length := hmatch.2.2
      show log.joined ≤ log.created
      omega
  · cases run with
    | waiting g log =>
      have h : log.created = log.joined + log.entered.length + 1 := hmatch.2.2
      have hinv2 : LoopInv rooms start g log := hinv
      have hj2 : log.joined = timeCommands used := hj
      refine ⟨hmatch.1, ?_, fun he => ?_⟩
      · rw [h, hj2, hinv2.steps]
      · rw [he, List.length_nil] at h
        omega
    | finished g log rest =>
      have h : log.created = log.joined + log.entered.length := hmatch.2.2
      have hgo : goesOn rooms g = some false := hmatch.2.1
      have hinv2 : LoopInv rooms start g log := hinv
      have hj2 : log.joined = timeCommands used := hj
      refine ⟨hmatch.1, ?_, fun he => ?_⟩
      · rw [h, hj2, hinv2.steps]
      · have hgo2 := goesOn_eq (hinv2.cur.trans (by rw [he]; rfl)) hrs hty
        rw [hgo, ← hinv2.steps, he] at hgo2
        exact absurd (Option.some.inj hgo2) (by decide)

theorem play_clock_tasks_witness :
    Loaded ringRooms ∧
    (∀ l ∈ typed ["time", "Narnia", "BallardBurrow", "time"], l ≠ []) ∧
    ∃ run used,
      play ringRooms (fun _ => none) (typed ["time", "Narnia", "BallardBurrow", "time"])
        = some run ∧
      1 ≤ run.log.created ∧ run.log.joined = timeCommands used ∧
      run.log.joined ≤ run.log.created ∧
      run.log.entered.length = run.game.steps ∧
      (match run with
       | Run.waiting g log =>
         typed ["time", "Narnia", "BallardBurrow", "time"] = used ∧
           log.created = timeCommands used + g.steps + 1 ∧
           (log.entered = [] → log.created = log.joined + 1)
       | Run.finished g log rest =>
         typed ["time", "Narnia", "BallardBurrow", "time"] = used ++ rest ∧
           log.created = timeCommands used + g.steps ∧ log.entered ≠ []) :=
  ⟨ringRooms_loaded, by decide,
    play_clock_tasks ringRooms_loaded (fun _ => none)
      (typed ["time", "Narnia", "BallardBurrow", "time"]) (by decide)⟩


/-! ## The mutex and the time file -/

theorem initial_inv : SysInv initial where
  mainHolds := by decide
  taskHolds := by
    intro i t h
    simp [initial] at h
  joined := by
    intro h
    rcases h with h | h | h <;> exact absurd h (by decide)

/-- A step of the thread of `play` keeps the invariant. -/
theorem mainStep_inv {s s1 : Sys} (cmd : Command) (opens again : Bool) (hinv : SysInv s)
    (h : mainStep s cmd opens again = some s1) : SysInv s1 := by
  obtain ⟨hm, ht, hj⟩ := hinv
  have hfree : s.mutex = none → ∀ i t, s.tasks[i]? = some t →
      (t.holds = true ↔ some Owner.main = some (Owner.task i)) := by
    intro hnone i t hit
    have := ht i t hit
    rw [hnone] at this
    constructor
    · intro hh
      exact absurd (this.mp hh) (by simp)
    · intro hh
      exact absurd hh (by simp)
  have hmain : s.mutex = some Owner.main → ∀ i t, s.tasks[i]? = some t →
      (t.holds = true ↔ (none : Option Owner) = some (Owner.task i)) := by
    intro hmu i t hit
    have := ht i t hit
    rw [hmu] at this
    constructor
    · intro hh
      exact absurd (this.mp hh) (by simp)
    · intro hh
      exact absurd hh (by simp)
  unfold mainStep at h
  cases hpc : s.main with
  | entry =>
    rw [hpc] at h
    simp only [] at h
    by_cases hmu : s.mutex = none
    · rw [if_pos hmu] at h
      have hs1 := Option.some.inj h
      subst hs1
      exact ⟨by simp [MainAt.holds], hfree hmu, by simp⟩
    · rw [if_neg hmu] at h
      exact absurd h (by simp)
  | create =>
    rw [hpc] at h
    simp only [] at h
    have hs1 := Option.some.inj h
    subst hs1
    have hmu : s.mutex = some Owner.main := hm.mp (by rw [hpc]; rfl)
    refine ⟨by simp [MainAt.holds, hmu], ?_, by simp⟩
    intro i t hit
    show t.holds = true ↔ s.mutex = some (Owner.task i)
    have hit2 : (s.tasks ++ [TaskAt.parked])[i]? = some t := hit
    by_cases hi : i < s.tasks.length
    · rw [List.getElem?_append_left hi] at hit2
      exact ht i t hit2
    · rw [List.getElem?_append_right (Nat.le_of_not_lt hi)] at hit2
      have hmem : t ∈ [TaskAt.parked] := List.getElem?_mem hit2
      have htp : t = TaskAt.parked := by simpa using hmem
      subst htp
      rw [hmu]
      simp [TaskAt.holds]
  | prompt =>
    rw [hpc] at h
    simp only [] at h
    cases cmd with
    | invalid =>
      simp only [] at h
      have hs1 := Option.some.inj h
      subst hs1
      exact ⟨hm, ht, hj⟩
    | move =>
      simp only [] at h
      have hs1 := Option.some.inj h
      subst hs1
      have hmu : s.mutex = some Owner.main := hm.mp (by rw [hpc]; rfl)
      exact ⟨by simp [MainAt.holds, hmu], ht, by simp⟩
    | time =>
      simp only [] at h
      by_cases hmu : s.mutex = some Owner.main
      · rw [if_pos hmu] at h
        have hs1 := Option.some.inj h
        subst hs1
        exact ⟨by simp [MainAt.holds], hmain hmu, by simp⟩
      · rw [if_neg hmu] at h
        exact absurd h (by simp)
  | released =>
    rw [hpc] at h
    simp only [] at h
    by_cases hfin : s.tasks[s.tasks.length - 1]? = some TaskAt.finished
    · rw [if_pos hfin] at h
      have hs1 := Option.some.inj h
      subst hs1
      refine ⟨?_, ht, fun _ => hfin⟩
      have := hm
      rw [hpc] at this
      simpa [MainAt.holds] using this
    · rw [if_neg hfin] at h
      exact absurd h (by simp)
  | joined =>
    rw [hpc] at h
    simp only [] at h
    by_cases hmu : s.mutex = none
    · rw [if_pos hmu] at h
      have hs1 := Option.some.inj h
      subst hs1
      exact ⟨by simp [MainAt.holds], hfree hmu, fun _ => hj (Or.inl hpc)⟩
    · rw [if_neg hmu] at h
      exact absurd h (by simp)
  | locked =>
    rw [hpc] at h
    simp only [] at h
    have hs1 := Option.some.inj h
    subst hs1
    have hmu : s.mutex = some Owner.main := hm.mp (by rw [hpc]; rfl)
    refine ⟨?_, ht, fun _ => hj (Or.inr (Or.inl hpc))⟩
    cases opens <;> simp [MainAt.holds, hmu]
  | reading =>
    rw [hpc] at h
    simp only [] at h
    have hs1 := Option.some.inj h
    subst hs1
    have hmu : s.mutex = some Owner.main := hm.mp (by rw [hpc]; rfl)
    exact ⟨by simp [MainAt.holds, hmu], ht, by simp⟩
  | test =>
    rw [hpc] at h
    simp only [] at h
    have hs1 := Option.some.inj h
    subst hs1
    have hmu : s.mutex = some Owner.main := hm.mp (by rw [hpc]; rfl)
    refine ⟨?_, ht, ?_⟩
    · cases again <;> simp [MainAt.holds, hmu]
    · cases again <;> simp
  | after =>
    rw [hpc] at h
    exact absurd h (by simp)

/-- A clock thread that moves on within `displayTime` leaves the other threads where
they stand. -/
theorem getElem?_set_task {tasks : List TaskAt} {i j : Nat} {x t : TaskAt}
    (h : (tasks.set i x)[j]? = some t) : (j = i ∧ t = x) ∨ (j ≠ i ∧ tasks[j]? = some t) := by
  rw [List.getElem?_set] at h
  by_cases hij : i = j
  · rw [if_pos hij] at h
    left
    refine ⟨hij.symm, ?_⟩
    by_cases hl : i < tasks.length
    · rw [if_pos hl] at h
      exact (Option.some.inj h).symm
    · rw [if_neg hl] at h
      exact absurd h (by simp)
  · rw [if_neg hij] at h
    exact Or.inr ⟨fun hji => hij hji.symm, h⟩

/-- The thread that `myThread` names stays where it stands when another clock
thread takes a step. -/
theorem getElem?_set_last {tasks : List TaskAt} {i : Nat} {x y : TaskAt}
    (hi : tasks[i]? = some y) (hy : y ≠ TaskAt.finished)
    (hlast : tasks[tasks.length - 1]? = some TaskAt.finished) :
    (tasks.set i x)[(tasks.set i x).length - 1]? = some TaskAt.finished := by
  rw [List.length_set, List.getElem?_set]
  by_cases hij : i = tasks.length - 1
  · rw [← hij, hi] at hlast
    exact absurd (Option.some.inj hlast) hy
  · rw [if_neg hij]
    exact hlast

/-- A step of a clock thread keeps the invariant. -/
theorem clockStep_inv {s s1 : Sys} (i : Nat) (hinv : SysInv s)
    (h : clockStep s i = some s1) : SysInv s1 := by
  obtain ⟨hm, ht, hj⟩ := hinv
  unfold clockStep at h
  cases hti : s.tasks[i]? with
  | none => rw [hti] at h; exact absurd h (by simp)
  | some y =>
    rw [hti] at h
    have hiy := ht i y hti
    cases y with
    | parked =>
      simp only [] at h
      by_cases hmu : s.mutex = none
      · rw [if_pos hmu] at h
        have hs1 := Option.some.inj h
        subst hs1
        refine ⟨?_, ?_, ?_⟩
        · show s.main.holds = true ↔ some (Owner.task i) = some Owner.main
          rw [hm, hmu]
          simp
        · intro j t hjt
          show t.holds = true ↔ some (Owner.task i) = some (Owner.task j)
          rcases getElem?_set_task hjt with ⟨hji, htx⟩ | ⟨hji, hjt2⟩
          · rw [hji, htx]
            simp [TaskAt.holds]
          · have := ht j t hjt2
            rw [hmu] at this
            constructor
            · intro hh
              exact absurd (this.mp hh) (by simp)
            · intro hh
              have : i = j := by simpa using hh
              exact absurd this.symm hji
        · intro hpc
          exact getElem?_set_last hti (by decide) (hj hpc)
      · rw [if_neg hmu] at h
        exact absurd h (by simp)
    | started =>
      simp only [] at h
      have hs1 := Option.some.inj h
      subst hs1
      have hmu : s.mutex = some (Owner.task i) := hiy.mp rfl
      refine ⟨hm, ?_, fun hpc => getElem?_set_last hti (by decide) (hj hpc)⟩
      intro j t hjt
      show t.holds = true ↔ s.mutex = some (Owner.task j)
      rcases getElem?_set_task hjt with ⟨hji, htx⟩ | ⟨_, hjt2⟩
      · rw [hji, htx, hmu]
        simp [TaskAt.holds]
      · exact ht j t hjt2
    | writing =>
      simp only [] at h
      have hs1 := Option.some.inj h
      subst hs1
      have hmu : s.mutex = some (Owner.task i) := hiy.mp rfl
      refine ⟨hm, ?_, fun hpc => getElem?_set_last hti (by decide) (hj hpc)⟩
      intro j t hjt
      show t.holds = true ↔ s.mutex = some (Owner.task j)
      rcases getElem?_set_task hjt with ⟨hji, htx⟩ | ⟨_, hjt2⟩
      · rw [hji, htx, hmu]
        simp [TaskAt.holds]
      · exact ht j t hjt2
    | written =>
      simp only [] at h
      have hmu : s.mutex = some (Owner.task i) := hiy.mp rfl
      rw [if_pos hmu] at h
      have hs1 := Option.some.inj h
      subst hs1
      refine ⟨?_, ?_, fun hpc => getElem?_set_last hti (by decide) (hj hpc)⟩
      · show s.main.holds = true ↔ (none : Option Owner) = some Owner.main
        rw [hm, hmu]
        simp
      · intro j t hjt
        show t.holds = true ↔ (none : Option Owner) = some (Owner.task j)
        rcases getElem?_set_task hjt with ⟨hji, htx⟩ | ⟨hji, hjt2⟩
        · rw [htx]
          simp [TaskAt.holds]
        · have := ht j t hjt2
          rw [hmu] at this
          constructor
          · intro hh
            have : i = j := by simpa using this.mp hh
            exact absurd this.symm hji
          · intro hh
            exact absurd hh (by simp)
    | finished =>
      exact absurd h (by simp)

/-- Every interleaving keeps the invariant. -/
theorem interleave_inv :
    ∀ (events : List Event) (s s1 : Sys), SysInv s → interleave s events = some s1 →
      SysInv s1 := by
  intro events
  induction events with
  | nil =>
    intro s s1 hinv h
    rw [← Option.some.inj h]
    exact hinv
  | cons e es ih =>
    intro s s1 hinv h
    simp only [interleave] at h
    cases hstep : step s e with
    | none => rw [hstep] at h; exact absurd h (by simp)
    | some s2 =>
      rw [hstep] at h
      apply ih s2 s1 ?_ h
      cases e with
      | main cmd opens again => exact mainStep_inv cmd opens again hinv hstep
      | task i => exact clockStep_inv i hinv hstep

/-- Claim C20. Mutual exclusion on the time file: in every interleaving of the
steps of the thread of `play` and of its clock threads, from the call of `play`
on, while the thread of `play` has `currentTime.txt` open for reading no clock
thread has it open for writing, nor holds the mutex; while a clock thread has the
file open for writing that thread holds the mutex and the thread of `play` does
not; and the thread of `play` has the file open for reading only while it holds
the mutex and after the clock thread that it joined for this `time` command, the
one `myThread` names, has returned from `displayTime`. -/
theorem time_file_mutual_exclusion (events : List Event) (s : Sys)
    (h : interleave initial events = some s) :
    (s.main = MainAt.reading → ∀ t ∈ s.tasks, t ≠ TaskAt.writing ∧ t.holds = false) ∧
    (∀ i, s.tasks[i]? = some TaskAt.writing →
      s.mutex = some (Owner.task i) ∧ s.mutex ≠ some Owner.main ∧ s.main.holds = false) ∧
    (s.main = MainAt.reading →
      s.mutex = some Owner.main ∧ s.tasks[s.tasks.length - 1]? = some TaskAt.finished) := by
  obtain ⟨hm, ht, hj⟩ := interleave_inv events initial s initial_inv h
  refine ⟨?_, ?_, ?_⟩
  · intro hpc t hmem
    have hmu : s.mutex = some Owner.main := hm.mp (by rw [hpc]; rfl)
    obtain ⟨i, hi⟩ := List.mem_iff_getElem?.mp hmem
    have hti := ht i t hi
    rw [hmu] at hti
    have hnot : t.holds = false := by
      cases hh : t.holds with
      | false => rfl
      | true => exact absurd (hti.mp hh) (by simp)
    refine ⟨?_, hnot⟩
    intro htw
    rw [htw] at hnot
    exact absurd hnot (by decide)
  · intro i hi
    have hmu : s.mutex = some (Owner.task i) := (ht i _ hi).mp rfl
    refine ⟨hmu, by rw [hmu]; simp, ?_⟩
    cases hh : s.main.holds with
    | false => rfl
    | true =>
      have := hm.mp hh
      rw [hmu] at this
      exact absurd this (by simp)
  · intro hpc
    exact ⟨hm.mp (by rw [hpc]; rfl), hj (Or.inr (Or.inr hpc))⟩

theorem time_file_mutual_exclusion_witness :
    interleave initial sampleInterleaving
      = some { main := MainAt.reading, tasks := [TaskAt.finished, TaskAt.finished],
               mutex := some Owner.main } ∧
    (MainAt.reading = MainAt.reading →
      ∀ t ∈ [TaskAt.finished, TaskAt.finished], t ≠ TaskAt.writing ∧ t.holds = false) ∧
    (∀ i, [TaskAt.finished, TaskAt.finished][i]? = some TaskAt.writing →
      some Owner.main = some (Owner.task i) ∧ some Owner.main ≠ some Owner.main ∧
        MainAt.reading.holds = false) ∧
    (MainAt.reading = MainAt.reading →
      some Owner.main = some Owner.main ∧
        [TaskAt.finished, TaskAt.finished][[TaskAt.finished, TaskAt.finished].length - 1]?
          = some TaskAt.finished) :=
  ⟨by decide, time_file_mutual_exclusion sampleInterleaving
    { main := MainAt.reading, tasks := [TaskAt.finished, TaskAt.finished],
      mutex := some Owner.main } (by decide)⟩

end Adventure

namespace BuildRooms

/-! ## The degrees and the targets after `createConnections` -/

/-- Writing back a room with the same `roomType` leaves the roles as they were. -/
theorem map_roomType_set {rs : List Room} {i : Nat} {r r1 : Room} (hr : rs[i]? = some r)
    (h : r1.roomType = r.roomType) :
    (rs.set i r1).map (fun x => x.roomType) = rs.map (fun x => x.roomType) := by
  apply List.ext_getElem?
  intro n
  rw [List.getElem?_map, List.getElem?_map, List.getElem?_set]
  by_cases hn : i = n
  · subst hn
    rcases List.getElem?_eq_some_iff.mp hr with ⟨hl, _⟩
    rw [if_pos rfl, if_pos hl, hr]
    simp [h]
  · rw [if_neg hn]

theorem storeConnection_roomType {rs rs1 : List Room} {i j : Nat}
    (h : storeConnection rs i j = some rs1) :
    rs1.map (fun x => x.roomType) = rs.map (fun x => x.roomType) := by
  unfold storeConnection at h
  cases hr : rs[i]? with
  | none => rw [hr] at h; exact absurd h (by simp)
  | some r =>
    rw [hr] at h
    simp only [] at h
    by_cases hlt : r.currConnections < MAX_CONNECTIONS
    · rw [if_pos hlt] at h
      rw [← Option.some.inj h]
      exact map_roomType_set hr rfl
    · rw [if_neg hlt] at h
      exact absurd h (by simp)

theorem incrConnections_roomType {rs rs1 : List Room} {i : Nat}
    (h : incrConnections rs i = some rs1) :
    rs1.map (fun x => x.roomType) = rs.map (fun x => x.roomType) := by
  unfold incrConnections at h
  cases hr : rs[i]? with
  | none => rw [hr] at h; exact absurd h (by simp)
  | some r =>
    rw [hr] at h
    rw [← Option.some.inj h]
    exact map_roomType_set hr rfl

/-- The four statements of `connect` write no `roomType`. -/
theorem connect_roomType {rs rs1 : List Room} {i j : Nat} (h : connect rs i j = some rs1) :
    rs1.map (fun x => x.roomType) = rs.map (fun x => x.roomType) := by
  unfold connect at h
  cases h1 : storeConnection rs i j with
  | none => rw [h1] at h; exact absurd h (by simp)
  | some s1 =>
    rw [h1] at h
    simp only [] at h
    cases h2 : storeConnection s1 j i with
    | none => rw [h2] at h; exact absurd h (by simp)
    | some s2 =>
      rw [h2] at h
      simp only [] at h
      cases h3 : incrConnections s2 i with
      | none => rw [h3] at h; exact absurd h (by simp)
      | some s3 =>
        rw [h3] at h
        simp only [] at h
        rw [incrConnections_roomType h, incrConnections_roomType h3,
          storeConnection_roomType h2, storeConnection_roomType h1]

theorem scanBody_roomType {rs rs1 : List Room} {i j : Nat} (h : scanBody i j rs = some rs1) :
    rs1.map (fun x => x.roomType) = rs.map (fun x => x.roomType) := by
  unfold scanBody at h
  cases hr : rs[j]? with
  | none => rw [hr] at h; exact absurd h (by simp)
  | some rj =>
    rw [hr] at h
    simp only [] at h
    by_cases hcap : rj.maxConnections > (rj.currConnections : Int)
    · rw [if_pos hcap] at h
      exact connect_roomType h
    · rw [if_neg hcap] at h
      rw [← Option.some.inj h]

theorem adjustMax_roomType {rs rs1 : List Room} {i : Nat} (h : adjustMax rs i = some rs1) :
    rs1.map (fun x => x.roomType) = rs.map (fun x => x.roomType) := by
  unfold adjustMax at h
  cases hr : rs[i]? with
  | none => rw [hr] at h; exact absurd h (by simp)
  | some r =>
    rw [hr] at h
    simp only [] at h
    by_cases hlt : r.maxConnections < (r.currConnections : Int)
    · rw [if_pos hlt] at h
      rw [← Option.some.inj h]
      exact map_roomType_set hr rfl
    · rw [if_neg hlt] at h
      rw [← Option.some.inj h]

/-- A loop whose body writes no `roomType` writes none. -/
theorem forLoop_roomType (body : Nat → List Room → Option (List Room))
    (hbody : ∀ j st st1, body j st = some st1 →
      st1.map (fun x => x.roomType) = st.map (fun x => x.roomType)) :
    ∀ (js : List Nat) (rs rs1 : List Room), forLoop body js rs = some rs1 →
      rs1.map (fun x => x.roomType) = rs.map (fun x => x.roomType) := by
  intro js
  induction js with
  | nil =>
    intro rs rs1 h
    simp only [forLoop] at h
    rw [← Option.some.inj h]
  | cons j js ih =>
    intro rs rs1 h
    simp only [forLoop] at h
    cases hb : body j rs with
    | none => rw [hb] at h; exact absurd h (by simp)
    | some st =>
      rw [hb] at h
      simp only [] at h
      rw [ih st rs1 h, hbody j rs st hb]

theorem roomStep_roomType {rs rs1 : List Room} {i : Nat} (h : roomStep i rs = some rs1) :
    rs1.map (fun x => x.roomType) = rs.map (fun x => x.roomType) := by
  unfold roomStep at h
  cases hr : rs[i]? with
  | none => rw [hr] at h; exact absurd h (by simp)
  | some ri =>
    rw [hr] at h
    simp only [] at h
    by_cases h6 : ri.maxConnections = 6
    · rw [if_pos h6] at h
      exact forLoop_roomType _ (fun j st st1 hc => connect_roomType hc) _ _ _ h
    · rw [if_neg h6] at h
      by_cases hlt : ri.maxConnections > (ri.currConnections : Int)
      · rw [if_pos hlt] at h
        cases hs : forLoop (scanBody i) (List.range' (i + 1) (ROOMS_IN_GAME - (i + 1))) rs with
        | none => rw [hs] at h; exact absurd h (by simp)
        | some st =>
          rw [hs] at h
          simp only [] at h
          rw [adjustMax_roomType h]
          exact forLoop_roomType _ (fun j s s1 hc => scanBody_roomType hc) _ _ _ hs
      · rw [if_neg hlt] at h
        rw [← Option.some.inj h]

/-- The function `createConnections` leaves the roles of the rooms as `createRooms`
set them. -/
theorem createConnections_roomType {rs rs1 : List Room} (h : createConnections rs = some rs1) :
    rs1.map (fun x => x.roomType) = rs.map (fun x => x.roomType) :=
  forLoop_roomType roomStep (fun _ _ _ hc => roomStep_roomType hc) _ _ _ h


/-- The full-connect loop of lines 194-199 changes the count of no room before
room `i`. -/
theorem connectAll_frame {rs : List Room} {i : Nat} (h : Inv rs i (i + 1)) (hi : i < 7) :
    ∃ rs1, forLoop (fun j st => connect st i j) (List.range' (i + 1) (7 - (i + 1))) rs = some rs1 ∧
      ∀ a, a < i → currOf rs1 a = currOf rs a := by
  have key := forLoop_rule (fun j st => connect st i j)
    (fun j st => Inv st i j ∧ ∀ a, a < i → currOf st a = currOf rs a)
    (7 - (i + 1)) (i + 1) rs ⟨h, fun _ _ => rfl⟩
    (by
      intro j st h1 h2 ⟨hinv, hcur⟩
      obtain ⟨st1, hc, hinv1, _, _, _, _, hcu⟩ := connect_spec hinv (by omega) (by omega)
      refine ⟨st1, hc, hinv1, ?_⟩
      intro a ha
      have hne : ¬ (a = i ∨ a = j) := by omega
      rw [hcu a, hcur a ha]
      simp [hne])
  obtain ⟨rs1, hrun, _, hcur⟩ := key
  exact ⟨rs1, hrun, hcur⟩

/-- The scan loop of lines 204-211, from a state that satisfies the invariant: it
changes no target and the count of no room before room `i`; and when every later
room has a target above `i`, it connects room `i` to every later room. -/
theorem scan_turn {rs : List Room} {i : Nat} (h : Inv rs i (i + 1)) (hi : i < 7) :
    ∃ rs1, forLoop (scanBody i) (List.range' (i + 1) (7 - (i + 1))) rs = some rs1 ∧
      Inv rs1 i 7 ∧
      (∀ a x, x ∈ nbrs rs a → x ∈ nbrs rs1 a) ∧
      (∀ a, maxOf rs1 a = maxOf rs a) ∧
      (∀ a, a < i → currOf rs1 a = currOf rs a) ∧
      ((∀ b, i < b → b < 7 → ∃ m, maxOf rs b = some m ∧ (i : Int) < m) →
        ∀ b, i < b → b < 7 → some b ∈ nbrs rs1 i) := by
  have key := forLoop_rule (scanBody i)
    (fun j st => Inv st i j ∧ (∀ a x, x ∈ nbrs rs a → x ∈ nbrs st a) ∧
      (∀ a, maxOf st a = maxOf rs a) ∧ (∀ a, a < i → currOf st a = currOf rs a) ∧
      ((∀ b, i < b → b < 7 → ∃ m, maxOf rs b = some m ∧ (i : Int) < m) →
        ∀ b, i < b → b < j → some b ∈ nbrs st i))
    (7 - (i + 1)) (i + 1) rs
    ⟨h, fun _ _ hx => hx, fun _ => rfl, fun _ _ => rfl, fun _ b h1 h2 => by omega⟩
    (by
      intro j st h1 h2 ⟨hinv, hkeep, hmax, hcur, hall⟩
      have hjl : j < st.length := by rw [hinv.len]; omega
      obtain ⟨rj, hrj⟩ : ∃ rj, st[j]? = some rj := ⟨st[j], by simp [hjl]⟩
      by_cases hcap : rj.maxConnections > (rj.currConnections : Int)
      · obtain ⟨st1, hc, hinv1, hni, hnj, hoth, hm, hcu⟩ :=
          connect_spec hinv (by omega) (by omega)
        have hk := connect_keeps hni hnj hoth
        refine ⟨st1, by simp [scanBody, hrj, hcap, hc], hinv1,
          fun a x hx => hk a x (hkeep a x hx), fun a => (hm a).trans (hmax a), ?_, ?_⟩
        · intro a ha
          have hne : ¬ (a = i ∨ a = j) := by omega
          rw [hcu a, hcur a ha]
          simp [hne]
        · intro hyp b hb1 hb2
          by_cases hbj : b = j
          · subst hbj; rw [hni]; simp
          · exact hk i _ (hall hyp b hb1 (by omega))
      · refine ⟨st, by simp [scanBody, hrj, hcap], hinv.skip, hkeep, hmax, hcur, ?_⟩
        intro hyp b hb1 hb2
        by_cases hbj : b = j
        · exfalso
          obtain ⟨m, hm, him⟩ := hyp j (by omega) (by omega)
          have hmj : maxOf st j = some rj.maxConnections := by simp [maxOf, hrj]
          rw [hmax j, hm] at hmj
          have hme : m = rj.maxConnections := Option.some.inj hmj
          have hb := hinv.bound j rj hrj
          have hcb : countBound i j j = i := by
            unfold countBound
            rw [if_neg (by omega), if_neg (by omega), if_neg (by omega)]
          rw [hcb] at hb
          apply hcap
          omega
        · exact hall hyp b hb1 (by omega))
  have e : i + 1 + (7 - (i + 1)) = 7 := by omega
  rw [e] at key
  exact key

/-- The adjustment of lines 213-214 on the target of room `i`: it becomes the count
when it was below the count, and stays otherwise. -/
theorem adjustMax_self {rs : List Room} {i : Nat} {ri : Room} (hri : rs[i]? = some ri) :
    ∃ rs1, adjustMax rs i = some rs1 ∧
      maxOf rs1 i = some (if ri.maxConnections < (ri.currConnections : Int)
        then (ri.currConnections : Int) else ri.maxConnections) := by
  have hil : i < rs.length := by
    rcases List.getElem?_eq_some_iff.mp hri with ⟨h1, _⟩; exact h1
  by_cases hlt : ri.maxConnections < (ri.currConnections : Int)
  · exact ⟨rs.set i { ri with maxConnections := (ri.currConnections : Int) },
      by simp [adjustMax, hri, hlt], by simp [maxOf, hil, hlt]⟩
  · exact ⟨rs, by simp [adjustMax, hri, hlt], by simp [maxOf, hri, hlt]⟩

/-- One turn of the outer loop of `createConnections`, from a state that satisfies
the invariant: it changes neither the target of another room nor the count of an
earlier room; the target of room `i` is not lowered, and when it changes it
becomes the count of room `i`; and when room `i` and every later room have a
target above `i`, room `i` is connected to every later room. -/
theorem roomStep_turn {rs : List Room} {i : Nat} (h : Inv rs i (i + 1)) (hi : i < 7) :
    ∃ rs1, roomStep i rs = some rs1 ∧ Inv rs1 (i + 1) (i + 2) ∧
      (∀ a x, x ∈ nbrs rs a → x ∈ nbrs rs1 a) ∧
      (∀ a, a ≠ i → maxOf rs1 a = maxOf rs a) ∧
      (∀ a, a < i → currOf rs1 a = currOf rs a) ∧
      (∀ m, maxOf rs i = some m → ∃ (m1 : Int) (c1 : Nat), maxOf rs1 i = some m1 ∧
        currOf rs1 i = some c1 ∧ m ≤ m1 ∧ (m1 ≠ m → m1 = (c1 : Int))) ∧
      ((∀ b, i ≤ b → b < 7 → ∃ m, maxOf rs b = some m ∧ (i : Int) < m) →
        ∀ b, i < b → b < 7 → some b ∈ nbrs rs1 i) := by
  have hil : i < rs.length := by rw [h.len]; exact hi
  obtain ⟨ri, hri⟩ : ∃ ri, rs[i]? = some ri := ⟨rs[i], by simp [hil]⟩
  have hmaxi : maxOf rs i = some ri.maxConnections := by simp [maxOf, hri]
  have hcount : ∀ {st : List Room}, st.length = 7 → ∃ c, currOf st i = some c := by
    intro st hlen
    have : i < st.length := by rw [hlen]; exact hi
    exact ⟨st[i].currConnections, by simp [currOf, this]⟩
  by_cases h6 : ri.maxConnections = 6
  · obtain ⟨rs1, hl, hinv, hkeep, hmax, hall⟩ := connectAll_spec h hi
    obtain ⟨rs2, hl2, hcur⟩ := connectAll_frame h hi
    rw [hl] at hl2
    have he : rs1 = rs2 := Option.some.inj hl2
    subst he
    have hrun : roomStep i rs = some rs1 := by
      simp only [roomStep, hri, h6, if_true, ROOMS_IN_GAME]
      exact hl
    obtain ⟨c1, hc1⟩ := hcount hinv.len
    refine ⟨rs1, hrun, hinv.next, hkeep, fun a _ => hmax a, hcur, ?_, fun _ => hall⟩
    intro m hm
    exact ⟨m, c1, by rw [hmax i, hm], hc1, Int.le_refl _, fun hne => absurd rfl hne⟩
  · by_cases hlt : ri.maxConnections > (ri.currConnections : Int)
    · obtain ⟨rs1, hl, hinv, hkeep, hmax, hcur, hall⟩ := scan_turn h hi
      obtain ⟨rs2, ha, hinv2, hn, hcu2, hm2⟩ := adjustMax_spec hinv hi
      have hil1 : i < rs1.length := by rw [hinv.len]; exact hi
      obtain ⟨r1, hr1⟩ : ∃ r1, rs1[i]? = some r1 := ⟨rs1[i], by simp [hil1]⟩
      obtain ⟨rs3, ha3, hself⟩ := adjustMax_self hr1
      rw [ha] at ha3
      have he : rs2 = rs3 := Option.some.inj ha3
      subst he
      have hrun : roomStep i rs = some rs2 := by
        simp only [roomStep, hri, h6, hlt, if_true, if_false, ROOMS_IN_GAME, hl]
        exact ha
      have hm1 : maxOf rs1 i = some r1.maxConnections := by simp [maxOf, hr1]
      have hc1 : currOf rs1 i = some r1.currConnections := by simp [currOf, hr1]
      refine ⟨rs2, hrun, hinv2.next, ?_, ?_, ?_, ?_, ?_⟩
      · intro a x hx; rw [hn a]; exact hkeep a x hx
      · intro a hai; rw [hm2 a hai]; exact hmax a
      · intro a hai; rw [hcu2 a]; exact hcur a hai
      · intro m hm
        rw [← hmax i, hm1] at hm
        have hme : r1.maxConnections = m := Option.some.inj hm
        refine ⟨_, r1.currConnections, hself, by rw [hcu2 i]; exact hc1, ?_, ?_⟩
        · split_ifs <;> omega
        · split_ifs <;> intro hne <;> first | rfl | exact absurd hme hne
      · intro hyp b hb1 hb2
        rw [hn i]
        exact hall (fun b1 h1 h2 => hyp b1 (by omega) h2) b hb1 hb2
    · obtain ⟨c1, hc1⟩ := hcount h.len
      refine ⟨rs, by simp [roomStep, hri, h6, hlt], h.skipTurn.next, fun _ _ hx => hx,
        fun _ _ => rfl, fun _ _ => rfl, ?_, ?_⟩
      · intro m hm
        exact ⟨m, c1, hm, hc1, Int.le_refl _, fun hne => absurd rfl hne⟩
      · intro hyp
        exfalso
        obtain ⟨m, hm, him⟩ := hyp i (Nat.le_refl _) hi
        rw [hmaxi] at hm
        have hme : ri.maxConnections = m := Option.some.inj hm
        have hb := h.bound i ri hri
        have hcb : countBound i (i + 1) i = i := by
          unfold countBound
          rw [if_neg (by omega), if_pos rfl]
          omega
        rw [hcb] at hb
        apply hlt
        omega

/-- The whole of `createConnections` on fresh rooms: no target is lowered, a target
that changed is the final count of its room, and when every target is 3 or more
each of the first three rooms lists every later room. -/
theorem createConnections_targets {rs : List Room} (h : Fresh rs) :
    ∃ rs1, createConnections rs = some rs1 ∧ Inv rs1 7 8 ∧
      (∀ a, a < 7 → ∀ m, maxOf rs a = some m → ∃ (m1 : Int) (c1 : Nat),
        maxOf rs1 a = some m1 ∧ currOf rs1 a = some c1 ∧ m ≤ m1 ∧ (m1 ≠ m → m1 = (c1 : Int))) ∧
      ((∀ b, b < 7 → ∃ m, maxOf rs b = some m ∧ (3 : Int) ≤ m) →
        ∀ a, a < 3 → ∀ b, a < b → b < 7 → some b ∈ nbrs rs1 a) := by
  have key := forLoop_rule roomStep
    (fun i st => Inv st i (i + 1) ∧ (∀ a, i ≤ a → maxOf st a = maxOf rs a) ∧
      (∀ a, a < i → ∀ m, maxOf rs a = some m → ∃ (m1 : Int) (c1 : Nat),
        maxOf st a = some m1 ∧ currOf st a = some c1 ∧ m ≤ m1 ∧ (m1 ≠ m → m1 = (c1 : Int))) ∧
      ((∀ b, b < 7 → ∃ m, maxOf rs b = some m ∧ (3 : Int) ≤ m) →
        ∀ a, a < i → a < 3 → ∀ b, a < b → b < 7 → some b ∈ nbrs st a))
    7 0 rs ⟨h.inv, fun _ _ => rfl, fun a ha => by omega, fun _ a ha => by omega⟩
    (by
      intro i st _ h2 ⟨hinv, hmax, hfin, hall⟩
      obtain ⟨st1, hr, hinv1, hkeep, hm, hcur, hself, hfull⟩ := roomStep_turn hinv (by omega)
      refine ⟨st1, hr, hinv1, ?_, ?_, ?_⟩
      · intro a ha
        rw [hm a (by omega)]
        exact hmax a (by omega)
      · intro a ha m hma
        by_cases hai : a = i
        · subst hai
          exact hself m ((hmax a (Nat.le_refl _)).trans hma)
        · obtain ⟨m1, c1, h1, h2, h3, h4⟩ := hfin a (by omega) m hma
          exact ⟨m1, c1, by rw [hm a hai]; exact h1, by rw [hcur a (by omega)]; exact h2, h3, h4⟩
      · intro hyp a ha ha3 b hab hb
        by_cases hai : a = i
        · subst hai
          apply hfull ?_ b hab hb
          intro b1 hb1 hb17
          obtain ⟨m, hm1, hm3⟩ := hyp b1 hb17
          exact ⟨m, (hmax b1 hb1).trans hm1, by omega⟩
        · exact hkeep a _ (hall hyp a (by omega) ha3 b hab hb))
  obtain ⟨rs1, hrun, hinv, _, hfin, hall⟩ := key
  exact ⟨rs1, hrun, hinv, fun a ha => hfin a (by omega),
    fun hyp a ha => hall hyp a (by omega) ha⟩


/-- When `createConnections` has ended, the count of a room is the length of its
list of connections, and at most 6. -/
theorem Inv.degree {rs : List Room} (h : Inv rs 7 8) {a : Nat} {r : Room}
    (hr : rs[a]? = some r) :
    (nbrs rs a).length = r.currConnections ∧ r.currConnections ≤ 6 := by
  have ha : a < 7 := by
    rcases List.getElem?_eq_some_iff.mp hr with ⟨h1, _⟩
    rw [h.len] at h1; exact h1
  have hb := h.bound a r hr
  have hcb : countBound 7 8 a = 6 := by
    unfold countBound
    rw [if_pos ha]
  rw [hcb] at hb
  refine ⟨?_, hb⟩
  rw [nbrs_of hr, List.length_take, h.slots a r hr]
  omega

/-- A room that lists `n` different rooms has a count of `n` or more. -/
theorem Inv.degree_ge {rs : List Room} (h : Inv rs 7 8) {a : Nat} {r : Room}
    (hr : rs[a]? = some r) (xs : List (Option Nat)) (hnd : xs.Nodup)
    (hsub : ∀ x ∈ xs, x ∈ nbrs rs a) : xs.length ≤ r.currConnections := by
  rw [← (h.degree hr).1]
  exact (List.subperm_of_subset hnd hsub).length_le

/-- The generator on seven pool indices and seven targets of 3 or more: it returns
seven rooms with the roles that `createRooms` set; no target has been lowered,
and a target that changed is the count of its room; and two different rooms of
which one is among the first three are connected. -/
theorem generate_spec (rooms connections : List Int)
    (hr : rooms.length = 7) (hc : connections.length = 7)
    (hpool : ∀ k ∈ rooms, 0 ≤ k ∧ k < 10) (ht : ∀ c ∈ connections, (3 : Int) ≤ c) :
    ∃ rs, generate rooms connections = some rs ∧ Inv rs 7 8 ∧
      rs.map (fun r => r.roomType)
        = ["START_ROOM", "MID_ROOM", "MID_ROOM", "MID_ROOM", "MID_ROOM", "MID_ROOM", "END_ROOM"] ∧
      (∀ a, a < 7 → ∃ (t m : Int) (c : Nat), connections[a]? = some t ∧
        maxOf rs a = some m ∧ currOf rs a = some c ∧ t ≤ m ∧ (m ≠ t → m = (c : Int))) ∧
      (∀ a b, a < 7 → b < 7 → a ≠ b → a < 3 ∨ b < 3 → some b ∈ nbrs rs a) := by
  obtain ⟨rs0, hrun0, hfresh, hroles, _, _, hmax⟩ := createRooms_spec rooms connections hr hc hpool
  have hmaxOf : ∀ a, maxOf rs0 a = connections[a]? := by
    intro a
    rw [← hmax, List.getElem?_map]
    unfold maxOf
    cases rs0[a]? <;> rfl
  obtain ⟨rs, hrun, hinv, hfin, hall⟩ := createConnections_targets hfresh
  have hfirst := hall (by
    intro b hb
    have hbl : b < connections.length := by rw [hc]; exact hb
    exact ⟨connections[b], by rw [hmaxOf b, List.getElem?_eq_getElem hbl],
      ht _ (List.getElem_mem hbl)⟩)
  refine ⟨rs, ?_, hinv, ?_, ?_, ?_⟩
  · simp only [generate, hrun0]
    exact hrun
  · rw [createConnections_roomType hrun, hroles]
  · intro a ha
    have hal : a < connections.length := by rw [hc]; exact ha
    have hta : connections[a]? = some connections[a] := List.getElem?_eq_getElem hal
    obtain ⟨m1, c1, h1, h2, h3, h4⟩ := hfin a ha connections[a] (by rw [hmaxOf a, hta])
    exact ⟨connections[a], m1, c1, hta, h1, h2, h3, h4⟩
  · intro a b ha hb hab h3
    by_cases hlt : a < b
    · rcases h3 with h3 | h3
      · exact hfirst a h3 b hlt hb
      · exact hfirst a (by omega) b hlt hb
    · have hba : b < a := by omega
      apply hinv.sym b a
      rcases h3 with h3 | h3
      · exact hfirst b (by omega) a hba ha
      · exact hfirst b h3 a hba ha

/-- Claim C21. Minimum degree: for every array of seven pool indices and every
array of seven targets, each between 3 and 6, `createRooms` followed by
`createConnections` returns seven rooms, each with `currConnections` at least
`MIN_CONNECTIONS`. -/
theorem generate_min_degree (rooms connections : List Int)
    (hr : rooms.length = ROOMS_IN_GAME) (hc : connections.length = ROOMS_IN_GAME)
    (hpool : ∀ k ∈ rooms, 0 ≤ k ∧ k < 10) (ht : ∀ c ∈ connections, 3 ≤ c ∧ c ≤ 6) :
    ∃ rs, generate rooms connections = some rs ∧ rs.length = ROOMS_IN_GAME ∧
      ∀ r ∈ rs, MIN_CONNECTIONS ≤ r.currConnections := by
  obtain ⟨rs, hrun, hinv, _, _, hadj⟩ :=
    generate_spec rooms connections hr hc hpool (fun c hcm => (ht c hcm).1)
  refine ⟨rs, hrun, hinv.len, ?_⟩
  intro r hmem
  obtain ⟨a, ha, hra⟩ := List.getElem_of_mem hmem
  have ha7 : a < 7 := by rw [hinv.len] at ha; exact ha
  have hr : rs[a]? = some r := by rw [List.getElem?_eq_getElem ha, hra]
  show 3 ≤ r.currConnections
  by_cases h3 : a < 3
  · refine hinv.degree_ge hr [some ((a + 1) % 4), some ((a + 2) % 4), some ((a + 3) % 4)]
      (by interval_cases a <;> decide) ?_
    intro x hx
    simp only [List.mem_cons, List.mem_singleton, List.not_mem_nil, or_false] at hx
    rcases hx with rfl | rfl | rfl <;> exact hadj a _ ha7 (by omega) (by omega) (Or.inl h3)
  · refine hinv.degree_ge hr [some 0, some 1, some 2] (by decide) ?_
    intro x hx
    simp only [List.mem_cons, List.mem_singleton, List.not_mem_nil, or_false] at hx
    rcases hx with rfl | rfl | rfl <;>
      exact hadj a _ ha7 (by omega) (by omega) (Or.inr (by omega))

theorem generate_min_degree_witness :
    ([3, 1, 4, 5, 9, 2, 6] : List Int).length = ROOMS_IN_GAME ∧
    ([3, 3, 3, 5, 3, 3, 3] : List Int).length = ROOMS_IN_GAME ∧
    (∀ k ∈ ([3, 1, 4, 5, 9, 2, 6] : List Int), 0 ≤ k ∧ k < 10) ∧
    (∀ c ∈ ([3, 3, 3, 5, 3, 3, 3] : List Int), 3 ≤ c ∧ c ≤ 6) ∧
    ∃ rs, generate [3, 1, 4, 5, 9, 2, 6] [3, 3, 3, 5, 3, 3, 3] = some rs ∧
      rs.length = ROOMS_IN_GAME ∧ ∀ r ∈ rs, MIN_CONNECTIONS ≤ r.currConnections :=
  ⟨by decide, by decide, by decide, by decide,
    generate_min_degree [3, 1, 4, 5, 9, 2, 6] [3, 3, 3, 5, 3, 3, 3] (by decide) (by decide)
      (by decide) (by decide)⟩

/-- Claim C22. Solvable in one move: for every array of seven pool indices and every
array of seven targets, each between 3 and 6, after `createRooms` and
`createConnections` room 0 is the start room and room 6 the end room; room 0 and
every other room list each other, whatever the target of room 0, so the end
room is adjacent to the start room and every room can be reached from every
room; and rooms 0, 1 and 2 each end with `currConnections = 6`. -/
theorem generate_start_adjacent_to_all (rooms connections : List Int)
    (hr : rooms.length = ROOMS_IN_GAME) (hc : connections.length = ROOMS_IN_GAME)
    (hpool : ∀ k ∈ rooms, 0 ≤ k ∧ k < 10) (ht : ∀ c ∈ connections, 3 ≤ c ∧ c ≤ 6) :
    ∃ rs, generate rooms connections = some rs ∧
      (∃ s e, rs[0]? = some s ∧ s.roomType = "START_ROOM" ∧
        rs[6]? = some e ∧ e.roomType = "END_ROOM") ∧
      (∀ b, 1 ≤ b → b < ROOMS_IN_GAME → some b ∈ nbrs rs 0 ∧ some 0 ∈ nbrs rs b) ∧
      (some 6 ∈ nbrs rs 0 ∧ some 0 ∈ nbrs rs 6) ∧
      (∀ a b, a < ROOMS_IN_GAME → b < ROOMS_IN_GAME →
        Relation.ReflTransGen (fun x y => some y ∈ nbrs rs x) a b) ∧
      currOf rs 0 = some 6 ∧ currOf rs 1 = some 6 ∧ currOf rs 2 = some 6 := by
  obtain ⟨rs, hrun, hinv, hroles, _, hadj⟩ :=
    generate_spec rooms connections hr hc hpool (fun c hcm => (ht c hcm).1)
  have hlen : rs.length = 7 := hinv.len
  have hstart : ∀ b, 1 ≤ b → b < ROOMS_IN_GAME → some b ∈ nbrs rs 0 ∧ some 0 ∈ nbrs rs b := by
    intro b hb1 hb7
    unfold ROOMS_IN_GAME at hb7
    exact ⟨hadj 0 b (by omega) hb7 (by omega) (Or.inl (by omega)),
      hadj b 0 hb7 (by omega) (by omega) (Or.inr (by omega))⟩
  have hsix : ∀ a, a < 3 → currOf rs a = some 6 := by
    intro a ha
    have hal : a < rs.length := by rw [hlen]; omega
    have hra : rs[a]? = some rs[a] := List.getElem?_eq_getElem hal
    have hge := hinv.degree_ge hra
      [some ((a + 1) % 7), some ((a + 2) % 7), some ((a + 3) % 7), some ((a + 4) % 7),
        some ((a + 5) % 7), some ((a + 6) % 7)]
      (by interval_cases a <;> decide)
      (by
        intro x hx
        simp only [List.mem_cons, List.mem_singleton, List.not_mem_nil, or_false] at hx
        rcases hx with rfl | rfl | rfl | rfl | rfl | rfl <;>
          exact hadj a _ (by omega) (by omega) (by omega) (Or.inl ha))
    have hle := (hinv.degree hra).2
    have h6 : rs[a].currConnections = 6 := by
      simp only [List.length_cons, List.length_nil] at hge
      omega
    simp only [currOf, hra, h6]
  refine ⟨rs, hrun, ?_, hstart, hstart 6 (by decide) (by decide), ?_,
    hsix 0 (by decide), hsix 1 (by decide), hsix 2 (by decide)⟩
  · have h0 : (rs.map (fun r => r.roomType))[0]? = some "START_ROOM" := by rw [hroles]; rfl
    have h6 : (rs.map (fun r => r.roomType))[6]? = some "END_ROOM" := by rw [hroles]; rfl
    rw [List.getElem?_map] at h0 h6
    obtain ⟨s, hs, hst⟩ := Option.map_eq_some'.mp h0
    obtain ⟨e, he, het⟩ := Option.map_eq_some'.mp h6
    exact ⟨s, e, hs, hst, he, het⟩
  · intro a b ha hb
    unfold ROOMS_IN_GAME at ha hb
    by_cases hab : a = b
    · rw [hab]
    · by_cases ha0 : a = 0
      · subst ha0
        exact Relation.ReflTransGen.single (hadj 0 b ha hb hab (Or.inl (by omega)))
      · by_cases hb0 : b = 0
        · subst hb0
          exact Relation.ReflTransGen.single (hadj a 0 ha hb hab (Or.inr (by omega)))
        · exact Relation.ReflTransGen.trans
            (Relation.ReflTransGen.single (hadj a 0 ha (by omega) ha0 (Or.inr (by omega))))
            (Relation.ReflTransGen.single
              (hadj 0 b (by omega) hb (fun h => hb0 h.symm) (Or.inl (by omega))))

theorem generate_start_adjacent_to_all_witness :
    ([3, 1, 4, 5, 9, 2, 6] : List Int).length = ROOMS_IN_GAME ∧
    ([3, 3, 3, 5, 3, 3, 3] : List Int).length = ROOMS_IN_GAME ∧
    (∀ k ∈ ([3, 1, 4, 5, 9, 2, 6] : List Int), 0 ≤ k ∧ k < 10) ∧
    (∀ c ∈ ([3, 3, 3, 5, 3, 3, 3] : List Int), 3 ≤ c ∧ c ≤ 6) ∧
    ∃ rs, generate [3, 1, 4, 5, 9, 2, 6] [3, 3, 3, 5, 3, 3, 3] = some rs ∧
      (∃ s e, rs[0]? = some s ∧ s.roomType = "START_ROOM" ∧
        rs[6]? = some e ∧ e.roomType = "END_ROOM") ∧
      (∀ b, 1 ≤ b → b < ROOMS_IN_GAME → some b ∈ nbrs rs 0 ∧ some 0 ∈ nbrs rs b) ∧
      (some 6 ∈ nbrs rs 0 ∧ some 0 ∈ nbrs rs 6) ∧
      (∀ a b, a < ROOMS_IN_GAME → b < ROOMS_IN_GAME →
        Relation.ReflTransGen (fun x y => some y ∈ nbrs rs x) a b) ∧
      currOf rs 0 = some 6 ∧ currOf rs 1 = some 6 ∧ currOf rs 2 = some 6 :=
  ⟨by decide, by decide, by decide, by decide,
    generate_start_adjacent_to_all [3, 1, 4, 5, 9, 2, 6] [3, 3, 3, 5, 3, 3, 3] (by decide)
      (by decide) (by decide) (by decide)⟩

/-- Claim C23. The target is only ever raised: for every array of seven pool indices
and every array of seven targets, each between 3 and 6, and every room `a`, after
`createRooms` and `createConnections` the `maxConnections` of room `a` is at least
the target `connections[a]` that the room was given and is between 3 and 6; and
when it differs from that target it is the final `currConnections` of the room. -/
theorem generate_target_only_raised (rooms connections : List Int)
    (hr : rooms.length = ROOMS_IN_GAME) (hc : connections.length = ROOMS_IN_GAME)
    (hpool : ∀ k ∈ rooms, 0 ≤ k ∧ k < 10) (ht : ∀ c ∈ connections, 3 ≤ c ∧ c ≤ 6) :
    ∃ rs, generate rooms connections = some rs ∧
      ∀ a, a < ROOMS_IN_GAME → ∃ (t m : Int) (c : Nat), connections[a]? = some t ∧
        maxOf rs a = some m ∧ currOf rs a = some c ∧
        t ≤ m ∧ 3 ≤ m ∧ m ≤ 6 ∧ (m ≠ t → m = (c : Int)) := by
  obtain ⟨rs, hrun, hinv, _, hfin, _⟩ :=
    generate_spec rooms connections hr hc hpool (fun c hcm => (ht c hcm).1)
  refine ⟨rs, hrun, ?_⟩
  intro a ha
  obtain ⟨t, m, c, hta, hm, hcu, htm, hne⟩ := hfin a ha
  have htr := ht t (List.getElem?_mem hta)
  have hc6 : c ≤ 6 := by
    unfold currOf at hcu
    cases hra : rs[a]? with
    | none => rw [hra] at hcu; exact absurd hcu (by simp)
    | some r =>
      rw [hra] at hcu
      have := (hinv.degree hra).2
      rw [← Option.some.inj hcu]
      exact this
  refine ⟨t, m, c, hta, hm, hcu, htm, by omega, ?_, hne⟩
  by_cases hmt : m = t
  · omega
  · have := hne hmt
    omega

theorem generate_target_only_raised_witness :
    ([3, 1, 4, 5, 9, 2, 6] : List Int).length = ROOMS_IN_GAME ∧
    ([3, 6, 4, 5, 3, 6, 4] : List Int).length = ROOMS_IN_GAME ∧
    (∀ k ∈ ([3, 1, 4, 5, 9, 2, 6] : List Int), 0 ≤ k ∧ k < 10) ∧
    (∀ c ∈ ([3, 6, 4, 5, 3, 6, 4] : List Int), 3 ≤ c ∧ c ≤ 6) ∧
    ∃ rs, generate [3, 1, 4, 5, 9, 2, 6] [3, 6, 4, 5, 3, 6, 4] = some rs ∧
      ∀ a, a < ROOMS_IN_GAME → ∃ (t m : Int) (c : Nat),
        ([3, 6, 4, 5, 3, 6, 4] : List Int)[a]? = some t ∧
        maxOf rs a = some m ∧ currOf rs a = some c ∧
        t ≤ m ∧ 3 ≤ m ∧ m ≤ 6 ∧ (m ≠ t → m = (c : Int)) :=
  ⟨by decide, by decide, by decide, by decide,
    generate_target_only_raised [3, 1, 4, 5, 9, 2, 6] [3, 6, 4, 5, 3, 6, 4] (by decide)
      (by decide) (by decide) (by decide)⟩

end BuildRooms
